import Mathlib

/-!
# SchedOS kernel scheduler (`schedos-kern.c`)

A shallow embedding of the kernel of the WeensyOS scheduling lab: the process
table, the interrupt dispatcher `interrupt`, the scheduler `schedule` with its
five algorithms and the pseudo-random source `linear_feedback_shift_register`.

Conventions of the embedding.

* The C globals (`proc_array`, `current`, `scheduling_algorithm`, `tsc`,
  `lottery_values`, `cursorpos` and the console memory) are the fields of one
  record `Kernel` that every operation takes and gives back.
* `current` is a pointer into `proc_array`; it is represented by the index of
  the slot it points to.  `start` stores `i` in `proc_array[i].p_pid` and no
  other statement writes `p_pid`, so `current->p_pid` is that index.
* `run` and `schedule` never return in C.  An operation of the embedding
  yields an `Outcome`: the kernel state at the moment control leaves the
  kernel for a process (`dispatch`), the state in which the kernel spins in
  `while (1) /* do nothing */;` (`halt`), the state reached when the given
  number of loop iterations is used up (`fuelOut`), or the state at a division
  by zero (`fault`).
* `int` values are `Int`, `unsigned` values are `Nat`; conversions between the
  two are explicit (`toInt32`, `toUInt32`).
-/

namespace SchedOS

/-- The number of process descriptors: `#define NPROCS 5`. -/
abbrev NPROCS : Nat := 5

/-- Modelled from the spec: `procstate_t` is declared in `schedos-kern.h`, which
is not among the sources; the spec names the states `EMPTY`, `RUNNABLE` and
`ZOMBIE`, the source uses them as `P_EMPTY`, `P_RUNNABLE` and `P_ZOMBIE`. -/
inductive procstate_t where
  | P_EMPTY
  | P_RUNNABLE
  | P_ZOMBIE
deriving DecidableEq, Repr

open procstate_t

/-- Modelled from the spec: `registers_t` is declared in `x86.h`, which is not
among the sources.  The kernel reads and writes the four members below and
copies the snapshot as a whole. -/
structure registers_t where
  reg_intno : Nat
  reg_eax : Nat
  reg_eip : Nat
  reg_esp : Nat
deriving DecidableEq, Repr

/-- Modelled from the spec: `process_t` is declared in `schedos-kern.h`, which is
not among the sources.  The members are those the kernel uses, with the types
the spec gives them (integers); `p_pid` is the index of the slot. -/
structure process_t where
  p_registers : registers_t
  p_state : procstate_t
  p_exit_status : Int
  p_priority : Int
  p_shares : Int
  p_shareCount : Int
deriving DecidableEq, Repr

/-- The global variables of the kernel. -/
structure Kernel where
  proc_array : Fin NPROCS → process_t
  current : Fin NPROCS
  scheduling_algorithm : Int
  tsc : Nat
  lottery_values : Fin NPROCS → Int
  cursorpos : Nat
  console : Nat → Nat

/-- How an entry into the kernel ends. -/
inductive Outcome where
  | dispatch (k : Kernel)
  | halt (k : Kernel)
  | fuelOut (k : Kernel)
  | fault (k : Kernel)

/-- The kernel state an outcome carries. -/
def Outcome.kernel : Outcome → Kernel
  | .dispatch k => k
  | .halt k => k
  | .fuelOut k => k
  | .fault k => k

/-- The pid that was dispatched, if the outcome is a dispatch. -/
def Outcome.dispatched : Outcome → Option (Fin NPROCS)
  | .dispatch k => some k.current
  | _ => none

/-- Conversion of a 32-bit `unsigned` value to `int` (two's complement). -/
def toInt32 (n : Nat) : Int :=
  if n % 2 ^ 32 < 2 ^ 31 then ((n % 2 ^ 32 : Nat) : Int) else ((n % 2 ^ 32 : Nat) : Int) - 2 ^ 32

/-- Conversion of an `int` value to 32-bit `unsigned`. -/
def toUInt32 (i : Int) : Nat := (i % 2 ^ 32).toNat

/-- The assignment `proc_array[pid] = p`. -/
def setProc (k : Kernel) (pid : Fin NPROCS) (p : process_t) : Kernel :=
  { k with proc_array := fun j => if j = pid then p else k.proc_array j }

/-- The step `(pid + 1) % NPROCS`. -/
def nextPid (pid : Fin NPROCS) : Fin NPROCS :=
  ⟨(pid.val + 1) % NPROCS, Nat.mod_lt _ (by decide)⟩

/-- Modelled from the spec: `run` is defined in `schedos-x86.c`, which is not
among the sources.  It makes `current` refer to the descriptor it is given,
restores that descriptor's registers and does not return. -/
def run (k : Kernel) (pid : Fin NPROCS) : Outcome :=
  .dispatch { k with current := pid }

/-- One call of the pseudo-random source: the value returned and the kernel
with the new `tsc`. -/
def linear_feedback_shift_register (k : Kernel) : Nat × Kernel :=
  let lfsr := k.tsc
  let bit := ((lfsr >>> 0) ^^^ (lfsr >>> 2) ^^^ (lfsr >>> 3) ^^^ (lfsr >>> 5)) &&& 1
  let r := (lfsr >>> 1) ||| (bit <<< 15)
  (r, { k with tsc := r })

/-- The loop of the round-robin algorithm (`scheduling_algorithm == 0`). -/
def rrLoop (k : Kernel) : Nat → Fin NPROCS → Outcome
  | 0, _ => .fuelOut k
  | fuel + 1, pid =>
    let pid := nextPid pid
    if (k.proc_array pid).p_state = P_RUNNABLE then run k pid
    else rrLoop k fuel pid

/-- The loop of the strict priority algorithm (`scheduling_algorithm == 1`). -/
def strictLoop (k : Kernel) : Nat → Fin NPROCS → Outcome
  | 0, _ => .fuelOut k
  | fuel + 1, pid =>
    if (k.proc_array pid).p_state ≠ P_RUNNABLE then strictLoop k fuel (nextPid pid)
    else run k pid

/-- The first loop of the numeric-priority algorithm: advance to a runnable
process. -/
def findStart (k : Kernel) : Nat → Fin NPROCS → Option (Fin NPROCS)
  | 0, _ => none
  | fuel + 1, pid =>
    if (k.proc_array pid).p_state ≠ P_RUNNABLE then findStart k fuel (nextPid pid)
    else some pid

/-- The `for` loop of the numeric-priority algorithm with `n` iterations left;
the result is the final `nextPid`. -/
def prioScan (k : Kernel) : Nat → Fin NPROCS → Int → Fin NPROCS → Fin NPROCS
  | 0, _, _, best => best
  | n + 1, pid, maxPriority, best =>
    let pid := nextPid pid
    if (k.proc_array pid).p_state = P_RUNNABLE ∧ (k.proc_array pid).p_priority ≤ maxPriority then
      prioScan k n pid (k.proc_array pid).p_priority pid
    else prioScan k n pid maxPriority best

/-- The loop of the proportional-share algorithm (`scheduling_algorithm == 3`).
`p_shareCount++` cannot overflow: it runs only when `p_shareCount < p_shares`. -/
def shareLoop : Nat → Kernel → Fin NPROCS → Outcome
  | 0, k, _ => .fuelOut k
  | fuel + 1, k, pid =>
    let p := k.proc_array pid
    if p.p_shareCount < p.p_shares then
      let k1 := setProc k pid { p with p_shareCount := p.p_shareCount + 1 }
      if p.p_state = P_RUNNABLE then run k1 pid
      else shareLoop fuel k1 pid
    else
      shareLoop fuel (setProc k pid { p with p_shareCount := 0 }) (nextPid pid)

/-- The `for` loop of the lottery algorithm from index `i` on, with `n`
iterations left: the first index whose cumulative ticket count exceeds the
selector. -/
def lotteryFor (tickets : Fin NPROCS → Int) (lotterySelector : Int) :
    Nat → Nat → Option (Fin NPROCS)
  | 0, _ => none
  | n + 1, i =>
    if h : i < NPROCS then
      if lotterySelector < tickets ⟨i, h⟩ then some ⟨i, h⟩
      else lotteryFor tickets lotterySelector n (i + 1)
    else none

/-- The pid a selector value chooses: `for (i = 1; i < NPROCS; i++)`. -/
def lotteryPick (tickets : Fin NPROCS → Int) (lotterySelector : Int) : Option (Fin NPROCS) :=
  lotteryFor tickets lotterySelector (NPROCS - 1) 1

/-- The loop of the lottery algorithm (`scheduling_algorithm == 4`).  The
remainder is taken in `unsigned` arithmetic and stored in an `int`. -/
def lotteryLoop : Nat → Kernel → Outcome
  | 0, k => .fuelOut k
  | fuel + 1, k =>
    let r := linear_feedback_shift_register k
    let k1 := r.2
    let total := toUInt32 (k1.lottery_values 0)
    if total = 0 then .fault k1
    else
      let lotterySelector := toInt32 (r.1 % total)
      match lotteryPick k1.lottery_values lotterySelector with
      | some i =>
        if (k1.proc_array i).p_state = P_RUNNABLE then run k1 i
        else lotteryLoop fuel k1
      | none => lotteryLoop fuel k1

/-- The scheduler.  `fuel` bounds the number of loop iterations of the chosen
algorithm.  In the last branch the text written by `console_printf` is not
represented. -/
def schedule (fuel : Nat) (k : Kernel) : Outcome :=
  let pid := k.current
  if k.scheduling_algorithm = 0 then rrLoop k fuel pid
  else if k.scheduling_algorithm = 1 then strictLoop k fuel 1
  else if k.scheduling_algorithm = 2 then
    match findStart k fuel pid with
    | none => .fuelOut k
    | some pid => run k (prioScan k (NPROCS - 1) pid (k.proc_array pid).p_priority pid)
  else if k.scheduling_algorithm = 3 then shareLoop fuel k pid
  else if k.scheduling_algorithm = 4 then lotteryLoop fuel k
  else .halt k

/-- Modelled from the spec: the trap numbers are constants of `schedos.h`, which
is not among the sources.  They are the labels of one `switch`, hence pairwise
different. -/
structure TrapNumbers where
  INT_SYS_YIELD : Nat
  INT_SYS_EXIT : Nat
  INT_SYS_SHARE : Nat
  INT_SYS_PRIORITIZE : Nat
  INT_SYS_ATOMIC_CHAR : Nat
  INT_CLOCK : Nat
  distinct : [INT_SYS_YIELD, INT_SYS_EXIT, INT_SYS_SHARE, INT_SYS_PRIORITIZE,
    INT_SYS_ATOMIC_CHAR, INT_CLOCK].Nodup

/-- A concrete choice of trap numbers. -/
def sampleTraps : TrapNumbers where
  INT_SYS_YIELD := 48
  INT_SYS_EXIT := 49
  INT_SYS_SHARE := 50
  INT_SYS_PRIORITIZE := 51
  INT_SYS_ATOMIC_CHAR := 52
  INT_CLOCK := 32
  distinct := by decide

/-- The interrupt and system call handler.  No `case` of the `switch` falls
through to the next one: each ends in `schedule()` or `run(current)`, which do
not return.  A console cell is a `uint16_t`, two bytes wide. -/
def interrupt (T : TrapNumbers) (fuel : Nat) (k : Kernel) (reg : registers_t) : Outcome :=
  let k := setProc k k.current { k.proc_array k.current with p_registers := reg }
  let cur := k.proc_array k.current
  if reg.reg_intno = T.INT_SYS_YIELD then schedule fuel k
  else if reg.reg_intno = T.INT_SYS_EXIT then
    schedule fuel (setProc k k.current
      { cur with p_state := P_ZOMBIE, p_exit_status := toInt32 reg.reg_eax })
  else if reg.reg_intno = T.INT_SYS_SHARE then
    run (setProc k k.current { cur with p_shares := toInt32 reg.reg_eax }) k.current
  else if reg.reg_intno = T.INT_SYS_PRIORITIZE then
    run (setProc k k.current { cur with p_priority := toInt32 reg.reg_eax }) k.current
  else if reg.reg_intno = T.INT_SYS_ATOMIC_CHAR then
    schedule fuel { k with
      console := fun a => if a = k.cursorpos then reg.reg_eax % 2 ^ 16 else k.console a
      cursorpos := k.cursorpos + 2 }
  else if reg.reg_intno = T.INT_CLOCK then schedule fuel k
  else .halt k

/-- The address of the first process image: `#define PROC1_START 0x200000`. -/
def PROC1_START : Nat := 0x200000

/-- The memory given to each process: `#define PROC_SIZE 0x100000`. -/
def PROC_SIZE : Nat := 0x100000

/-- The kernel state in which `start` calls `run(&proc_array[1])`.  `seed` is the
value `rdtsc` leaves in `tsc`, `entry i` the instruction pointer that
`program_loader` sets for process `i`; `special_registers_init` touches only
registers that are not represented. -/
def startState (seed : Nat) (entry : Fin NPROCS → Nat) : Kernel where
  proc_array := fun i =>
    { p_registers :=
        if i.val = 0 then ⟨0, 0, 0, 0⟩
        else ⟨0, 0, entry i, PROC1_START + i.val * PROC_SIZE⟩
      p_state := if i.val = 0 then P_EMPTY else P_RUNNABLE
      p_exit_status := 0
      p_priority := if i.val = 1 then 1 else if i.val = 4 then 2 else 0
      p_shares := (i.val : Int)
      p_shareCount := 0 }
  current := 0
  scheduling_algorithm := 0
  tsc := seed
  lottery_values := fun i =>
    if i.val = 1 then 30 else if i.val = 2 then 30 + 2 else if i.val = 3 then 30 + 2 + 10
    else 30 + 2 + 10 + 100
  cursorpos := 0xB8000
  console := fun _ => 0

/-- The bootstrap: set up the descriptors and switch to the first process. -/
def start (seed : Nat) (entry : Fin NPROCS → Nat) : Outcome :=
  run (startState seed entry) 1

/-! ## Notions used in the statements -/

/-- The pid `e` steps after `pid` in the cyclic order of the table. -/
def off (pid : Fin NPROCS) (e : Nat) : Fin NPROCS :=
  ⟨(pid.val + e) % NPROCS, Nat.mod_lt _ (by decide)⟩

/-- The recurrence of the random source in the words of the spec:
`bit = (reg>>0 ^ reg>>2 ^ reg>>3 ^ reg>>5) & 1; reg = (reg>>1) | (bit<<15)`. -/
def lfsrStepSpec (reg : Nat) : Nat :=
  let bit := ((reg >>> 0) ^^^ (reg >>> 2) ^^^ (reg >>> 3) ^^^ (reg >>> 5)) &&& 1
  (reg >>> 1) ||| (bit <<< 15)

/-- The values returned by `n` consecutive calls of the random source, and the
kernel after them. -/
def lfsrCalls : Nat → Kernel → List Nat × Kernel
  | 0, k => ([], k)
  | n + 1, k =>
    let r := linear_feedback_shift_register k
    let rest := lfsrCalls n r.2
    (r.1 :: rest.1, rest.2)

/-- The pids dispatched by `n` consecutive calls of `schedule`, each entered in
the state the previous one dispatched in, and the kernel after the last call;
`none` when one of the calls does not dispatch. -/
def scheduleCalls (fuel : Nat) : Nat → Kernel → Option (List (Fin NPROCS) × Kernel)
  | 0, k => some ([], k)
  | n + 1, k =>
    match schedule fuel k with
    | .dispatch k1 => (scheduleCalls fuel n k1).map fun r => (k1.current :: r.1, r.2)
    | _ => none

/-- The kernel right after `start` has switched to process 1, with the scheduling
algorithm set to `mode` (`start` sets 0; the lab changes the constant). -/
def bootKernel (mode : Int) : Kernel :=
  { startState 0xACE1 (fun _ => 0) with current := 1, scheduling_algorithm := mode }

/-- The cumulative ticket table `[142, 30, 32, 42, 142]`. -/
def sampleTickets : Fin NPROCS → Int := ![142, 30, 32, 42, 142]

/-- The offsets `d` in `m+1 .. NPROCS` for which the descriptor `d` steps after `c` is
runnable, in increasing order. -/
def runnableOffsets (k : Kernel) (c : Fin NPROCS) (m : Nat) : List Nat :=
  (List.range' (m + 1) (NPROCS - m)).filter
    fun d => decide ((k.proc_array (off c d)).p_state = P_RUNNABLE)

/-- The number of RUNNABLE descriptors of the table. -/
def runnableCount (k : Kernel) : Nat :=
  ((List.finRange NPROCS).filter
    fun i => decide ((k.proc_array i).p_state = P_RUNNABLE)).length

/-- The order in which four calls visit pids 1 to 4 from current pid `c`. -/
def cycleFrom (c : Fin NPROCS) : List (Fin NPROCS) :=
  match c.val with
  | 1 => [2, 3, 4, 1]
  | 2 => [3, 4, 1, 2]
  | 3 => [4, 1, 2, 3]
  | _ => [1, 2, 3, 4]

/-- What the proportional-share algorithm reads of a descriptor: its state, its
shares and its share count. -/
def shareView (k : Kernel) (i : Fin NPROCS) : procstate_t × Int × Int :=
  ((k.proc_array i).p_state, (k.proc_array i).p_shares, (k.proc_array i).p_shareCount)

/-- Two kernels in proportional-share mode that agree on the current pid and on
everything the algorithm reads. -/
def ShareSim (k k' : Kernel) : Prop :=
  k.current = k'.current ∧ k.scheduling_algorithm = 3 ∧ k'.scheduling_algorithm = 3 ∧
    ∀ i, shareView k i = shareView k' i

instance (k k1 : Kernel) : Decidable (ShareSim k k1) := by
  unfold ShareSim; infer_instance

/-- The order of dispatch of one full cycle with shares 1, 2, 3, 4. -/
def shareCycle : List (Fin NPROCS) := [1, 2, 2, 3, 3, 3, 4, 4, 4, 4]

/-- The order of dispatch of `n` full cycles. -/
def shareCycles : Nat → List (Fin NPROCS)
  | 0 => []
  | n + 1 => shareCycle ++ shareCycles n

/-- The kernel after the first full cycle from the bootstrap state. -/
def afterCycle : Kernel :=
  match scheduleCalls 3 10 (bootKernel 3) with
  | some r => r.2
  | none => bootKernel 3

/-- Two descriptors that differ at most in `p_shareCount`. -/
def sameButCount (p q : process_t) : Prop :=
  p.p_registers = q.p_registers ∧ p.p_state = q.p_state ∧ p.p_exit_status = q.p_exit_status ∧
    p.p_priority = q.p_priority ∧ p.p_shares = q.p_shares

instance (p q : process_t) : Decidable (sameButCount p q) := by
  unfold sameButCount; infer_instance

/-- Whether an outcome is the kernel spinning in its idle loop. -/
def Outcome.isHalt : Outcome → Bool
  | .halt _ => true
  | _ => false

/-- The number of steps `(pid + 1) % NPROCS` after which the scan that starts at `st`
meets `j`. -/
def scanPos (st j : Fin NPROCS) : Nat := (j.val + NPROCS - st.val) % NPROCS

/-- The priorities that `start` gives pids 1 to 4. -/
def bootPriorities (k : Kernel) : Prop :=
  (k.proc_array 1).p_priority = 1 ∧ (k.proc_array 2).p_priority = 0 ∧
    (k.proc_array 3).p_priority = 0 ∧ (k.proc_array 4).p_priority = 2

instance (k : Kernel) : Decidable (bootPriorities k) := by
  unfold bootPriorities; infer_instance

/-- The kernel `k` with the state of descriptor `pid` set to `s`. -/
def withState (k : Kernel) (pid : Fin NPROCS) (s : procstate_t) : Kernel :=
  setProc k pid { k.proc_array pid with p_state := s }

/-- The selector of the next lottery draw in kernel `k`. -/
def nextSelector (k : Kernel) : Int :=
  toInt32 ((linear_feedback_shift_register k).1 % toUInt32 (k.lottery_values 0))

/-- The kernel in which `start` dispatches process 1, with the scheduling algorithm
set to `mode` (`start` itself sets 0). -/
def startKernel (seed : Nat) (entry : Fin NPROCS → Nat) (mode : Int) : Kernel :=
  { startState seed entry with current := 1, scheduling_algorithm := mode }

/-- The kernel reached from `k` by a sequence of entries into `interrupt`, each given
by the fuel of its scheduling and the register snapshot of the trap; `none` when
one of the entries does not end in a dispatch. -/
def kernelSteps (T : TrapNumbers) : List (Nat × registers_t) → Kernel → Option Kernel
  | [], k => some k
  | (fuel, reg) :: rest, k =>
    match interrupt T fuel k reg with
    | .dispatch k1 => kernelSteps T rest k1
    | _ => none

/-- The number of selector values in `0 .. tickets[0] - 1` that choose pid `i`. -/
def selectorCount (tickets : Fin NPROCS → Int) (i : Fin NPROCS) : Nat :=
  ((List.range (tickets 0).toNat).filter
    fun (s : Nat) => decide (lotteryPick tickets (s : Int) = some i)).length

/-! ## Auxiliary lemmas -/

@[simp] theorem setProc_proc_self (k : Kernel) (pid : Fin NPROCS) (p : process_t) :
    (setProc k pid p).proc_array pid = p := by
  simp [setProc]

theorem setProc_proc_other (k : Kernel) (pid j : Fin NPROCS) (p : process_t) (h : j ≠ pid) :
    (setProc k pid p).proc_array j = k.proc_array j := by
  simp [setProc, h]

theorem setProc_state (k : Kernel) (pid j : Fin NPROCS) (p : process_t)
    (h : p.p_state = (k.proc_array pid).p_state) :
    ((setProc k pid p).proc_array j).p_state = (k.proc_array j).p_state := by
  by_cases hj : j = pid
  · subst hj; simp [h]
  · rw [setProc_proc_other k pid j p hj]

/-- Round robin is the strict scan started one slot further. -/
theorem rrLoop_eq_strictLoop (k : Kernel) (fuel : Nat) (pid : Fin NPROCS) :
    rrLoop k fuel pid = strictLoop k fuel (nextPid pid) := by
  induction fuel generalizing pid with
  | zero => rfl
  | succ n ih =>
    rw [rrLoop, strictLoop]
    by_cases h : (k.proc_array (nextPid pid)).p_state = P_RUNNABLE
    · simp [h]
    · simp [h, ih]

theorem strictLoop_dispatch (k : Kernel) (fuel : Nat) (pid : Fin NPROCS) (k1 : Kernel)
    (h : strictLoop k fuel pid = .dispatch k1) :
    k1 = { k with current := k1.current } ∧ (k.proc_array k1.current).p_state = P_RUNNABLE := by
  induction fuel generalizing pid with
  | zero => simp [strictLoop] at h
  | succ n ih =>
    rw [strictLoop] at h
    by_cases hs : (k.proc_array pid).p_state = P_RUNNABLE
    · simp [hs, run] at h
      subst h
      exact ⟨rfl, hs⟩
    · simp [hs] at h
      exact ih _ h

theorem strictLoop_kernel (k : Kernel) (fuel : Nat) (pid : Fin NPROCS) :
    ∃ c, (strictLoop k fuel pid).kernel = { k with current := c } := by
  induction fuel generalizing pid with
  | zero => exact ⟨k.current, rfl⟩
  | succ n ih =>
    rw [strictLoop]
    by_cases hs : (k.proc_array pid).p_state = P_RUNNABLE
    · simp [hs, run, Outcome.kernel]
    · simp [hs]
      exact ih _

theorem findStart_runnable (k : Kernel) (fuel : Nat) (pid st : Fin NPROCS)
    (h : findStart k fuel pid = some st) : (k.proc_array st).p_state = P_RUNNABLE := by
  induction fuel generalizing pid with
  | zero => simp [findStart] at h
  | succ n ih =>
    rw [findStart] at h
    by_cases hs : (k.proc_array pid).p_state = P_RUNNABLE
    · simp [hs] at h
      subst h; exact hs
    · simp [hs] at h
      exact ih _ h

theorem prioScan_runnable (k : Kernel) (n : Nat) (pid : Fin NPROCS) (mp : Int) (best : Fin NPROCS)
    (hb : (k.proc_array best).p_state = P_RUNNABLE) :
    (k.proc_array (prioScan k n pid mp best)).p_state = P_RUNNABLE := by
  induction n generalizing pid mp best with
  | zero => simpa [prioScan] using hb
  | succ n ih =>
    rw [prioScan]
    split
    · next h => exact ih _ _ _ h.1
    · exact ih _ _ _ hb

theorem shareLoop_state (fuel : Nat) (k : Kernel) (pid j : Fin NPROCS) :
    (((shareLoop fuel k pid).kernel).proc_array j).p_state = (k.proc_array j).p_state := by
  induction fuel generalizing k pid with
  | zero => rfl
  | succ n ih =>
    rw [shareLoop]
    simp only
    split
    · split
      · simp only [run, Outcome.kernel]
        exact setProc_state k pid j _ rfl
      · rw [ih]
        exact setProc_state k pid j _ rfl
    · rw [ih]
      exact setProc_state k pid j _ rfl

theorem shareLoop_dispatch (fuel : Nat) (k : Kernel) (pid : Fin NPROCS) (k1 : Kernel)
    (h : shareLoop fuel k pid = .dispatch k1) :
    (k.proc_array k1.current).p_state = P_RUNNABLE := by
  induction fuel generalizing k pid with
  | zero => simp [shareLoop] at h
  | succ n ih =>
    rw [shareLoop] at h
    simp only at h
    split at h
    · split at h
      · next hs =>
        simp only [run, Outcome.dispatch.injEq] at h
        subst h
        exact hs
      · have := ih _ _ h
        rw [setProc_state] at this
        · exact this
        · rfl
    · have := ih _ _ h
      rw [setProc_state] at this
      · exact this
      · rfl

theorem lfsr_proc_array (k : Kernel) :
    (linear_feedback_shift_register k).2.proc_array = k.proc_array := rfl

theorem lotteryLoop_proc_array (fuel : Nat) (k : Kernel) :
    ((lotteryLoop fuel k).kernel).proc_array = k.proc_array := by
  induction fuel generalizing k with
  | zero => rfl
  | succ n ih =>
    rw [lotteryLoop]
    simp only
    split
    · rfl
    · split
      · split
        · rfl
        · rw [ih]; rfl
      · rw [ih]; rfl

theorem lotteryLoop_dispatch (fuel : Nat) (k : Kernel) (k1 : Kernel)
    (h : lotteryLoop fuel k = .dispatch k1) :
    (k.proc_array k1.current).p_state = P_RUNNABLE := by
  induction fuel generalizing k with
  | zero => simp [lotteryLoop] at h
  | succ n ih =>
    rw [lotteryLoop] at h
    simp only at h
    split at h
    · simp at h
    · split at h
      · split at h
        · next hs =>
          simp only [run, Outcome.dispatch.injEq] at h
          subst h
          exact hs
        · exact ih (linear_feedback_shift_register k).2 h
      · exact ih (linear_feedback_shift_register k).2 h


/-- The scheduler never writes a `p_state`. -/
theorem schedule_state (fuel : Nat) (k : Kernel) (j : Fin NPROCS) :
    (((schedule fuel k).kernel).proc_array j).p_state = (k.proc_array j).p_state := by
  unfold schedule
  simp only
  split
  · rw [rrLoop_eq_strictLoop]
    obtain ⟨c, hc⟩ := strictLoop_kernel k fuel (nextPid k.current)
    rw [hc]
  · split
    · obtain ⟨c, hc⟩ := strictLoop_kernel k fuel 1
      rw [hc]
    · split
      · split <;> rfl
      · split
        · exact shareLoop_state fuel k _ j
        · split
          · rw [lotteryLoop_proc_array]
          · rfl

theorem schedule_dispatch_runnable (fuel : Nat) (k k1 : Kernel)
    (h : schedule fuel k = .dispatch k1) :
    (k.proc_array k1.current).p_state = P_RUNNABLE := by
  unfold schedule at h
  simp only at h
  split at h
  · rw [rrLoop_eq_strictLoop] at h
    exact (strictLoop_dispatch k fuel _ k1 h).2
  · split at h
    · exact (strictLoop_dispatch k fuel _ k1 h).2
    · split at h
      · split at h
        · simp at h
        · next st hst =>
          simp only [run, Outcome.dispatch.injEq] at h
          subst h
          exact prioScan_runnable k _ _ _ _ (findStart_runnable k fuel _ _ hst)
      · split at h
        · exact shareLoop_dispatch fuel k _ k1 h
        · split at h
          · exact lotteryLoop_dispatch fuel k k1 h
          · simp at h

theorem lotteryFor_some (t : Fin NPROCS → Int) (sel : Int) (n i : Nat) (r : Fin NPROCS) :
    lotteryFor t sel n i = some r ↔
      (i ≤ r.val ∧ r.val < i + n ∧ sel < t r ∧
        ∀ j : Fin NPROCS, i ≤ j.val → j.val < r.val → ¬ sel < t j) := by
  induction n generalizing i with
  | zero =>
    simp only [lotteryFor]
    constructor
    · intro h; cases h
    · rintro ⟨h1, h2, -⟩
      omega
  | succ n ih =>
    rw [lotteryFor]
    by_cases h : i < NPROCS
    · rw [dif_pos h]
      by_cases hs : sel < t ⟨i, h⟩
      · rw [if_pos hs]
        constructor
        · intro he
          have he : (⟨i, h⟩ : Fin NPROCS) = r := Option.some.inj he
          subst he
          exact ⟨le_refl _, by simp, hs, fun j h1 h2 => by simp at h2; omega⟩
        · rintro ⟨h1, -, -, h4⟩
          by_cases hr : r.val = i
          · have : (⟨i, h⟩ : Fin NPROCS) = r := Fin.ext hr.symm
            rw [this]
          · exact absurd hs (h4 ⟨i, h⟩ (le_refl _) (by simp; omega))
      · rw [if_neg hs, ih]
        constructor
        · rintro ⟨h1, h2, h3, h4⟩
          refine ⟨by omega, by omega, h3, fun j hj1 hj2 => ?_⟩
          by_cases hj : j.val = i
          · have : j = ⟨i, h⟩ := Fin.ext hj
            rw [this]; exact hs
          · exact h4 j (by omega) hj2
        · rintro ⟨h1, h2, h3, h4⟩
          have hne : r.val ≠ i := by
            intro hr
            have : r = ⟨i, h⟩ := Fin.ext hr
            rw [this] at h3
            exact hs h3
          exact ⟨by omega, by omega, h3, fun j hj1 hj2 => h4 j (by omega) hj2⟩
    · rw [dif_neg h]
      constructor
      · intro h; cases h
      · rintro ⟨h1, -⟩
        have := r.isLt
        omega

theorem lotteryFor_none (t : Fin NPROCS → Int) (sel : Int) (n i : Nat) (hn : NPROCS ≤ i + n) :
    lotteryFor t sel n i = none ↔ ∀ j : Fin NPROCS, i ≤ j.val → ¬ sel < t j := by
  rw [← Option.not_isSome_iff_eq_none, Option.isSome_iff_exists]
  constructor
  · intro h j hj hs
    apply h
    -- the least index at or after `i` with the property
    have hex : ∃ m : Nat, ∃ hm : m < NPROCS, i ≤ m ∧ sel < t ⟨m, hm⟩ := ⟨j.val, j.isLt, hj, hs⟩
    classical
    obtain ⟨hm, hi, hsel⟩ := Nat.find_spec hex
    refine ⟨⟨Nat.find hex, hm⟩, (lotteryFor_some t sel n i _).2 ⟨hi, ?_, hsel, ?_⟩⟩
    · simp only; omega
    · intro j' h1 h2 h3
      exact Nat.find_min hex h2 ⟨j'.isLt, h1, h3⟩
  · rintro h ⟨r, hr⟩
    obtain ⟨h1, -, h3, -⟩ := (lotteryFor_some t sel n i r).1 hr
    exact h r h1 h3

theorem off_zero (pid : Fin NPROCS) : off pid 0 = pid := by
  apply Fin.ext
  simp only [off, Nat.add_zero]
  exact Nat.mod_eq_of_lt pid.isLt

theorem off_nextPid (pid : Fin NPROCS) (e : Nat) : off (nextPid pid) e = off pid (e + 1) := by
  apply Fin.ext
  simp only [off, nextPid, NPROCS]
  omega

theorem off_off (pid : Fin NPROCS) (a b : Nat) : off (off pid a) b = off pid (a + b) := by
  apply Fin.ext
  simp only [off, NPROCS]
  omega

theorem off_one (pid : Fin NPROCS) : off pid 1 = nextPid pid := rfl

theorem off_reaches (pid j : Fin NPROCS) : off pid ((j.val + NPROCS - pid.val) % NPROCS) = j := by
  apply Fin.ext
  have := pid.isLt
  have := j.isLt
  simp only [off, NPROCS] at *
  omega

theorem off_inj (pid : Fin NPROCS) (a b : Nat) (h : off pid a = off pid b)
    (hab : a ≤ b) (hb : b < a + NPROCS) : a = b := by
  have := congrArg Fin.val h
  simp only [off, NPROCS] at this hb
  omega

theorem findStart_first (k : Kernel) (e : Nat) : ∀ (pid : Fin NPROCS) (fuel : Nat), e < fuel →
    (k.proc_array (off pid e)).p_state = P_RUNNABLE →
    (∀ e', e' < e → (k.proc_array (off pid e')).p_state ≠ P_RUNNABLE) →
    findStart k fuel pid = some (off pid e) := by
  induction e with
  | zero =>
    intro pid fuel hf hr _
    obtain ⟨f, rfl⟩ : ∃ f, fuel = f + 1 := ⟨fuel - 1, by omega⟩
    rw [off_zero] at hr
    rw [findStart, off_zero]
    simp [hr]
  | succ e ih =>
    intro pid fuel hf hr hmin
    obtain ⟨f, rfl⟩ : ∃ f, fuel = f + 1 := ⟨fuel - 1, by omega⟩
    have h0 := hmin 0 (Nat.succ_pos e)
    rw [off_zero] at h0
    rw [findStart, if_pos h0, ← off_nextPid]
    apply ih _ _ (by omega)
    · rw [off_nextPid]; exact hr
    · intro e' he'
      rw [off_nextPid]
      exact hmin (e' + 1) (by omega)

theorem strictLoop_eq_findStart (k : Kernel) (fuel : Nat) (pid : Fin NPROCS) :
    strictLoop k fuel pid =
      match findStart k fuel pid with
      | some st => run k st
      | none => .fuelOut k := by
  induction fuel generalizing pid with
  | zero => rfl
  | succ n ih =>
    rw [strictLoop, findStart]
    by_cases h : (k.proc_array pid).p_state = P_RUNNABLE
    · simp [h]
    · simp [h, ih]

/-- When some descriptor is runnable, the cyclic scan from any pid meets a first
runnable descriptor within `NPROCS` steps. -/
theorem exists_first_runnable (k : Kernel) (pid : Fin NPROCS)
    (h : ∃ j, (k.proc_array j).p_state = P_RUNNABLE) :
    ∃ e, e < NPROCS ∧ (k.proc_array (off pid e)).p_state = P_RUNNABLE ∧
      ∀ e', e' < e → (k.proc_array (off pid e')).p_state ≠ P_RUNNABLE := by
  obtain ⟨j, hj⟩ := h
  have hex : ∃ e, e < NPROCS ∧ (k.proc_array (off pid e)).p_state = P_RUNNABLE :=
    ⟨(j.val + NPROCS - pid.val) % NPROCS, Nat.mod_lt _ (by decide), by rw [off_reaches]; exact hj⟩
  classical
  refine ⟨Nat.find hex, (Nat.find_spec hex).1, (Nat.find_spec hex).2, ?_⟩
  intro e' he' hr
  exact Nat.find_min hex he' ⟨lt_trans he' (Nat.find_spec hex).1, hr⟩

theorem findStart_some (k : Kernel) (pid : Fin NPROCS) (fuel : Nat) (hf : NPROCS ≤ fuel)
    (h : ∃ j, (k.proc_array j).p_state = P_RUNNABLE) :
    ∃ st, findStart k fuel pid = some st := by
  obtain ⟨e, he, hr, hmin⟩ := exists_first_runnable k pid h
  exact ⟨_, findStart_first k e pid fuel (by omega) hr hmin⟩

theorem prioScan_min (k : Kernel) (n : Nat) : ∀ (pid best : Fin NPROCS),
    (k.proc_array (prioScan k n pid (k.proc_array best).p_priority best)).p_priority
        ≤ (k.proc_array best).p_priority ∧
    ∀ e, 1 ≤ e → e ≤ n → (k.proc_array (off pid e)).p_state = P_RUNNABLE →
      (k.proc_array (prioScan k n pid (k.proc_array best).p_priority best)).p_priority
        ≤ (k.proc_array (off pid e)).p_priority := by
  induction n with
  | zero =>
    intro pid best
    exact ⟨le_refl _, fun e h1 h2 => by omega⟩
  | succ n ih =>
    intro pid best
    rw [prioScan]
    split
    · next hc =>
      obtain ⟨h1, h2⟩ := ih (nextPid pid) (nextPid pid)
      refine ⟨le_trans h1 hc.2, fun e he1 he2 hr => ?_⟩
      by_cases he : e = 1
      · subst he; rw [off_one]; exact h1
      · have := h2 (e - 1) (by omega) (by omega)
        rw [off_nextPid, Nat.sub_add_cancel he1] at this
        exact this hr
    · next hc =>
      obtain ⟨h1, h2⟩ := ih (nextPid pid) best
      refine ⟨h1, fun e he1 he2 hr => ?_⟩
      by_cases he : e = 1
      · subst he
        rw [off_one] at hr ⊢
        have : ¬ (k.proc_array (nextPid pid)).p_priority ≤ (k.proc_array best).p_priority :=
          fun hle => hc ⟨hr, hle⟩
        exact le_of_lt (lt_of_le_of_lt h1 (not_le.mp this))
      · have := h2 (e - 1) (by omega) (by omega)
        rw [off_nextPid, Nat.sub_add_cancel he1] at this
        exact this hr

theorem lfsrStepSpec_lt (reg : Nat) (w : Nat) (hw : 16 ≤ w) (h : reg < 2 ^ w) :
    lfsrStepSpec reg < 2 ^ w := by
  unfold lfsrStepSpec
  simp only
  apply Nat.or_lt_two_pow
  · rw [Nat.shiftRight_eq_div_pow]
    exact lt_of_le_of_lt (Nat.div_le_self _ _) h
  · have hb : ((reg >>> 0) ^^^ (reg >>> 2) ^^^ (reg >>> 3) ^^^ (reg >>> 5)) &&& 1 ≤ 1 :=
      Nat.and_le_right
    rw [Nat.shiftLeft_eq]
    calc _ ≤ 1 * 2 ^ 15 := Nat.mul_le_mul_right _ hb
      _ < 2 ^ 16 := by norm_num
      _ ≤ 2 ^ w := Nat.pow_le_pow_right (by norm_num) hw

/-- One round-robin call: the first runnable descriptor after `current`. -/
theorem rr_step (k : Kernel) (fuel : Nat) (hmode : k.scheduling_algorithm = 0) (e : Nat)
    (he : e < fuel) (hr : (k.proc_array (off k.current (e + 1))).p_state = P_RUNNABLE)
    (hmin : ∀ e', 1 ≤ e' → e' ≤ e → (k.proc_array (off k.current e')).p_state ≠ P_RUNNABLE) :
    schedule fuel k = run k (off k.current (e + 1)) := by
  have hf : findStart k fuel (nextPid k.current) = some (off k.current (e + 1)) := by
    rw [← off_nextPid]
    apply findStart_first k e _ fuel he
    · rw [off_nextPid]; exact hr
    · intro e' he'
      rw [off_nextPid]
      exact hmin (e' + 1) (by omega) (by omega)
  unfold schedule
  simp only [hmode, if_true, rrLoop_eq_strictLoop, strictLoop_eq_findStart, hf]

theorem runnableOffsets_step (k : Kernel) (c : Fin NPROCS) (m : Nat) (hm : m < NPROCS) :
    runnableOffsets k c m =
      if (k.proc_array (off c (m + 1))).p_state = P_RUNNABLE then
        (m + 1) :: runnableOffsets k c (m + 1)
      else runnableOffsets k c (m + 1) := by
  unfold runnableOffsets
  have : NPROCS - m = (NPROCS - (m + 1)) + 1 := by omega
  rw [this, List.range'_succ, List.filter_cons]
  by_cases h : (k.proc_array (off c (m + 1))).p_state = P_RUNNABLE
  · simp [h]
  · simp [h]

theorem rr_calls (k : Kernel) (fuel : Nat) (hmode : k.scheduling_algorithm = 0)
    (hfuel : NPROCS ≤ fuel) (c : Fin NPROCS) (n : Nat) : ∀ m b : Nat, m + n = NPROCS → b ≤ m →
    (∀ d, b < d → d ≤ m → (k.proc_array (off c d)).p_state ≠ P_RUNNABLE) →
    ∃ kf, scheduleCalls fuel (runnableOffsets k c m).length { k with current := off c b }
      = some ((runnableOffsets k c m).map (off c), kf) := by
  induction n with
  | zero =>
    intro m b hm hb _
    have : runnableOffsets k c m = [] := by
      unfold runnableOffsets
      have : NPROCS - m = 0 := by omega
      rw [this]; rfl
    rw [this]
    exact ⟨_, rfl⟩
  | succ n ih =>
    intro m b hm hb hnot
    rw [runnableOffsets_step k c m (by omega)]
    by_cases h : (k.proc_array (off c (m + 1))).p_state = P_RUNNABLE
    · rw [if_pos h]
      have hstep : schedule fuel { k with current := off c b }
          = run { k with current := off c b } (off c (m + 1)) := by
        have := rr_step { k with current := off c b } fuel hmode (m - b) (by omega)
          (by
            show (k.proc_array (off (off c b) (m - b + 1))).p_state = P_RUNNABLE
            rw [off_off]
            have : b + (m - b + 1) = m + 1 := by omega
            rw [this]; exact h)
          (by
            intro e' h1 h2
            show (k.proc_array (off (off c b) e')).p_state ≠ P_RUNNABLE
            rw [off_off]
            exact hnot (b + e') (by omega) (by omega))
        rw [this]
        show run _ (off (off c b) (m - b + 1)) = _
        rw [off_off]
        have : b + (m - b + 1) = m + 1 := by omega
        rw [this]
      obtain ⟨kf, hkf⟩ := ih (m + 1) (m + 1) (by omega) (le_refl _) (fun d h1 h2 => by omega)
      refine ⟨kf, ?_⟩
      simp only [List.length_cons, scheduleCalls, hstep, run, List.map_cons]
      have : scheduleCalls fuel (runnableOffsets k c (m + 1)).length
          { k with current := off c (m + 1) }
          = some ((runnableOffsets k c (m + 1)).map (off c), kf) := hkf
      rw [this]
      rfl
    · rw [if_neg h]
      apply ih (m + 1) b (by omega) (by omega)
      intro d h1 h2
      by_cases hd : d = m + 1
      · rw [hd]; exact h
      · exact hnot d h1 (by omega)

theorem mem_runnableOffsets (k : Kernel) (c : Fin NPROCS) (m d : Nat) :
    d ∈ runnableOffsets k c m ↔
      (m < d ∧ d ≤ NPROCS ∧ (k.proc_array (off c d)).p_state = P_RUNNABLE) := by
  unfold runnableOffsets
  simp only [List.mem_filter, List.mem_range'_1, decide_eq_true_eq]
  constructor
  · rintro ⟨⟨h1, h2⟩, h3⟩
    exact ⟨by omega, by omega, h3⟩
  · rintro ⟨h1, h2, h3⟩
    exact ⟨⟨by omega, by omega⟩, h3⟩

theorem runnableOffsets_sorted (k : Kernel) (c : Fin NPROCS) (m : Nat) :
    (runnableOffsets k c m).Pairwise (fun a b => a < b) :=
  List.Pairwise.filter _ (List.pairwise_lt_range' _ _)

theorem runnableOffsets_map_nodup (k : Kernel) (c : Fin NPROCS) :
    ((runnableOffsets k c 0).map (off c)).Nodup := by
  apply List.Nodup.map_on
  · intro x hx y hy hxy
    rw [mem_runnableOffsets] at hx hy
    rcases Nat.le_total x y with hle | hle
    · exact off_inj c x y hxy hle (by omega)
    · exact (off_inj c y x hxy.symm hle (by omega)).symm
  · exact (runnableOffsets_sorted k c 0).imp (fun h => Nat.ne_of_lt h)

theorem mem_runnableOffsets_map (k : Kernel) (c p : Fin NPROCS) :
    p ∈ (runnableOffsets k c 0).map (off c) ↔ (k.proc_array p).p_state = P_RUNNABLE := by
  simp only [List.mem_map, mem_runnableOffsets]
  constructor
  · rintro ⟨d, ⟨-, -, h⟩, rfl⟩
    exact h
  · intro h
    by_cases hpc : p = c
    · refine ⟨NPROCS, ⟨by decide, le_refl _, ?_⟩, ?_⟩
      · have : off c NPROCS = c := by
          apply Fin.ext; simp only [off, Nat.add_mod_right]; exact Nat.mod_eq_of_lt c.isLt
        rw [this, ← hpc]; exact h
      · rw [hpc]
        apply Fin.ext; simp only [off, Nat.add_mod_right]; exact Nat.mod_eq_of_lt c.isLt
    · have hoff := off_reaches c p
      have hne : (p.val + NPROCS - c.val) % NPROCS ≠ 0 := by
        intro h0
        rw [h0, off_zero] at hoff
        exact hpc hoff.symm
      have hlt : (p.val + NPROCS - c.val) % NPROCS < NPROCS := Nat.mod_lt _ (by decide)
      exact ⟨(p.val + NPROCS - c.val) % NPROCS, ⟨by omega, by omega, by rw [hoff]; exact h⟩, hoff⟩

theorem runnableOffsets_length (k : Kernel) (c : Fin NPROCS) :
    (runnableOffsets k c 0).length = runnableCount k := by
  have hperm : ((runnableOffsets k c 0).map (off c)).Perm
      ((List.finRange NPROCS).filter
        fun i => decide ((k.proc_array i).p_state = P_RUNNABLE)) := by
    rw [List.perm_ext_iff_of_nodup (runnableOffsets_map_nodup k c)
      ((List.nodup_finRange _).filter _)]
    intro p
    rw [mem_runnableOffsets_map]
    simp [List.mem_finRange]
  have := hperm.length_eq
  rw [List.length_map] at this
  exact this

theorem cycleFrom_eq : ∀ c : Fin NPROCS,
    (((List.range' 1 NPROCS).filter fun d => decide (off c d ≠ 0)).map (off c) = cycleFrom c) ∧
    ((List.range' 1 NPROCS).filter fun d => decide (off c d ≠ 0)).length = 4 := by
  decide

theorem findStart_mono (k : Kernel) (f : Nat) : ∀ (f' : Nat) (pid st : Fin NPROCS), f ≤ f' →
    findStart k f pid = some st → findStart k f' pid = some st := by
  induction f with
  | zero => intro f' pid st _ h; simp [findStart] at h
  | succ n ih =>
    intro f' pid st hle h
    obtain ⟨m, rfl⟩ : ∃ m, f' = m + 1 := ⟨f' - 1, by omega⟩
    rw [findStart] at h ⊢
    split
    · next hs => rw [if_pos hs] at h; exact ih m _ _ (by omega) h
    · next hs => rw [if_neg hs] at h; exact h

theorem shareLoop_mono (f : Nat) : ∀ (f' : Nat) (k : Kernel) (pid : Fin NPROCS) (k1 : Kernel),
    f ≤ f' → shareLoop f k pid = .dispatch k1 → shareLoop f' k pid = .dispatch k1 := by
  induction f with
  | zero => intro f' k pid k1 _ h; simp [shareLoop] at h
  | succ n ih =>
    intro f' k pid k1 hle h
    obtain ⟨m, rfl⟩ : ∃ m, f' = m + 1 := ⟨f' - 1, by omega⟩
    rw [shareLoop] at h ⊢
    simp only at h ⊢
    split
    · next hc =>
      rw [if_pos hc] at h
      split
      · next hs => rw [if_pos hs] at h; exact h
      · next hs => rw [if_neg hs] at h; exact ih m _ _ _ (by omega) h
    · next hc => rw [if_neg hc] at h; exact ih m _ _ _ (by omega) h

theorem lotteryLoop_mono (f : Nat) : ∀ (f' : Nat) (k : Kernel) (k1 : Kernel),
    f ≤ f' → lotteryLoop f k = .dispatch k1 → lotteryLoop f' k = .dispatch k1 := by
  induction f with
  | zero => intro f' k k1 _ h; simp [lotteryLoop] at h
  | succ n ih =>
    intro f' k k1 hle h
    obtain ⟨m, rfl⟩ : ∃ m, f' = m + 1 := ⟨f' - 1, by omega⟩
    rw [lotteryLoop] at h ⊢
    simp only at h ⊢
    split
    · next hc => rw [if_pos hc] at h; exact h
    · next hc =>
      rw [if_neg hc] at h
      split
      · next i hp =>
        rw [hp] at h
        simp only at h
        split
        · next hs => rw [if_pos hs] at h; exact h
        · next hs => rw [if_neg hs] at h; exact ih m _ _ (by omega) h
      · next hp =>
        rw [hp] at h
        exact ih m _ _ (by omega) h

/-- More fuel does not change a dispatch. -/
theorem schedule_mono (f f' : Nat) (k k1 : Kernel) (hle : f ≤ f')
    (h : schedule f k = .dispatch k1) : schedule f' k = .dispatch k1 := by
  unfold schedule at h ⊢
  simp only [rrLoop_eq_strictLoop, strictLoop_eq_findStart] at h ⊢
  split
  · next hm =>
    rw [if_pos hm] at h
    split at h
    · next st hst => rw [findStart_mono k f f' _ _ hle hst]; exact h
    · cases h
  · next hm =>
    rw [if_neg hm] at h
    split
    · next hm1 =>
      rw [if_pos hm1] at h
      split at h
      · next st hst => rw [findStart_mono k f f' _ _ hle hst]; exact h
      · cases h
    · next hm1 =>
      rw [if_neg hm1] at h
      split
      · next hm2 =>
        rw [if_pos hm2] at h
        split at h
        · cases h
        · next st hst => rw [findStart_mono k f f' _ _ hle hst]; exact h
      · next hm2 =>
        rw [if_neg hm2] at h
        split
        · next hm3 => rw [if_pos hm3] at h; exact shareLoop_mono f f' _ _ _ hle h
        · next hm3 =>
          rw [if_neg hm3] at h
          split
          · next hm4 => rw [if_pos hm4] at h; exact lotteryLoop_mono f f' _ _ hle h
          · next hm4 => rw [if_neg hm4] at h; cases h

theorem scheduleCalls_mono (f f' : Nat) (hle : f ≤ f') (n : Nat) :
    ∀ (k : Kernel) (r : List (Fin NPROCS) × Kernel),
    scheduleCalls f n k = some r → scheduleCalls f' n k = some r := by
  induction n with
  | zero => intro k r h; exact h
  | succ n ih =>
    intro k r h
    rw [scheduleCalls] at h ⊢
    split at h
    · next k1 hk1 =>
      rw [schedule_mono f f' k k1 hle hk1]
      simp only [Option.map_eq_some'] at h ⊢
      obtain ⟨a, ha, hr⟩ := h
      exact ⟨a, ih _ _ ha, hr⟩
    · cases h

theorem scheduleCalls_add (f a b : Nat) : ∀ (k : Kernel) (l1 l2 : List (Fin NPROCS))
    (k1 k2 : Kernel), scheduleCalls f a k = some (l1, k1) → scheduleCalls f b k1 = some (l2, k2) →
    scheduleCalls f (a + b) k = some (l1 ++ l2, k2) := by
  induction a with
  | zero =>
    intro k l1 l2 k1 k2 h1 h2
    simp only [scheduleCalls, Option.some.injEq, Prod.mk.injEq] at h1
    obtain ⟨rfl, rfl⟩ := h1
    simpa using h2
  | succ n ih =>
    intro k l1 l2 k1 k2 h1 h2
    have : n + 1 + b = (n + b) + 1 := by omega
    rw [this]
    rw [scheduleCalls] at h1 ⊢
    split at h1
    · next km hkm =>
      simp only [Option.map_eq_some'] at h1 ⊢
      obtain ⟨r, hr, he⟩ := h1
      obtain ⟨rl, rk⟩ := r
      simp only [Prod.mk.injEq] at he
      obtain ⟨rfl, rfl⟩ := he
      exact ⟨_, ih km rl l2 rk k2 hr h2, rfl⟩
    · cases h1

theorem shareView_setProc (k k' : Kernel) (pid : Fin NPROCS) (p p' : process_t)
    (hv : ∀ i, shareView k i = shareView k' i)
    (hp : (p.p_state, p.p_shares, p.p_shareCount) = (p'.p_state, p'.p_shares, p'.p_shareCount)) :
    ∀ i, shareView (setProc k pid p) i = shareView (setProc k' pid p') i := by
  intro i
  by_cases h : i = pid
  · subst h
    simp only [shareView, setProc_proc_self]
    exact hp
  · simp only [shareView, setProc_proc_other _ _ _ _ h]
    exact hv i

theorem shareLoop_sim (fuel : Nat) : ∀ (k k' : Kernel) (pid : Fin NPROCS) (k1 : Kernel),
    (∀ i, shareView k i = shareView k' i) → shareLoop fuel k pid = .dispatch k1 →
    ∃ k1', shareLoop fuel k' pid = .dispatch k1' ∧ k1.current = k1'.current ∧
      k1.scheduling_algorithm = k.scheduling_algorithm ∧
      k1'.scheduling_algorithm = k'.scheduling_algorithm ∧
      ∀ i, shareView k1 i = shareView k1' i := by
  induction fuel with
  | zero => intro k k' pid k1 _ h; simp [shareLoop] at h
  | succ n ih =>
    intro k k' pid k1 hv h
    have hpid := hv pid
    simp only [shareView, Prod.mk.injEq] at hpid
    obtain ⟨hs, hsh, hsc⟩ := hpid
    rw [shareLoop] at h ⊢
    simp only at h ⊢
    by_cases hc : (k.proc_array pid).p_shareCount < (k.proc_array pid).p_shares
    · have hc' : (k'.proc_array pid).p_shareCount < (k'.proc_array pid).p_shares := by
        rw [← hsc, ← hsh]; exact hc
      rw [if_pos hc] at h
      rw [if_pos hc']
      have hv1 := shareView_setProc k k' pid
        { k.proc_array pid with p_shareCount := (k.proc_array pid).p_shareCount + 1 }
        { k'.proc_array pid with p_shareCount := (k'.proc_array pid).p_shareCount + 1 }
        hv (by simp only [hs, hsh, hsc])
      by_cases hr : (k.proc_array pid).p_state = P_RUNNABLE
      · have hr' : (k'.proc_array pid).p_state = P_RUNNABLE := by rw [← hs]; exact hr
        rw [if_pos hr] at h
        rw [if_pos hr']
        simp only [run, Outcome.dispatch.injEq] at h
        subst h
        exact ⟨_, rfl, rfl, rfl, rfl, hv1⟩
      · have hr' : ¬ (k'.proc_array pid).p_state = P_RUNNABLE := by rw [← hs]; exact hr
        rw [if_neg hr] at h
        rw [if_neg hr']
        obtain ⟨k1', h1, h2, h3, h4, h5⟩ := ih _ _ pid k1 hv1 h
        exact ⟨k1', h1, h2, h3, h4, h5⟩
    · have hc' : ¬ (k'.proc_array pid).p_shareCount < (k'.proc_array pid).p_shares := by
        rw [← hsc, ← hsh]; exact hc
      rw [if_neg hc] at h
      rw [if_neg hc']
      have hv1 := shareView_setProc k k' pid
        { k.proc_array pid with p_shareCount := 0 }
        { k'.proc_array pid with p_shareCount := 0 }
        hv (by simp only [hs, hsh])
      obtain ⟨k1', h1, h2, h3, h4, h5⟩ := ih _ _ (nextPid pid) k1 hv1 h
      exact ⟨k1', h1, h2, h3, h4, h5⟩

theorem schedule_sim (fuel : Nat) (k k' k1 : Kernel) (hs : ShareSim k k')
    (h : schedule fuel k = .dispatch k1) :
    ∃ k1', schedule fuel k' = .dispatch k1' ∧ k1.current = k1'.current ∧ ShareSim k1 k1' := by
  obtain ⟨hc, hm, hm', hv⟩ := hs
  have e1 : schedule fuel k = shareLoop fuel k k.current := by
    unfold schedule; simp [hm]
  have e2 : schedule fuel k' = shareLoop fuel k' k.current := by
    unfold schedule; simp [hm', hc]
  rw [e1] at h
  rw [e2]
  obtain ⟨k1', h1, h2, h3, h4, h5⟩ := shareLoop_sim fuel k k' k.current k1 hv h
  exact ⟨k1', h1, h2, h2, h3.trans hm, h4.trans hm', h5⟩

theorem scheduleCalls_sim (fuel n : Nat) : ∀ (k k' kf : Kernel) (l : List (Fin NPROCS)),
    ShareSim k k' → scheduleCalls fuel n k = some (l, kf) →
    ∃ kf', scheduleCalls fuel n k' = some (l, kf') ∧ ShareSim kf kf' := by
  induction n with
  | zero =>
    intro k k' kf l hs h
    simp only [scheduleCalls, Option.some.injEq, Prod.mk.injEq] at h
    obtain ⟨rfl, rfl⟩ := h
    exact ⟨k', rfl, hs⟩
  | succ n ih =>
    intro k k' kf l hs h
    rw [scheduleCalls] at h ⊢
    split at h
    · next km hkm =>
      obtain ⟨km', h1, h2, h3⟩ := schedule_sim fuel k k' km hs hkm
      rw [h1]
      simp only [Option.map_eq_some'] at h ⊢
      obtain ⟨r, hr, he⟩ := h
      obtain ⟨rl, rk⟩ := r
      simp only [Prod.mk.injEq] at he
      obtain ⟨rfl, rfl⟩ := he
      obtain ⟨kf', h4, h5⟩ := ih km km' rk rl h3 hr
      exact ⟨kf', ⟨(rl, kf'), h4, by simp only [h2]⟩, h5⟩
    · cases h

theorem bootCycle : scheduleCalls 3 10 (bootKernel 3) = some (shareCycle, afterCycle) := rfl

theorem nextCycle : ∃ kf, scheduleCalls 3 10 afterCycle = some (shareCycle, kf) ∧
    kf.current = afterCycle.current ∧ ∀ i, shareView kf i = shareView afterCycle i :=
  ⟨_, rfl, by decide, by decide⟩

theorem afterCycle_mode : afterCycle.scheduling_algorithm = 3 := rfl

theorem shareCycles_count (n : Nat) :
    (shareCycles n).count 1 = n ∧ (shareCycles n).count 2 = 2 * n ∧
    (shareCycles n).count 3 = 3 * n ∧ (shareCycles n).count 4 = 4 * n ∧
    (shareCycles n).count 0 = 0 ∧ (shareCycles n).length = 10 * n := by
  induction n with
  | zero => simp [shareCycles]
  | succ n ih =>
    obtain ⟨h1, h2, h3, h4, h0, hl⟩ := ih
    have c1 : shareCycle.count 1 = 1 := by decide
    have c2 : shareCycle.count 2 = 2 := by decide
    have c3 : shareCycle.count 3 = 3 := by decide
    have c4 : shareCycle.count 4 = 4 := by decide
    have c0 : shareCycle.count 0 = 0 := by decide
    have cl : shareCycle.length = 10 := by decide
    simp only [shareCycles, List.count_append, List.length_append, h1, h2, h3, h4, h0, hl, c1, c2,
      c3, c4, c0, cl]
    refine ⟨?_, ?_, ?_, ?_, trivial, ?_⟩ <;> omega

theorem sameButCount_refl (p : process_t) : sameButCount p p := ⟨rfl, rfl, rfl, rfl, rfl⟩

theorem sameButCount_trans {p q r : process_t} (h1 : sameButCount p q) (h2 : sameButCount q r) :
    sameButCount p r :=
  ⟨h1.1.trans h2.1, h1.2.1.trans h2.2.1, h1.2.2.1.trans h2.2.2.1, h1.2.2.2.1.trans h2.2.2.2.1,
    h1.2.2.2.2.trans h2.2.2.2.2⟩

theorem setProc_sameButCount (k : Kernel) (pid j : Fin NPROCS) (p : process_t)
    (h : sameButCount p (k.proc_array pid)) :
    sameButCount ((setProc k pid p).proc_array j) (k.proc_array j) := by
  by_cases hj : j = pid
  · subst hj; rw [setProc_proc_self]; exact h
  · rw [setProc_proc_other k pid j p hj]; exact sameButCount_refl _

theorem shareLoop_frame (fuel : Nat) : ∀ (k : Kernel) (pid j : Fin NPROCS),
    sameButCount (((shareLoop fuel k pid).kernel).proc_array j) (k.proc_array j) ∧
    ((shareLoop fuel k pid).kernel).scheduling_algorithm = k.scheduling_algorithm ∧
    ((shareLoop fuel k pid).kernel).tsc = k.tsc ∧
    ((shareLoop fuel k pid).kernel).lottery_values = k.lottery_values ∧
    ((shareLoop fuel k pid).kernel).cursorpos = k.cursorpos ∧
    ((shareLoop fuel k pid).kernel).console = k.console := by
  induction fuel with
  | zero => intro k pid j; exact ⟨sameButCount_refl _, rfl, rfl, rfl, rfl, rfl⟩
  | succ n ih =>
    intro k pid j
    rw [shareLoop]
    simp only
    split
    · split
      · exact ⟨setProc_sameButCount k pid j _ ⟨rfl, rfl, rfl, rfl, rfl⟩, rfl, rfl, rfl, rfl, rfl⟩
      · obtain ⟨h1, h2, h3, h4, h5, h6⟩ := ih (setProc k pid
          { k.proc_array pid with p_shareCount := (k.proc_array pid).p_shareCount + 1 }) pid j
        exact ⟨sameButCount_trans h1 (setProc_sameButCount k pid j _ ⟨rfl, rfl, rfl, rfl, rfl⟩),
          h2, h3, h4, h5, h6⟩
    · obtain ⟨h1, h2, h3, h4, h5, h6⟩ := ih (setProc k pid
        { k.proc_array pid with p_shareCount := 0 }) (nextPid pid) j
      exact ⟨sameButCount_trans h1 (setProc_sameButCount k pid j _ ⟨rfl, rfl, rfl, rfl, rfl⟩),
        h2, h3, h4, h5, h6⟩

theorem lotteryLoop_frame (fuel : Nat) : ∀ (k : Kernel),
    ((lotteryLoop fuel k).kernel).proc_array = k.proc_array ∧
    ((lotteryLoop fuel k).kernel).scheduling_algorithm = k.scheduling_algorithm ∧
    ((lotteryLoop fuel k).kernel).lottery_values = k.lottery_values ∧
    ((lotteryLoop fuel k).kernel).cursorpos = k.cursorpos ∧
    ((lotteryLoop fuel k).kernel).console = k.console := by
  induction fuel with
  | zero => intro k; exact ⟨rfl, rfl, rfl, rfl, rfl⟩
  | succ n ih =>
    intro k
    rw [lotteryLoop]
    simp only
    split
    · exact ⟨rfl, rfl, rfl, rfl, rfl⟩
    · split
      · split
        · exact ⟨rfl, rfl, rfl, rfl, rfl⟩
        · exact ih (linear_feedback_shift_register k).2
      · exact ih (linear_feedback_shift_register k).2

/-- What `schedule` leaves alone: every member of every descriptor except
`p_shareCount`, the scheduling algorithm, the ticket table and the console. -/
theorem schedule_frame (fuel : Nat) (k : Kernel) (j : Fin NPROCS) :
    sameButCount (((schedule fuel k).kernel).proc_array j) (k.proc_array j) ∧
    ((schedule fuel k).kernel).scheduling_algorithm = k.scheduling_algorithm ∧
    ((schedule fuel k).kernel).lottery_values = k.lottery_values ∧
    ((schedule fuel k).kernel).cursorpos = k.cursorpos ∧
    ((schedule fuel k).kernel).console = k.console := by
  unfold schedule
  simp only
  split
  · rw [rrLoop_eq_strictLoop]
    obtain ⟨c, hc⟩ := strictLoop_kernel k fuel (nextPid k.current)
    rw [hc]
    exact ⟨sameButCount_refl _, rfl, rfl, rfl, rfl⟩
  · split
    · obtain ⟨c, hc⟩ := strictLoop_kernel k fuel 1
      rw [hc]
      exact ⟨sameButCount_refl _, rfl, rfl, rfl, rfl⟩
    · split
      · split <;> exact ⟨sameButCount_refl _, rfl, rfl, rfl, rfl⟩
      · split
        · obtain ⟨h1, h2, -, h4, h5, h6⟩ := shareLoop_frame fuel k k.current j
          exact ⟨h1, h2, h4, h5, h6⟩
        · split
          · obtain ⟨h1, h2, h4, h5, h6⟩ := lotteryLoop_frame fuel k
            rw [h1]
            exact ⟨sameButCount_refl _, h2, h4, h5, h6⟩
          · exact ⟨sameButCount_refl _, rfl, rfl, rfl, rfl⟩

/-- In the three scan-based modes a runnable descriptor is enough for a dispatch. -/
theorem schedule_dispatches_of_runnable (fuel : Nat) (k : Kernel) (hfuel : NPROCS ≤ fuel)
    (hmode : k.scheduling_algorithm = 0 ∨ k.scheduling_algorithm = 1 ∨
      k.scheduling_algorithm = 2)
    (hrun : ∃ j, (k.proc_array j).p_state = P_RUNNABLE) :
    ∃ k1, schedule fuel k = .dispatch k1 := by
  unfold schedule
  simp only [rrLoop_eq_strictLoop, strictLoop_eq_findStart]
  rcases hmode with h | h | h
  · obtain ⟨st, hst⟩ := findStart_some k (nextPid k.current) fuel hfuel hrun
    simp only [h, if_true, hst, run]
    exact ⟨_, rfl⟩
  · obtain ⟨st, hst⟩ := findStart_some k 1 fuel hfuel hrun
    simp only [h, hst, run]
    exact ⟨_, rfl⟩
  · obtain ⟨st, hst⟩ := findStart_some k k.current fuel hfuel hrun
    simp only [h, hst, run]
    exact ⟨_, rfl⟩

theorem TrapNumbers.ne (T : TrapNumbers) :
    T.INT_SYS_YIELD ≠ T.INT_SYS_EXIT ∧ T.INT_SYS_YIELD ≠ T.INT_SYS_SHARE ∧
    T.INT_SYS_YIELD ≠ T.INT_SYS_PRIORITIZE ∧ T.INT_SYS_YIELD ≠ T.INT_SYS_ATOMIC_CHAR ∧
    T.INT_SYS_YIELD ≠ T.INT_CLOCK ∧ T.INT_SYS_EXIT ≠ T.INT_SYS_SHARE ∧
    T.INT_SYS_EXIT ≠ T.INT_SYS_PRIORITIZE ∧ T.INT_SYS_EXIT ≠ T.INT_SYS_ATOMIC_CHAR ∧
    T.INT_SYS_EXIT ≠ T.INT_CLOCK ∧ T.INT_SYS_SHARE ≠ T.INT_SYS_PRIORITIZE ∧
    T.INT_SYS_SHARE ≠ T.INT_SYS_ATOMIC_CHAR ∧ T.INT_SYS_SHARE ≠ T.INT_CLOCK ∧
    T.INT_SYS_PRIORITIZE ≠ T.INT_SYS_ATOMIC_CHAR ∧ T.INT_SYS_PRIORITIZE ≠ T.INT_CLOCK ∧
    T.INT_SYS_ATOMIC_CHAR ≠ T.INT_CLOCK := by
  have := T.distinct
  simp only [List.nodup_cons, List.mem_cons, List.mem_singleton, not_or, List.not_mem_nil,
    not_false_eq_true, List.nodup_nil, and_true] at this
  obtain ⟨⟨a1, a2, a3, a4, a5⟩, ⟨b1, b2, b3, b4⟩, ⟨c1, c2, c3⟩, ⟨d1, d2⟩, e1⟩ := this
  exact ⟨a1, a2, a3, a4, a5, b1, b2, b3, b4, c1, c2, c3, d1, d2, e1⟩

theorem interrupt_exit (T : TrapNumbers) (fuel : Nat) (k : Kernel) (reg : registers_t)
    (h : reg.reg_intno = T.INT_SYS_EXIT) :
    interrupt T fuel k reg = schedule fuel (setProc k k.current
      { k.proc_array k.current with
        p_registers := reg, p_state := P_ZOMBIE, p_exit_status := toInt32 reg.reg_eax }) := by
  have hne := T.ne
  unfold interrupt
  simp only [h, hne.1.symm, if_false, if_true]
  congr 1
  simp only [setProc, if_true]
  congr 1
  funext j
  by_cases hj : j = k.current <;> simp [hj]

theorem interrupt_share (T : TrapNumbers) (fuel : Nat) (k : Kernel) (reg : registers_t)
    (h : reg.reg_intno = T.INT_SYS_SHARE) :
    interrupt T fuel k reg = run (setProc k k.current
      { k.proc_array k.current with
        p_registers := reg, p_shares := toInt32 reg.reg_eax }) k.current := by
  have hne := T.ne
  unfold interrupt
  simp only [h, hne.2.1.symm, hne.2.2.2.2.2.1.symm, if_false, if_true]
  congr 1
  simp only [setProc, if_true]
  congr 1
  funext j
  by_cases hj : j = k.current <;> simp [hj]

theorem interrupt_prioritize (T : TrapNumbers) (fuel : Nat) (k : Kernel) (reg : registers_t)
    (h : reg.reg_intno = T.INT_SYS_PRIORITIZE) :
    interrupt T fuel k reg = run (setProc k k.current
      { k.proc_array k.current with
        p_registers := reg, p_priority := toInt32 reg.reg_eax }) k.current := by
  have hne := T.ne
  unfold interrupt
  simp only [h, hne.2.2.1.symm, hne.2.2.2.2.2.2.1.symm, hne.2.2.2.2.2.2.2.2.2.1.symm, if_false,
    if_true]
  congr 1
  simp only [setProc, if_true]
  congr 1
  funext j
  by_cases hj : j = k.current <;> simp [hj]

theorem lotteryPick_some (t : Fin NPROCS → Int) (sel : Int) (i : Fin NPROCS) :
    lotteryPick t sel = some i ↔
      (1 ≤ i.val ∧ sel < t i ∧ ∀ j : Fin NPROCS, 1 ≤ j.val → j.val < i.val → ¬ sel < t j) := by
  rw [lotteryPick, lotteryFor_some]
  have := i.isLt
  constructor
  · rintro ⟨h1, -, h3, h4⟩
    exact ⟨h1, h3, h4⟩
  · rintro ⟨h1, h3, h4⟩
    exact ⟨h1, by omega, h3, h4⟩

theorem lotteryPick_none (t : Fin NPROCS → Int) (sel : Int) :
    lotteryPick t sel = none ↔ ∀ j : Fin NPROCS, 1 ≤ j.val → ¬ sel < t j :=
  lotteryFor_none t sel (NPROCS - 1) 1 (le_refl _)

/-- The first draw of a lottery call decides the dispatch when the chosen pid is
runnable. -/
theorem lotteryLoop_first_draw (fuel : Nat) (k : Kernel) (i : Fin NPROCS)
    (htot : toUInt32 (k.lottery_values 0) ≠ 0)
    (hpick : lotteryPick k.lottery_values
      (toInt32 ((linear_feedback_shift_register k).1 % toUInt32 (k.lottery_values 0))) = some i)
    (hrun : (k.proc_array i).p_state = P_RUNNABLE) :
    lotteryLoop (fuel + 1) k = run (linear_feedback_shift_register k).2 i := by
  rw [lotteryLoop]
  have e1 : (linear_feedback_shift_register k).2.lottery_values = k.lottery_values := rfl
  have e2 : (linear_feedback_shift_register k).2.proc_array = k.proc_array := rfl
  simp only [e1, e2, htot, if_false, hpick, hrun, if_true]

theorem lfsrCalls_values (n : Nat) : ∀ k : Kernel,
    (lfsrCalls n k).1 = (List.range n).map (fun i => lfsrStepSpec^[i + 1] k.tsc) ∧
    (lfsrCalls n k).2.tsc = lfsrStepSpec^[n] k.tsc := by
  induction n with
  | zero => intro k; exact ⟨rfl, rfl⟩
  | succ n ih =>
    intro k
    obtain ⟨h1, h2⟩ := ih (linear_feedback_shift_register k).2
    have ht : (linear_feedback_shift_register k).2.tsc = lfsrStepSpec k.tsc := rfl
    rw [ht] at h1 h2
    constructor
    · rw [lfsrCalls]
      simp only [h1, List.range_succ_eq_map, List.map_cons, List.map_map]
      refine congrArg₂ _ rfl ?_
      apply List.map_congr_left
      intro i _
      simp only [Function.comp, Function.iterate_succ_apply]
    · rw [lfsrCalls]
      simp only [h2, Function.iterate_succ_apply]

theorem toInt32_small (a : Nat) (h : a < 2 ^ 31) : toInt32 a = (a : Int) := by
  unfold toInt32
  have h1 : a % 2 ^ 32 = a := Nat.mod_eq_of_lt (by omega)
  rw [h1, if_pos h]

theorem toUInt32_toInt32 (a : Nat) : toUInt32 (toInt32 a) = a % 2 ^ 32 := by
  unfold toUInt32 toInt32
  have hlt : a % 2 ^ 32 < 2 ^ 32 := Nat.mod_lt _ (by norm_num)
  split
  · omega
  · omega

theorem setProc_setProc (k : Kernel) (pid : Fin NPROCS) (p q : process_t) :
    setProc (setProc k pid p) pid q = setProc k pid q := by
  unfold setProc
  simp only
  congr 1
  funext j
  by_cases h : j = pid <;> simp [h]

theorem shareLoop_run (f : Nat) (k : Kernel) (pid : Fin NPROCS)
    (hc : (k.proc_array pid).p_shareCount < (k.proc_array pid).p_shares)
    (hr : (k.proc_array pid).p_state = P_RUNNABLE) :
    shareLoop (f + 1) k pid = run (setProc k pid
      { k.proc_array pid with p_shareCount := (k.proc_array pid).p_shareCount + 1 }) pid := by
  rw [shareLoop]
  simp only [hc, hr, if_true]

/-- The proportional-share loop at one pid either reaches a dispatch or, after
finitely many iterations, moves on to the next pid with this pid's share count
reset to 0. -/
theorem shareLoop_pass (m : Nat) : ∀ (k : Kernel) (pid : Fin NPROCS),
    ((k.proc_array pid).p_shares - (k.proc_array pid).p_shareCount).toNat ≤ m →
    (∃ f k1, shareLoop f k pid = .dispatch k1) ∨
    (∃ n, ∀ f, shareLoop (f + n) k pid
      = shareLoop f (setProc k pid { k.proc_array pid with p_shareCount := 0 }) (nextPid pid)) := by
  induction m with
  | zero =>
    intro k pid hm
    right
    refine ⟨1, fun f => ?_⟩
    rw [shareLoop]
    have : ¬ (k.proc_array pid).p_shareCount < (k.proc_array pid).p_shares := by omega
    simp only [this, if_false]
  | succ m ih =>
    intro k pid hm
    by_cases hc : (k.proc_array pid).p_shareCount < (k.proc_array pid).p_shares
    · by_cases hr : (k.proc_array pid).p_state = P_RUNNABLE
      · left
        exact ⟨1, _, shareLoop_run 0 k pid hc hr⟩
      · have hstep : ∀ f, shareLoop (f + 1) k pid = shareLoop f (setProc k pid
            { k.proc_array pid with p_shareCount := (k.proc_array pid).p_shareCount + 1 }) pid := by
          intro f
          rw [shareLoop]
          simp only [hc, hr, if_true, if_false]
        rcases ih (setProc k pid
            { k.proc_array pid with p_shareCount := (k.proc_array pid).p_shareCount + 1 }) pid
            (by simp only [setProc_proc_self]; omega) with ⟨f, k1, h⟩ | ⟨n, h⟩
        · left
          exact ⟨f + 1, k1, by rw [hstep]; exact h⟩
        · right
          refine ⟨n + 1, fun f => ?_⟩
          rw [← Nat.add_assoc, hstep, h, setProc_setProc]
          simp only [setProc_proc_self]
    · right
      refine ⟨1, fun f => ?_⟩
      rw [shareLoop]
      simp only [hc, if_false]

/-- A runnable descriptor with a positive number of shares makes the
proportional-share loop reach a dispatch, from any pid. -/
theorem shareLoop_dispatches (j : Fin NPROCS) : ∀ (k : Kernel) (pid : Fin NPROCS),
    (k.proc_array j).p_state = P_RUNNABLE → 1 ≤ (k.proc_array j).p_shares →
    ∃ f k1, shareLoop f k pid = .dispatch k1 := by
  -- first the case in which `j` still has quota when the scan arrives
  have hquota : ∀ (e : Nat) (k : Kernel) (pid : Fin NPROCS), off pid e = j →
      (k.proc_array j).p_state = P_RUNNABLE →
      (k.proc_array j).p_shareCount < (k.proc_array j).p_shares →
      ∃ f k1, shareLoop f k pid = .dispatch k1 := by
    intro e
    induction e with
    | zero =>
      intro k pid he hr hc
      rw [off_zero] at he
      subst he
      exact ⟨1, _, shareLoop_run 0 k pid hc hr⟩
    | succ e ih =>
      intro k pid he hr hc
      rcases shareLoop_pass _ k pid (le_refl _) with h | ⟨n, h⟩
      · exact h
      · by_cases hj : j = pid
        · subst hj
          exact ⟨1, _, shareLoop_run 0 k j hc hr⟩
        · obtain ⟨f, k1, hf⟩ := ih (setProc k pid { k.proc_array pid with p_shareCount := 0 })
            (nextPid pid) (by rw [off_nextPid]; exact he)
            (by rw [setProc_proc_other _ _ _ _ hj]; exact hr)
            (by rw [setProc_proc_other _ _ _ _ hj]; exact hc)
          exact ⟨f + n, k1, by rw [h]; exact hf⟩
  have hany : ∀ (e : Nat) (k : Kernel) (pid : Fin NPROCS), off pid e = j →
      (k.proc_array j).p_state = P_RUNNABLE → 1 ≤ (k.proc_array j).p_shares →
      ∃ f k1, shareLoop f k pid = .dispatch k1 := by
    intro e
    induction e with
    | zero =>
      intro k pid he hr hs
      rw [off_zero] at he
      subst he
      rcases shareLoop_pass _ k pid (le_refl _) with h | ⟨n, h⟩
      · exact h
      · obtain ⟨f, k1, hf⟩ := hquota (NPROCS - 1)
          (setProc k pid { k.proc_array pid with p_shareCount := 0 }) (nextPid pid)
          (by
            rw [off_nextPid]
            apply Fin.ext
            simp only [off, NPROCS]
            omega)
          (by rw [setProc_proc_self]; exact hr)
          (by rw [setProc_proc_self]; exact hs)
        exact ⟨f + n, k1, by rw [h]; exact hf⟩
    | succ e ih =>
      intro k pid he hr hs
      rcases shareLoop_pass _ k pid (le_refl _) with h | ⟨n, h⟩
      · exact h
      · obtain ⟨f, k1, hf⟩ := ih (setProc k pid { k.proc_array pid with p_shareCount := 0 })
          (nextPid pid) (by rw [off_nextPid]; exact he)
          (by
            have := setProc_state k pid j { k.proc_array pid with p_shareCount := 0 } rfl
            rw [this]; exact hr)
          (by
            by_cases hj : j = pid
            · subst hj; rw [setProc_proc_self]; exact hs
            · rw [setProc_proc_other _ _ _ _ hj]; exact hs)
        exact ⟨f + n, k1, by rw [h]; exact hf⟩
  intro k pid hr hs
  exact hany _ k pid (off_reaches pid j) hr hs

/-- In proportional-share mode a runnable descriptor with a positive number of
shares is enough for a dispatch, given enough fuel. -/
theorem schedule_dispatches_of_shares (k : Kernel) (hmode : k.scheduling_algorithm = 3)
    (hrun : ∃ j, (k.proc_array j).p_state = P_RUNNABLE ∧ 1 ≤ (k.proc_array j).p_shares) :
    ∃ f0 k1, ∀ f, f0 ≤ f → schedule f k = .dispatch k1 := by
  obtain ⟨j, hr, hs⟩ := hrun
  obtain ⟨f0, k1, h⟩ := shareLoop_dispatches j k k.current hr hs
  refine ⟨f0, k1, fun f hf => ?_⟩
  apply schedule_mono f0 f k k1 hf
  unfold schedule
  simp only [hmode]
  exact h


theorem strictLoop_not_halt (k : Kernel) (fuel : Nat) (pid : Fin NPROCS) :
    (strictLoop k fuel pid).isHalt = false := by
  rw [strictLoop_eq_findStart]
  split <;> rfl

theorem shareLoop_not_halt (fuel : Nat) : ∀ (k : Kernel) (pid : Fin NPROCS),
    (shareLoop fuel k pid).isHalt = false := by
  induction fuel with
  | zero => intro k pid; rfl
  | succ n ih =>
    intro k pid
    rw [shareLoop]
    simp only
    split
    · split
      · rfl
      · exact ih _ _
    · exact ih _ _

theorem lotteryLoop_not_halt (fuel : Nat) : ∀ (k : Kernel),
    (lotteryLoop fuel k).isHalt = false := by
  induction fuel with
  | zero => intro k; rfl
  | succ n ih =>
    intro k
    rw [lotteryLoop]
    simp only
    split
    · rfl
    · split
      · split
        · rfl
        · exact ih _
      · exact ih _

/-- In the five known modes the scheduler does not reach its own idle loop. -/
theorem schedule_not_halt (fuel : Nat) (k : Kernel)
    (hmode : 0 ≤ k.scheduling_algorithm ∧ k.scheduling_algorithm ≤ 4) :
    (schedule fuel k).isHalt = false := by
  unfold schedule
  simp only
  split
  · rw [rrLoop_eq_strictLoop]; exact strictLoop_not_halt _ _ _
  · split
    · exact strictLoop_not_halt _ _ _
    · split
      · split <;> rfl
      · split
        · exact shareLoop_not_halt _ _ _
        · split
          · exact lotteryLoop_not_halt _ _
          · omega

theorem off_scanPos (st j : Fin NPROCS) : off st (scanPos st j) = j := off_reaches st j

theorem scanPos_lt (st j : Fin NPROCS) : scanPos st j < NPROCS := Nat.mod_lt _ (by decide)

theorem scanPos_off (st : Fin NPROCS) (e : Nat) (he : e < NPROCS) : scanPos st (off st e) = e := by
  have := st.isLt
  simp only [scanPos, off, NPROCS] at *
  omega

/-- After the `for` loop of the numeric-priority algorithm, every runnable
descriptor scanned later than the winner has a strictly larger priority. -/
theorem prioScan_last (k : Kernel) (n : Nat) : ∀ (pid best : Fin NPROCS),
    (prioScan k n pid (k.proc_array best).p_priority best = best ∧
      ∀ e, 1 ≤ e → e ≤ n → (k.proc_array (off pid e)).p_state = P_RUNNABLE →
        (k.proc_array best).p_priority < (k.proc_array (off pid e)).p_priority) ∨
    (∃ e, 1 ≤ e ∧ e ≤ n ∧ prioScan k n pid (k.proc_array best).p_priority best = off pid e ∧
      ∀ e', e < e' → e' ≤ n → (k.proc_array (off pid e')).p_state = P_RUNNABLE →
        (k.proc_array (off pid e)).p_priority < (k.proc_array (off pid e')).p_priority) := by
  induction n with
  | zero =>
    intro pid best
    left
    exact ⟨rfl, fun e h1 h2 => by omega⟩
  | succ n ih =>
    intro pid best
    rw [prioScan]
    split
    · next hc =>
      right
      rcases ih (nextPid pid) (nextPid pid) with ⟨h1, h2⟩ | ⟨e, he1, he2, h1, h2⟩
      · refine ⟨1, le_refl _, by omega, by rw [h1, off_one], ?_⟩
        intro e' h3 h4 hr
        have := h2 (e' - 1) (by omega) (by omega)
        rw [off_nextPid, Nat.sub_add_cancel (by omega)] at this
        rw [off_one]
        exact this hr
      · refine ⟨e + 1, by omega, by omega, by rw [h1, off_nextPid], ?_⟩
        intro e' h3 h4 hr
        have := h2 (e' - 1) (by omega) (by omega)
        rw [off_nextPid, off_nextPid, Nat.sub_add_cancel (by omega)] at this
        exact this hr
    · next hc =>
      rcases ih (nextPid pid) best with ⟨h1, h2⟩ | ⟨e, he1, he2, h1, h2⟩
      · left
        refine ⟨h1, ?_⟩
        intro e h3 h4 hr
        by_cases he : e = 1
        · subst he
          rw [off_one] at hr ⊢
          exact not_le.mp (fun hle => hc ⟨hr, hle⟩)
        · have := h2 (e - 1) (by omega) (by omega)
          rw [off_nextPid, Nat.sub_add_cancel h3] at this
          exact this hr
      · right
        refine ⟨e + 1, by omega, by omega, by rw [h1, off_nextPid], ?_⟩
        intro e' h3 h4 hr
        have := h2 (e' - 1) (by omega) (by omega)
        rw [off_nextPid, off_nextPid, Nat.sub_add_cancel (by omega)] at this
        exact this hr

/-- The numeric-priority algorithm in full: the scan starts at the first runnable
pid `st` at or after `current`; the winner is runnable, has the least priority
among the runnable descriptors, and among those of its priority is the one the
scan meets last. -/
theorem schedule_priority_spec (k : Kernel) (fuel : Nat)
    (hmode : k.scheduling_algorithm = 2) (hfuel : NPROCS ≤ fuel)
    (hrun : ∃ j, (k.proc_array j).p_state = P_RUNNABLE) :
    ∃ st w : Fin NPROCS, findStart k fuel k.current = some st ∧ schedule fuel k = run k w ∧
      (k.proc_array st).p_state = P_RUNNABLE ∧
      (∀ e, e < scanPos k.current st →
        (k.proc_array (off k.current e)).p_state ≠ P_RUNNABLE) ∧
      (k.proc_array w).p_state = P_RUNNABLE ∧
      (∀ j, (k.proc_array j).p_state = P_RUNNABLE →
        (k.proc_array w).p_priority ≤ (k.proc_array j).p_priority) ∧
      (∀ j, (k.proc_array j).p_state = P_RUNNABLE →
        (k.proc_array j).p_priority = (k.proc_array w).p_priority →
        scanPos st j ≤ scanPos st w) := by
  obtain ⟨e0, he0, hr0, hmin0⟩ := exists_first_runnable k k.current hrun
  have hst := findStart_first k e0 k.current fuel (by omega) hr0 hmin0
  have hsched : schedule fuel k = run k (prioScan k (NPROCS - 1) (off k.current e0)
      (k.proc_array (off k.current e0)).p_priority (off k.current e0)) := by
    unfold schedule
    simp [hmode, hst]
  obtain ⟨hle, hmin⟩ := prioScan_min k (NPROCS - 1) (off k.current e0) (off k.current e0)
  have hw := prioScan_runnable k (NPROCS - 1) (off k.current e0)
    (k.proc_array (off k.current e0)).p_priority (off k.current e0) hr0
  have hlast := prioScan_last k (NPROCS - 1) (off k.current e0) (off k.current e0)
  generalize prioScan k (NPROCS - 1) (off k.current e0)
    (k.proc_array (off k.current e0)).p_priority (off k.current e0) = w at hsched hle hmin hw hlast
  generalize hstdef : off k.current e0 = st at hst hsched hle hmin hw hlast hr0
  have hpos : scanPos k.current st = e0 := by rw [← hstdef]; exact scanPos_off _ _ he0
  refine ⟨st, w, hst, hsched, hr0, ?_, hw, ?_, ?_⟩
  · intro e he
    rw [hpos] at he
    exact hmin0 e he
  · intro j hj
    by_cases hjs : scanPos st j = 0
    · have := off_scanPos st j
      rw [hjs, off_zero] at this
      rw [← this]; exact hle
    · have := hmin (scanPos st j) (by omega) (by have := scanPos_lt st j; omega)
        (by rw [off_scanPos]; exact hj)
      rwa [off_scanPos] at this
  · intro j hj hp
    have hjlt := scanPos_lt st j
    rcases hlast with ⟨h1, h2⟩ | ⟨e, he1, he2, h1, h2⟩
    · by_cases hjs : scanPos st j = 0
      · omega
      · have := h2 (scanPos st j) (by omega) (by omega) (by rw [off_scanPos]; exact hj)
        rw [off_scanPos, hp, h1] at this
        exact absurd this (lt_irrefl _)
    · have hwpos : scanPos st w = e := by rw [h1]; exact scanPos_off _ _ (by omega)
      rw [hwpos]
      by_contra hlt
      have := h2 (scanPos st j) (by omega) (by omega) (by rw [off_scanPos]; exact hj)
      rw [off_scanPos, hp, h1] at this
      exact absurd this (lt_irrefl _)

theorem scanPos_eq_zero (st j : Fin NPROCS) (h : scanPos st j = 0) : j = st := by
  have := off_scanPos st j
  rw [h, off_zero] at this
  exact this.symm

/-- With the bootstrap priorities, slot 0 not runnable and pids 2 and 3 runnable, a
numeric-priority call dispatches pid 2 or pid 3, and not the current pid. -/
theorem priority_alternation_step (k : Kernel) (fuel : Nat)
    (hmode : k.scheduling_algorithm = 2) (hfuel : NPROCS ≤ fuel)
    (h0 : (k.proc_array 0).p_state ≠ P_RUNNABLE) (hp : bootPriorities k)
    (h2 : (k.proc_array 2).p_state = P_RUNNABLE) (h3 : (k.proc_array 3).p_state = P_RUNNABLE) :
    ∃ w : Fin NPROCS, schedule fuel k = run k w ∧ (w = 2 ∨ w = 3) ∧ w ≠ k.current := by
  obtain ⟨p1, p2, p3, p4⟩ := hp
  obtain ⟨st, w, -, hs, -, hfirst, hw, hmin, hlast⟩ :=
    schedule_priority_spec k fuel hmode hfuel ⟨2, h2⟩
  have hw23 : w = 2 ∨ w = 3 := by
    have hle := hmin 2 h2
    rw [p2] at hle
    have hcases : ∀ v : Fin NPROCS, v = 0 ∨ v = 1 ∨ v = 2 ∨ v = 3 ∨ v = 4 := by decide
    rcases hcases w with rfl | rfl | rfl | rfl | rfl
    · exact absurd hw h0
    · rw [p1] at hle; omega
    · exact Or.inl rfl
    · exact Or.inr rfl
    · rw [p4] at hle; omega
  refine ⟨w, hs, hw23, ?_⟩
  intro hwc
  -- the current pid is runnable, so the scan starts there
  have hst : st = k.current := by
    apply scanPos_eq_zero
    by_contra hne
    have := hfirst 0 (by omega)
    rw [off_zero, ← hwc] at this
    exact this hw
  have hpw : (k.proc_array w).p_priority = 0 := by
    rcases hw23 with rfl | rfl
    · exact p2
    · exact p3
  have hz : scanPos st w = 0 := by
    rw [hst, ← hwc]
    simp [scanPos]
  rcases hw23 with rfl | rfl
  · have := hlast 3 h3 (by rw [p3, hpw])
    rw [hz] at this
    have := scanPos_eq_zero st 3 (by omega)
    rw [hst, ← hwc] at this
    exact absurd this (by decide)
  · have := hlast 2 h2 (by rw [p2, hpw])
    rw [hz] at this
    have := scanPos_eq_zero st 2 (by omega)
    rw [hst, ← hwc] at this
    exact absurd this (by decide)

theorem priority_alternation_calls (fuel : Nat) (hfuel : NPROCS ≤ fuel) (n : Nat) :
    ∀ k : Kernel, k.scheduling_algorithm = 2 → (k.proc_array 0).p_state ≠ P_RUNNABLE →
    bootPriorities k → (k.proc_array 2).p_state = P_RUNNABLE →
    (k.proc_array 3).p_state = P_RUNNABLE →
    ∃ l kf, scheduleCalls fuel n k = some (l, kf) ∧ l.length = n ∧
      (∀ p ∈ l, p = 2 ∨ p = 3) ∧ l.Chain' (fun a b => a ≠ b) ∧
      (∀ p, l.head? = some p → p ≠ k.current) := by
  induction n with
  | zero =>
    intro k _ _ _ _ _
    exact ⟨[], k, rfl, rfl, by simp, by simp, by simp⟩
  | succ n ih =>
    intro k hmode h0 hp h2 h3
    obtain ⟨w, hs, hw23, hwc⟩ := priority_alternation_step k fuel hmode hfuel h0 hp h2 h3
    obtain ⟨l, kf, hl, hlen, hmem, hchain, hhead⟩ :=
      ih { k with current := w } hmode h0 hp h2 h3
    refine ⟨w :: l, kf, ?_, by simp [hlen], ?_, ?_, ?_⟩
    · rw [scheduleCalls, hs]
      simp only [run, hl, Option.map_some']
    · intro p hpmem
      rcases List.mem_cons.mp hpmem with rfl | h
      · exact hw23
      · exact hmem p h
    · rw [List.chain'_cons']
      exact ⟨fun y hy => (hhead y hy).symm, hchain⟩
    · intro p hp'
      simp only [List.head?_cons, Option.some.injEq] at hp'
      rw [← hp']; exact hwc

/-- Whatever the fuel, a dispatch in numeric-priority mode is of a descriptor of
least priority among the runnable ones. -/
theorem priority_dispatch_min (k k1 : Kernel) (fuel : Nat) (hmode : k.scheduling_algorithm = 2)
    (h : schedule fuel k = .dispatch k1) :
    ∀ j, (k.proc_array j).p_state = P_RUNNABLE →
      (k.proc_array k1.current).p_priority ≤ (k.proc_array j).p_priority := by
  have hr := schedule_dispatch_runnable fuel k k1 h
  have hbig := schedule_mono fuel (max fuel NPROCS) k k1 (le_max_left _ _) h
  obtain ⟨st, w, -, hs, -, -, -, hmin, -⟩ :=
    schedule_priority_spec k (max fuel NPROCS) hmode (le_max_right _ _) ⟨_, hr⟩
  rw [hs] at hbig
  simp only [run, Outcome.dispatch.injEq] at hbig
  rw [← hbig]
  exact hmin

theorem shareLoop_skip (f : Nat) (k : Kernel) (pid : Fin NPROCS)
    (hc : (k.proc_array pid).p_shareCount < (k.proc_array pid).p_shares)
    (hr : (k.proc_array pid).p_state ≠ P_RUNNABLE) :
    shareLoop (f + 1) k pid = shareLoop f (setProc k pid
      { k.proc_array pid with p_shareCount := (k.proc_array pid).p_shareCount + 1 }) pid := by
  rw [shareLoop]
  simp only [hc, hr, if_true, if_false]

theorem shareLoop_advance (f : Nat) (k : Kernel) (pid : Fin NPROCS)
    (hc : ¬ (k.proc_array pid).p_shareCount < (k.proc_array pid).p_shares) :
    shareLoop (f + 1) k pid
      = shareLoop f (setProc k pid { k.proc_array pid with p_shareCount := 0 }) (nextPid pid) := by
  rw [shareLoop]
  simp only [hc, if_false]

/-- At a descriptor that is not runnable the loop uses up the remaining quota, one
unit per iteration, then resets the share count and moves on. -/
theorem shareLoop_drain (m : Nat) : ∀ (k : Kernel) (pid : Fin NPROCS),
    (k.proc_array pid).p_state ≠ P_RUNNABLE →
    ((k.proc_array pid).p_shares - (k.proc_array pid).p_shareCount).toNat = m →
    ∀ f, shareLoop (f + (m + 1)) k pid
      = shareLoop f (setProc k pid { k.proc_array pid with p_shareCount := 0 }) (nextPid pid) := by
  induction m with
  | zero =>
    intro k pid _ hm f
    exact shareLoop_advance f k pid (by omega)
  | succ m ih =>
    intro k pid hr hm f
    have hc : (k.proc_array pid).p_shareCount < (k.proc_array pid).p_shares := by omega
    rw [← Nat.add_assoc, shareLoop_skip _ k pid hc hr, ih _ pid
      (by rw [setProc_proc_self]; exact hr) (by rw [setProc_proc_self]; simp only; omega),
      setProc_setProc]
    simp only [setProc_proc_self]

theorem shareLoop_outcome (fuel : Nat) : ∀ (k : Kernel) (pid : Fin NPROCS),
    (∃ k1, shareLoop fuel k pid = .dispatch k1) ∨ (∃ k1, shareLoop fuel k pid = .fuelOut k1) := by
  induction fuel with
  | zero => intro k pid; exact Or.inr ⟨k, rfl⟩
  | succ n ih =>
    intro k pid
    rw [shareLoop]
    simp only
    split
    · split
      · exact Or.inl ⟨_, rfl⟩
      · exact ih _ _
    · exact ih _ _

/-- While the loop is away from a non-runnable descriptor `e`, the share count of `e`
is 0; so it is 0 at any dispatch, which is of another pid. -/
theorem shareLoop_entry_reset (e : Fin NPROCS) (fuel : Nat) :
    ∀ (k : Kernel) (pid : Fin NPROCS) (k1 : Kernel),
    (k.proc_array e).p_state ≠ P_RUNNABLE →
    (pid ≠ e → (k.proc_array e).p_shareCount = 0) →
    shareLoop fuel k pid = .dispatch k1 →
    k1.current ≠ e ∧ (k1.proc_array e).p_shareCount = 0 := by
  induction fuel with
  | zero => intro k pid k1 _ _ h; simp [shareLoop] at h
  | succ n ih =>
    intro k pid k1 hr hz h
    rw [shareLoop] at h
    simp only at h
    split at h
    · split at h
      · next hs =>
        simp only [run, Outcome.dispatch.injEq] at h
        subst h
        have hne : pid ≠ e := fun he => hr (he ▸ hs)
        refine ⟨hne, ?_⟩
        show ((setProc k pid _).proc_array e).p_shareCount = 0
        rw [setProc_proc_other _ _ _ _ (Ne.symm hne)]
        exact hz hne
      · apply ih _ pid k1 _ _ h
        · rw [setProc_state]
          · exact hr
          · rfl
        · intro hne
          rw [setProc_proc_other _ _ _ _ (Ne.symm hne)]
          exact hz hne
    · apply ih _ (nextPid pid) k1 _ _ h
      · rw [setProc_state]
        · exact hr
        · rfl
      · intro _
        by_cases hpe : pid = e
        · subst hpe; rw [setProc_proc_self]
        · rw [setProc_proc_other _ _ _ _ (Ne.symm hpe)]
          exact hz hpe

theorem schedule_share (fuel : Nat) (k : Kernel) (hmode : k.scheduling_algorithm = 3) :
    schedule fuel k = shareLoop fuel k k.current := by
  unfold schedule
  simp [hmode]

theorem schedule_lottery (fuel : Nat) (k : Kernel) (hmode : k.scheduling_algorithm = 4) :
    schedule fuel k = lotteryLoop fuel k := by
  unfold schedule
  simp [hmode]

/-- A draw that does not choose a runnable pid is followed by a fresh draw in the
same call. -/
theorem lotteryLoop_redraw (fuel : Nat) (k : Kernel)
    (htot : toUInt32 (k.lottery_values 0) ≠ 0)
    (hpick : ∀ i, lotteryPick k.lottery_values (nextSelector k) = some i →
      (k.proc_array i).p_state ≠ P_RUNNABLE) :
    lotteryLoop (fuel + 1) k = lotteryLoop fuel (linear_feedback_shift_register k).2 := by
  rw [lotteryLoop]
  have e1 : (linear_feedback_shift_register k).2.lottery_values = k.lottery_values := rfl
  have e2 : (linear_feedback_shift_register k).2.proc_array = k.proc_array := rfl
  simp only [e1, e2, htot, if_false]
  split
  · next i hi => rw [if_neg (hpick i hi)]
  · rfl

theorem lotteryLoop_outcome (fuel : Nat) : ∀ (k : Kernel),
    (∃ k1, lotteryLoop fuel k = .dispatch k1) ∨ (∃ k1, lotteryLoop fuel k = .fuelOut k1) ∨
      (∃ k1, lotteryLoop fuel k = .fault k1) := by
  induction fuel with
  | zero => intro k; exact Or.inr (Or.inl ⟨k, rfl⟩)
  | succ n ih =>
    intro k
    rw [lotteryLoop]
    simp only
    split
    · exact Or.inr (Or.inr ⟨_, rfl⟩)
    · split
      · split
        · exact Or.inl ⟨_, rfl⟩
        · exact ih _
      · exact ih _

/-- One step shifts the register right: a value below `2 ^ (w + 1)` becomes a value
below `2 ^ w`, as long as `w` is at least 16. -/
theorem lfsrStepSpec_shrink (reg : Nat) (w : Nat) (hw : 16 ≤ w) (h : reg < 2 ^ (w + 1)) :
    lfsrStepSpec reg < 2 ^ w := by
  unfold lfsrStepSpec
  simp only
  apply Nat.or_lt_two_pow
  · rw [Nat.shiftRight_eq_div_pow, Nat.pow_one]
    rw [Nat.pow_succ] at h
    omega
  · have hb : ((reg >>> 0) ^^^ (reg >>> 2) ^^^ (reg >>> 3) ^^^ (reg >>> 5)) &&& 1 ≤ 1 :=
      Nat.and_le_right
    rw [Nat.shiftLeft_eq]
    calc _ ≤ 1 * 2 ^ 15 := Nat.mul_le_mul_right _ hb
      _ < 2 ^ 16 := by norm_num
      _ ≤ 2 ^ w := Nat.pow_le_pow_right (by norm_num) hw

theorem lfsr_iterate_lt (reg : Nat) (h : reg < 2 ^ 32) (n : Nat) :
    lfsrStepSpec^[n] reg < 2 ^ max 16 (32 - n) := by
  induction n with
  | zero => simpa using h
  | succ n ih =>
    rw [Function.iterate_succ_apply']
    by_cases hn : n < 16
    · have e1 : max 16 (32 - n) = (31 - n) + 1 := by omega
      have e2 : max 16 (32 - (n + 1)) = 31 - n := by omega
      rw [e1] at ih
      rw [e2]
      exact lfsrStepSpec_shrink _ _ (by omega) ih
    · have e1 : max 16 (32 - n) = 16 := by omega
      have e2 : max 16 (32 - (n + 1)) = 16 := by omega
      rw [e1] at ih
      rw [e2]
      exact lfsrStepSpec_lt _ 16 (le_refl _) ih

theorem lfsr_iterate_lt16 (reg : Nat) (h : reg < 2 ^ 16) (n : Nat) :
    lfsrStepSpec^[n] reg < 2 ^ 16 := by
  induction n with
  | zero => simpa using h
  | succ n ih =>
    rw [Function.iterate_succ_apply']
    exact lfsrStepSpec_lt _ 16 (le_refl _) ih

theorem lfsrCalls_getElem? (n : Nat) (k : Kernel) (i : Nat) (v : Nat)
    (h : (lfsrCalls n k).1[i]? = some v) : i < n ∧ v = lfsrStepSpec^[i + 1] k.tsc := by
  rw [(lfsrCalls_values n k).1] at h
  simp only [List.getElem?_map, Option.map_eq_some'] at h
  obtain ⟨a, ha, hv⟩ := h
  rw [List.getElem?_eq_some] at ha
  obtain ⟨hi, ha⟩ := ha
  rw [List.getElem_range] at ha
  rw [List.length_range] at hi
  subst ha
  exact ⟨hi, hv.symm⟩

theorem lfsrStepSpec_arith (reg : Nat) (h : reg < 2 ^ 16) :
    lfsrStepSpec reg = 2 ^ 15 * ((reg + reg / 4 + reg / 8 + reg / 32) % 2) + reg / 2 := by
  unfold lfsrStepSpec
  simp only [Nat.shiftRight_eq_div_pow, Nat.and_one_is_mod, Nat.shiftLeft_eq, Nat.pow_zero,
    Nat.div_one]
  have e2 : (2 : Nat) ^ 2 = 4 := rfl
  have e3 : (2 : Nat) ^ 3 = 8 := rfl
  have e5 : (2 : Nat) ^ 5 = 32 := rfl
  have e1 : (2 : Nat) ^ 1 = 2 := rfl
  rw [e1, e2, e3, e5]
  have p1 := @Nat.xor_mod_two_eq reg (reg / 4)
  have p2 := @Nat.xor_mod_two_eq (reg ^^^ reg / 4) (reg / 8)
  have p3 := @Nat.xor_mod_two_eq (reg ^^^ reg / 4 ^^^ reg / 8) (reg / 32)
  have hb : (reg ^^^ reg / 4 ^^^ reg / 8 ^^^ reg / 32) % 2
      = (reg + reg / 4 + reg / 8 + reg / 32) % 2 := by
    omega
  rw [hb, Nat.or_comm, Nat.mul_comm]
  exact (Nat.mul_add_lt_is_or (by omega) _).symm

theorem lfsrStepSpec_inj (r s : Nat) (hr : r < 2 ^ 16) (hs : s < 2 ^ 16)
    (h : lfsrStepSpec r = lfsrStepSpec s) : r = s := by
  rw [lfsrStepSpec_arith r hr, lfsrStepSpec_arith s hs] at h
  have r4 : r / 4 = r / 2 / 2 := by rw [Nat.div_div_eq_div_mul]
  have r8 : r / 8 = r / 2 / 4 := by rw [Nat.div_div_eq_div_mul]
  have r32 : r / 32 = r / 2 / 16 := by rw [Nat.div_div_eq_div_mul]
  have s4 : s / 4 = s / 2 / 2 := by rw [Nat.div_div_eq_div_mul]
  have s8 : s / 8 = s / 2 / 4 := by rw [Nat.div_div_eq_div_mul]
  have s32 : s / 32 = s / 2 / 16 := by rw [Nat.div_div_eq_div_mul]
  rw [r4, r8, r32, s4, s8, s32] at h
  have hr2 : r / 2 < 2 ^ 15 := by omega
  have hs2 : s / 2 < 2 ^ 15 := by omega
  have hhalf : r / 2 = s / 2 := by
    rcases Nat.mod_two_eq_zero_or_one (r + r / 2 / 2 + r / 2 / 4 + r / 2 / 16) with h1 | h1 <;>
      rcases Nat.mod_two_eq_zero_or_one (s + s / 2 / 2 + s / 2 / 4 + s / 2 / 16) with h2 | h2 <;>
      rw [h1, h2] at h <;> omega
  rw [hhalf] at h
  have hbit : (r + s / 2 / 2 + s / 2 / 4 + s / 2 / 16) % 2
      = (s + s / 2 / 2 + s / 2 / 4 + s / 2 / 16) % 2 := by
    rcases Nat.mod_two_eq_zero_or_one (r + s / 2 / 2 + s / 2 / 4 + s / 2 / 16) with h1 | h1 <;>
      rcases Nat.mod_two_eq_zero_or_one (s + s / 2 / 2 + s / 2 / 4 + s / 2 / 16) with h2 | h2 <;>
      rw [h1, h2] at h ⊢ <;> omega
  omega

theorem lfsrStepSpec_zero : lfsrStepSpec 0 = 0 := by decide

theorem lfsr_iterate_ne_zero (reg : Nat) (h : reg < 2 ^ 16) (h0 : reg ≠ 0) (n : Nat) :
    lfsrStepSpec^[n] reg ≠ 0 := by
  induction n with
  | zero => simpa using h0
  | succ n ih =>
    rw [Function.iterate_succ_apply']
    intro hz
    apply ih
    apply lfsrStepSpec_inj _ 0 (lfsr_iterate_lt16 reg h n) (by norm_num)
    rw [hz, lfsrStepSpec_zero]

theorem lfsr_iterate_zero (n : Nat) : lfsrStepSpec^[n] 0 = 0 := by
  induction n with
  | zero => rfl
  | succ n ih => rw [Function.iterate_succ_apply', ih, lfsrStepSpec_zero]

theorem lfsr_fixed_at_zero (k : Kernel) (h : k.tsc = 0) :
    (linear_feedback_shift_register k).1 = 0 ∧ (linear_feedback_shift_register k).2 = k := by
  have e1 : (linear_feedback_shift_register k).1 = lfsrStepSpec k.tsc := rfl
  have e2 : (linear_feedback_shift_register k).2 = { k with tsc := lfsrStepSpec k.tsc } := rfl
  rw [e1, e2, h, lfsrStepSpec_zero]
  refine ⟨rfl, ?_⟩
  cases k
  simp only at h
  subst h
  rfl

theorem lfsrCalls_zero (n : Nat) (k : Kernel) (h : k.tsc = 0) :
    (lfsrCalls n k).1 = List.replicate n 0 ∧ (lfsrCalls n k).2 = k := by
  induction n with
  | zero => exact ⟨rfl, rfl⟩
  | succ n ih =>
    obtain ⟨h1, h2⟩ := lfsr_fixed_at_zero k h
    rw [lfsrCalls]
    simp only [h1, h2, ih.1, ih.2, List.replicate_succ, and_self]

theorem nextSelector_zero (k : Kernel) (h : k.tsc = 0) : nextSelector k = 0 := by
  unfold nextSelector
  rw [(lfsr_fixed_at_zero k h).1, Nat.zero_mod]
  rfl

/-- The state of a descriptor after a kernel step. -/
theorem interrupt_state (T : TrapNumbers) (fuel : Nat) (k : Kernel) (reg : registers_t)
    (j : Fin NPROCS) :
    (((interrupt T fuel k reg).kernel).proc_array j).p_state = (k.proc_array j).p_state ∨
      (reg.reg_intno = T.INT_SYS_EXIT ∧ j = k.current ∧
        (((interrupt T fuel k reg).kernel).proc_array j).p_state = P_ZOMBIE) := by
  by_cases hx : reg.reg_intno = T.INT_SYS_EXIT
  · rw [interrupt_exit T fuel k reg hx, schedule_state]
    by_cases hj : j = k.current
    · right
      subst hj
      exact ⟨hx, rfl, by rw [setProc_proc_self]⟩
    · left
      rw [setProc_proc_other _ _ _ _ hj]
  · left
    have hreg : ((setProc k k.current
        { k.proc_array k.current with p_registers := reg }).proc_array j).p_state
        = (k.proc_array j).p_state := setProc_state k k.current j _ rfl
    by_cases hs : reg.reg_intno = T.INT_SYS_SHARE
    · rw [interrupt_share T fuel k reg hs]
      exact setProc_state k k.current j _ rfl
    by_cases hp : reg.reg_intno = T.INT_SYS_PRIORITIZE
    · rw [interrupt_prioritize T fuel k reg hp]
      exact setProc_state k k.current j _ rfl
    unfold interrupt
    simp only [hx, hs, hp, if_false]
    split
    · rw [schedule_state]; exact hreg
    · split
      · rw [schedule_state]; exact hreg
      · split
        · rw [schedule_state]; exact hreg
        · exact hreg

/-- A kernel step that dispatches either resumes the current process or dispatches a
process that is runnable in the new state. -/
theorem interrupt_dispatch (T : TrapNumbers) (fuel : Nat) (k k1 : Kernel) (reg : registers_t)
    (h : interrupt T fuel k reg = .dispatch k1) :
    (k1.proc_array k1.current).p_state = P_RUNNABLE ∨
      (k1.current = k.current ∧
        (k1.proc_array k.current).p_state = (k.proc_array k.current).p_state) := by
  have hsched : ∀ k', interrupt T fuel k reg = schedule fuel k' →
      (k1.proc_array k1.current).p_state = P_RUNNABLE := by
    intro k' he
    rw [he] at h
    have h1 := schedule_dispatch_runnable fuel k' k1 h
    have h2 := schedule_state fuel k' k1.current
    rw [h] at h2
    exact h2.trans h1
  by_cases hx : reg.reg_intno = T.INT_SYS_EXIT
  · exact Or.inl (hsched _ (interrupt_exit T fuel k reg hx))
  by_cases hs : reg.reg_intno = T.INT_SYS_SHARE
  · right
    rw [interrupt_share T fuel k reg hs] at h
    simp only [run, Outcome.dispatch.injEq] at h
    subst h
    exact ⟨rfl, setProc_state k k.current k.current _ rfl⟩
  by_cases hp : reg.reg_intno = T.INT_SYS_PRIORITIZE
  · right
    rw [interrupt_prioritize T fuel k reg hp] at h
    simp only [run, Outcome.dispatch.injEq] at h
    subst h
    exact ⟨rfl, setProc_state k k.current k.current _ rfl⟩
  left
  have hform : (∃ k', interrupt T fuel k reg = schedule fuel k') ∨
      (∃ k', interrupt T fuel k reg = .halt k') := by
    unfold interrupt
    simp only [hx, hs, hp, if_false]
    split
    · exact Or.inl ⟨_, rfl⟩
    · split
      · exact Or.inl ⟨_, rfl⟩
      · split
        · exact Or.inl ⟨_, rfl⟩
        · exact Or.inr ⟨_, rfl⟩
  rcases hform with ⟨k', he⟩ | ⟨k', he⟩
  · exact hsched k' he
  · rw [he] at h; cases h

/-- The invariant of the reachable states is kept by a kernel step that dispatches. -/
theorem interrupt_keeps_invariant (T : TrapNumbers) (fuel : Nat) (k k1 : Kernel)
    (reg : registers_t) (h : interrupt T fuel k reg = .dispatch k1)
    (hcur : (k.proc_array k.current).p_state = P_RUNNABLE)
    (hzero : (k.proc_array 0).p_state = P_EMPTY) :
    (k1.proc_array k1.current).p_state = P_RUNNABLE ∧ (k1.proc_array 0).p_state = P_EMPTY := by
  have hne : (0 : Fin NPROCS) ≠ k.current := by
    intro he
    rw [← he, hzero] at hcur
    cases hcur
  refine ⟨?_, ?_⟩
  · rcases interrupt_dispatch T fuel k k1 reg h with h1 | ⟨h1, h2⟩
    · exact h1
    · rw [h1, h2]; exact hcur
  · have := interrupt_state T fuel k reg 0
    rw [h] at this
    rcases this with h1 | ⟨-, h1, -⟩
    · exact h1.trans hzero
    · exact absurd h1 hne

theorem kernelSteps_invariant (T : TrapNumbers) (inputs : List (Nat × registers_t)) :
    ∀ (k kf : Kernel), kernelSteps T inputs k = some kf →
    (k.proc_array k.current).p_state = P_RUNNABLE → (k.proc_array 0).p_state = P_EMPTY →
    (kf.proc_array kf.current).p_state = P_RUNNABLE ∧ (kf.proc_array 0).p_state = P_EMPTY := by
  induction inputs with
  | nil =>
    intro k kf h hcur hzero
    simp only [kernelSteps, Option.some.injEq] at h
    subst h
    exact ⟨hcur, hzero⟩
  | cons x rest ih =>
    intro k kf h hcur hzero
    obtain ⟨fuel, reg⟩ := x
    rw [kernelSteps] at h
    split at h
    · next k1 hk1 =>
      obtain ⟨h1, h2⟩ := interrupt_keeps_invariant T fuel k k1 reg hk1 hcur hzero
      exact ih k1 kf h h1 h2
    · cases h

theorem setProc_shares (k : Kernel) (pid j : Fin NPROCS) (p : process_t)
    (h : p.p_shares = (k.proc_array pid).p_shares) :
    ((setProc k pid p).proc_array j).p_shares = (k.proc_array j).p_shares := by
  by_cases hj : j = pid
  · subst hj; rw [setProc_proc_self]; exact h
  · rw [setProc_proc_other k pid j p hj]

/-- With share counts that are not negative, the proportional-share loop dispatches
only a descriptor with at least one share. -/
theorem shareLoop_dispatch_shares (fuel : Nat) : ∀ (k : Kernel) (pid : Fin NPROCS) (k1 : Kernel),
    (∀ i, 0 ≤ (k.proc_array i).p_shareCount) → shareLoop fuel k pid = .dispatch k1 →
    1 ≤ (k.proc_array k1.current).p_shares := by
  induction fuel with
  | zero => intro k pid k1 _ h; simp [shareLoop] at h
  | succ n ih =>
    intro k pid k1 hc h
    rw [shareLoop] at h
    simp only at h
    have hpid := hc pid
    split at h
    · next hlt =>
      have hc1 : ∀ i, 0 ≤ ((setProc k pid { k.proc_array pid with
          p_shareCount := (k.proc_array pid).p_shareCount + 1 }).proc_array i).p_shareCount := by
        intro i
        by_cases hi : i = pid
        · subst hi; rw [setProc_proc_self]; simp only; omega
        · rw [setProc_proc_other _ _ _ _ hi]; exact hc i
      split at h
      · simp only [run, Outcome.dispatch.injEq] at h
        subst h
        show 1 ≤ (k.proc_array pid).p_shares
        omega
      · have := ih _ pid k1 hc1 h
        rw [setProc_shares] at this
        · exact this
        · rfl
    · have hc1 : ∀ i, 0 ≤ ((setProc k pid { k.proc_array pid with
          p_shareCount := 0 }).proc_array i).p_shareCount := by
        intro i
        by_cases hi : i = pid
        · subst hi; rw [setProc_proc_self]
        · rw [setProc_proc_other _ _ _ _ hi]; exact hc i
      have := ih _ (nextPid pid) k1 hc1 h
      rw [setProc_shares] at this
      · exact this
      · rfl

/-- The number of naturals below `n` in the interval from `a` to `b`, `b` excluded. -/
theorem range_filter_interval (n : Nat) : ∀ (a b : Nat), b ≤ n →
    ((List.range n).filter fun s => decide (a ≤ s ∧ s < b)).length = b - a := by
  induction n with
  | zero =>
    intro a b hb
    have : b = 0 := by omega
    subst this
    simp
  | succ n ih =>
    intro a b hb
    rw [List.range_succ, List.filter_append, List.length_append]
    by_cases hbn : b ≤ n
    · rw [ih a b hbn]
      have : ¬ (a ≤ n ∧ n < b) := by omega
      simp [this]
    · have hb' : b = n + 1 := by omega
      subst hb'
      have hcongr : ((List.range n).filter fun s => decide (a ≤ s ∧ s < n + 1))
          = (List.range n).filter fun s => decide (a ≤ s ∧ s < n) := by
        apply List.filter_congr
        intro s hs
        rw [List.mem_range] at hs
        have : (a ≤ s ∧ s < n + 1) ↔ (a ≤ s ∧ s < n) := by omega
        simp only [this]
      rw [hcongr, ih a n (le_refl _)]
      by_cases han : a ≤ n
      · simp [han]; omega
      · simp [han]; omega

theorem selectorCount_interval (t : Fin NPROCS → Int) (i : Fin NPROCS) (a b : Nat)
    (hb : b ≤ (t 0).toNat)
    (h : ∀ s : Nat, s < (t 0).toNat → (lotteryPick t (s : Int) = some i ↔ (a ≤ s ∧ s < b))) :
    selectorCount t i = b - a := by
  unfold selectorCount
  rw [← range_filter_interval (t 0).toNat a b hb]
  apply congrArg List.length
  apply List.filter_congr
  intro s hs
  rw [List.mem_range] at hs
  simp only [h s hs]

/-- The selector counts of a cumulative ticket table. -/
theorem selectorCount_sorted (t : Fin NPROCS → Int) (h1 : 0 ≤ t 1) (h12 : t 1 ≤ t 2)
    (h23 : t 2 ≤ t 3) (h34 : t 3 ≤ t 4) (h40 : t 4 = t 0) :
    (selectorCount t 1 : Int) = t 1 ∧ (selectorCount t 2 : Int) = t 2 - t 1 ∧
    (selectorCount t 3 : Int) = t 3 - t 2 ∧ (selectorCount t 4 : Int) = t 4 - t 3 ∧
    selectorCount t 0 = 0 := by
  have hall : ∀ (P : Fin NPROCS → Prop), (∀ j : Fin NPROCS, P j) ↔
      (P 0 ∧ P 1 ∧ P 2 ∧ P 3 ∧ P 4) := by
    intro P
    constructor
    · intro h; exact ⟨h 0, h 1, h 2, h 3, h 4⟩
    · rintro ⟨a0, a1, a2, a3, a4⟩ j
      have hcases : ∀ v : Fin NPROCS, v = 0 ∨ v = 1 ∨ v = 2 ∨ v = 3 ∨ v = 4 := by decide
      rcases hcases j with rfl | rfl | rfl | rfl | rfl <;> assumption
  have e1 : selectorCount t 1 = (t 1).toNat - 0 := by
    apply selectorCount_interval t 1 0 (t 1).toNat (by omega)
    intro s hs
    rw [lotteryPick_some, hall]
    simp only [Fin.val_zero, Fin.val_one, Fin.val_two]
    have e3 : ((3 : Fin NPROCS) : Nat) = 3 := rfl
    have e4 : ((4 : Fin NPROCS) : Nat) = 4 := rfl
    rw [e3, e4]
    omega
  have e2 : selectorCount t 2 = (t 2).toNat - (t 1).toNat := by
    apply selectorCount_interval t 2 (t 1).toNat (t 2).toNat (by omega)
    intro s hs
    rw [lotteryPick_some, hall]
    simp only [Fin.val_zero, Fin.val_one, Fin.val_two]
    have e3 : ((3 : Fin NPROCS) : Nat) = 3 := rfl
    have e4 : ((4 : Fin NPROCS) : Nat) = 4 := rfl
    rw [e3, e4]
    omega
  have e3 : selectorCount t 3 = (t 3).toNat - (t 2).toNat := by
    apply selectorCount_interval t 3 (t 2).toNat (t 3).toNat (by omega)
    intro s hs
    rw [lotteryPick_some, hall]
    simp only [Fin.val_zero, Fin.val_one, Fin.val_two]
    have e3 : ((3 : Fin NPROCS) : Nat) = 3 := rfl
    have e4 : ((4 : Fin NPROCS) : Nat) = 4 := rfl
    rw [e3, e4]
    omega
  have e4 : selectorCount t 4 = (t 4).toNat - (t 3).toNat := by
    apply selectorCount_interval t 4 (t 3).toNat (t 4).toNat (by omega)
    intro s hs
    rw [lotteryPick_some, hall]
    simp only [Fin.val_zero, Fin.val_one, Fin.val_two]
    have e3 : ((3 : Fin NPROCS) : Nat) = 3 := rfl
    have e4 : ((4 : Fin NPROCS) : Nat) = 4 := rfl
    rw [e3, e4]
    omega
  have e0 : selectorCount t 0 = 0 - 0 := by
    apply selectorCount_interval t 0 0 0 (by omega)
    intro s hs
    rw [lotteryPick_some]
    simp
  refine ⟨?_, ?_, ?_, ?_, ?_⟩ <;> omega

theorem nextSelector_range (k : Kernel) (hpos : 0 < k.lottery_values 0)
    (hint : k.lottery_values 0 < 2 ^ 31) :
    0 ≤ nextSelector k ∧ nextSelector k < k.lottery_values 0 := by
  unfold nextSelector
  have htot : toUInt32 (k.lottery_values 0) = (k.lottery_values 0).toNat := by
    unfold toUInt32
    rw [Int.emod_eq_of_lt (le_of_lt hpos) (by omega)]
  rw [htot]
  have hlt : (linear_feedback_shift_register k).1 % (k.lottery_values 0).toNat
      < (k.lottery_values 0).toNat := Nat.mod_lt _ (by omega)
  generalize (linear_feedback_shift_register k).1 % (k.lottery_values 0).toNat = x at hlt
  have hx : x < 2 ^ 31 := by omega
  rw [toInt32_small x hx]
  omega

/-- A dispatch of the lottery loop is of the pid that the last draw chose: after some
number `n` of earlier draws, the next selector chooses it and it is runnable. -/
theorem lotteryLoop_dispatch_pick (fuel : Nat) : ∀ (k k1 : Kernel),
    lotteryLoop fuel k = .dispatch k1 →
    ∃ n, n < fuel ∧
      lotteryPick k.lottery_values (nextSelector (lfsrCalls n k).2) = some k1.current ∧
      (k.proc_array k1.current).p_state = P_RUNNABLE ∧
      k1 = { (linear_feedback_shift_register (lfsrCalls n k).2).2 with current := k1.current } := by
  induction fuel with
  | zero => intro k k1 h; simp [lotteryLoop] at h
  | succ f ih =>
    intro k k1 h
    have hstep : ∀ k2, lotteryLoop f (linear_feedback_shift_register k).2 = .dispatch k2 →
        ∃ n, n < f + 1 ∧
          lotteryPick k.lottery_values (nextSelector (lfsrCalls n k).2) = some k2.current ∧
          (k.proc_array k2.current).p_state = P_RUNNABLE ∧
          k2 = { (linear_feedback_shift_register (lfsrCalls n k).2).2 with
            current := k2.current } := by
      intro k2 h2
      obtain ⟨n, hn, hp, hr, hk⟩ := ih _ k2 h2
      exact ⟨n + 1, by omega, hp, hr, hk⟩
    rw [lotteryLoop] at h
    simp only at h
    split at h
    · cases h
    · split at h
      · next i hi =>
        split at h
        · next hr =>
          simp only [run, Outcome.dispatch.injEq] at h
          subst h
          exact ⟨0, by omega, hi, hr, rfl⟩
        · exact hstep k1 h
      · exact hstep k1 h

/-- Writing a descriptor does not touch the random source: the draws are the same
and the descriptor stays written. -/
theorem lfsrCalls_setProc (n : Nat) : ∀ (k : Kernel) (pid : Fin NPROCS) (p : process_t),
    lfsrCalls n (setProc k pid p) = ((lfsrCalls n k).1, setProc (lfsrCalls n k).2 pid p) := by
  induction n with
  | zero => intro k pid p; rfl
  | succ n ih =>
    intro k pid p
    have e : (linear_feedback_shift_register (setProc k pid p)).2
        = setProc (linear_feedback_shift_register k).2 pid p := rfl
    rw [lfsrCalls, lfsrCalls]
    simp only [e, ih]
    rfl

/-- The lottery loop dispatches at the first draw that chooses a runnable pid: when
the draws before draw `n` choose no runnable pid and draw `n` chooses the runnable
pid `i`, every call with more than `n` iterations dispatches `i`. -/
theorem lotteryLoop_dispatches_at_draw (n : Nat) : ∀ (k : Kernel) (i : Fin NPROCS) (f : Nat),
    toUInt32 (k.lottery_values 0) ≠ 0 →
    (∀ m, m < n → ∀ j, lotteryPick k.lottery_values (nextSelector (lfsrCalls m k).2) = some j →
      (k.proc_array j).p_state ≠ P_RUNNABLE) →
    lotteryPick k.lottery_values (nextSelector (lfsrCalls n k).2) = some i →
    (k.proc_array i).p_state = P_RUNNABLE → n < f →
    lotteryLoop f k = run (linear_feedback_shift_register (lfsrCalls n k).2).2 i := by
  induction n with
  | zero =>
    intro k i f htot _ hpick hrun hf
    obtain ⟨g, rfl⟩ : ∃ g, f = g + 1 := ⟨f - 1, by omega⟩
    exact lotteryLoop_first_draw g k i htot hpick hrun
  | succ n ih =>
    intro k i f htot hbefore hpick hrun hf
    obtain ⟨g, rfl⟩ : ∃ g, f = g + 1 := ⟨f - 1, by omega⟩
    rw [lotteryLoop_redraw g k htot (hbefore 0 (by omega))]
    exact ih (linear_feedback_shift_register k).2 i g htot
      (fun m hm j hj => hbefore (m + 1) (by omega) j hj) hpick hrun (by omega)

/-- The lottery loop dispatches as soon as some draw of the call chooses a runnable
pid: it dispatches the pid of the first such draw, with any number of iterations
beyond that draw. -/
theorem lotteryLoop_dispatches_of_draw (k : Kernel)
    (htot : toUInt32 (k.lottery_values 0) ≠ 0)
    (h : ∃ n i, lotteryPick k.lottery_values (nextSelector (lfsrCalls n k).2) = some i ∧
      (k.proc_array i).p_state = P_RUNNABLE) :
    ∃ n i, lotteryPick k.lottery_values (nextSelector (lfsrCalls n k).2) = some i ∧
      (k.proc_array i).p_state = P_RUNNABLE ∧
      ∃ k1, k1.current = i ∧ ∀ f, n < f → lotteryLoop f k = .dispatch k1 := by
  classical
  have hmin := fun m (hm : m < Nat.find h) => Nat.find_min h hm
  obtain ⟨i, hpick, hrun⟩ := Nat.find_spec h
  refine ⟨Nat.find h, i, hpick, hrun,
    { (linear_feedback_shift_register (lfsrCalls (Nat.find h) k).2).2 with current := i },
    rfl, fun f hf => ?_⟩
  refine lotteryLoop_dispatches_at_draw _ k i f htot ?_ hpick hrun hf
  intro m hm j hj hr
  exact hmin m hm ⟨j, hj, hr⟩

/-- With the register at 0 every draw has selector 0: when the pid that selector 0
chooses is not runnable, the lottery loop never dispatches. -/
theorem lotteryLoop_spins_at_zero (fuel : Nat) (k : Kernel) (h : k.tsc = 0)
    (htot : toUInt32 (k.lottery_values 0) ≠ 0)
    (hpick : ∀ i, lotteryPick k.lottery_values 0 = some i →
      (k.proc_array i).p_state ≠ P_RUNNABLE) :
    lotteryLoop fuel k = .fuelOut k := by
  induction fuel with
  | zero => rfl
  | succ n ih =>
    rw [lotteryLoop_redraw n k htot (by rw [nextSelector_zero k h]; exact hpick),
      (lfsr_fixed_at_zero k h).2, ih]

/-- With a nonzero ticket total the lottery loop never divides by zero: it dispatches
or is still drawing. -/
theorem lotteryLoop_outcome_of_total (fuel : Nat) : ∀ (k : Kernel),
    toUInt32 (k.lottery_values 0) ≠ 0 →
    (∃ k1, lotteryLoop fuel k = .dispatch k1) ∨ (∃ k1, lotteryLoop fuel k = .fuelOut k1) := by
  induction fuel with
  | zero => intro k _; exact Or.inr ⟨k, rfl⟩
  | succ n ih =>
    intro k htot
    have e1 : (linear_feedback_shift_register k).2.lottery_values = k.lottery_values := rfl
    rw [lotteryLoop]
    simp only [e1, htot, if_false]
    split
    · split
      · exact Or.inl ⟨_, rfl⟩
      · exact ih _ htot
    · exact ih _ htot

/-! ## Properties of the kernel -/

/-- C1: in every scheduling mode, for every process table and every current pid, a
process that `schedule` dispatches is RUNNABLE at the moment of dispatch (and was
RUNNABLE when `schedule` was entered), so it is neither ZOMBIE nor EMPTY. -/
theorem schedule_dispatches_only_runnable (fuel : Nat) (k k1 : Kernel)
    (h : schedule fuel k = .dispatch k1) :
    (k1.proc_array k1.current).p_state = P_RUNNABLE ∧
    (k.proc_array k1.current).p_state = P_RUNNABLE ∧
    (k1.proc_array k1.current).p_state ≠ P_ZOMBIE ∧
    (k1.proc_array k1.current).p_state ≠ P_EMPTY := by
  have h0 := schedule_dispatch_runnable fuel k k1 h
  have h1 : (k1.proc_array k1.current).p_state = P_RUNNABLE := by
    have := schedule_state fuel k k1.current
    rw [h] at this
    exact this.trans h0
  refine ⟨h1, h0, ?_, ?_⟩ <;> rw [h1] <;> decide

theorem schedule_dispatches_only_runnable_witness :
    schedule 1 (bootKernel 4)
        = .dispatch { (linear_feedback_shift_register (bootKernel 4)).2 with current := 4 } ∧
      ((bootKernel 4).proc_array 4).p_state = P_RUNNABLE :=
  ⟨rfl, (schedule_dispatches_only_runnable 1 (bootKernel 4)
    { (linear_feedback_shift_register (bootKernel 4)).2 with current := 4 } rfl).2.1⟩

/-- C2: under numeric-priority scheduling, when some descriptor is RUNNABLE, `schedule`
dispatches a RUNNABLE pid whose priority is at most that of every RUNNABLE
descriptor of the table, whatever the current pid; with priorities 1, 0, 0, 2 for
pids 1 to 4, all RUNNABLE, and slot 0 not RUNNABLE, that pid is 2 or 3. -/
theorem numeric_priority_dispatches_minimum (k : Kernel) (fuel : Nat)
    (hmode : k.scheduling_algorithm = 2) (hfuel : NPROCS ≤ fuel)
    (hrun : ∃ j, (k.proc_array j).p_state = P_RUNNABLE) :
    ∃ w : Fin NPROCS, schedule fuel k = run k w ∧
      (k.proc_array w).p_state = P_RUNNABLE ∧
      (∀ j, (k.proc_array j).p_state = P_RUNNABLE →
        (k.proc_array w).p_priority ≤ (k.proc_array j).p_priority) ∧
      ((k.proc_array 0).p_state ≠ P_RUNNABLE →
        (∀ j : Fin NPROCS, j ≠ 0 → (k.proc_array j).p_state = P_RUNNABLE) →
        (k.proc_array 1).p_priority = 1 → (k.proc_array 2).p_priority = 0 →
        (k.proc_array 3).p_priority = 0 → (k.proc_array 4).p_priority = 2 →
        w = 2 ∨ w = 3) := by
  obtain ⟨st, hst⟩ := findStart_some k k.current fuel hfuel hrun
  have hstr := findStart_runnable k fuel _ _ hst
  have hsched : schedule fuel k
      = run k (prioScan k (NPROCS - 1) st (k.proc_array st).p_priority st) := by
    unfold schedule
    simp [hmode, hst]
  obtain ⟨hle, hmin⟩ := prioScan_min k (NPROCS - 1) st st
  have hw := prioScan_runnable k (NPROCS - 1) st (k.proc_array st).p_priority st hstr
  have hall : ∀ j, (k.proc_array j).p_state = P_RUNNABLE →
      (k.proc_array (prioScan k (NPROCS - 1) st (k.proc_array st).p_priority st)).p_priority
        ≤ (k.proc_array j).p_priority := by
    intro j hj
    by_cases hjs : j = st
    · rw [hjs]; exact hle
    · have hoff := off_reaches st j
      have hne : (j.val + NPROCS - st.val) % NPROCS ≠ 0 := by
        intro h0
        rw [h0, off_zero] at hoff
        exact hjs hoff.symm
      have hlt : (j.val + NPROCS - st.val) % NPROCS < NPROCS := Nat.mod_lt _ (by decide)
      have := hmin ((j.val + NPROCS - st.val) % NPROCS) (by omega) (by omega)
        (by rw [hoff]; exact hj)
      rwa [hoff] at this
  refine ⟨_, hsched, hw, hall, ?_⟩
  intro h0 hr p1 p2 p3 p4
  generalize prioScan k (NPROCS - 1) st (k.proc_array st).p_priority st = w at hw hall
  have h2 := hall 2 (hr 2 (by decide))
  rw [p2] at h2
  have hcases : ∀ v : Fin NPROCS, v = 0 ∨ v = 1 ∨ v = 2 ∨ v = 3 ∨ v = 4 := by decide
  rcases hcases w with rfl | rfl | rfl | rfl | rfl
  · exact absurd hw h0
  · rw [p1] at h2; omega
  · exact Or.inl rfl
  · exact Or.inr rfl
  · rw [p4] at h2; omega

theorem numeric_priority_dispatches_minimum_witness :
    (bootKernel 2).scheduling_algorithm = 2 ∧ NPROCS ≤ 5 ∧
      (∃ j, ((bootKernel 2).proc_array j).p_state = P_RUNNABLE) ∧
      ∃ w : Fin NPROCS, schedule 5 (bootKernel 2) = run (bootKernel 2) w ∧ (w = 2 ∨ w = 3) := by
  have hrun : ∃ j, ((bootKernel 2).proc_array j).p_state = P_RUNNABLE := ⟨1, by decide⟩
  obtain ⟨w, h1, -, -, h4⟩ :=
    numeric_priority_dispatches_minimum (bootKernel 2) 5 rfl (le_refl _) hrun
  exact ⟨rfl, le_refl _, hrun, w, h1,
    h4 (by decide) (by decide) (by decide) (by decide) (by decide) (by decide)⟩

/-- C3: under proportional share, from the bootstrap state (current pid 1, every share
count 0, shares 0, 1, 2, 3, 4, pids 1 to 4 RUNNABLE, slot 0 EMPTY) the first `10 * N`
consecutive calls of `schedule` all dispatch, in the repeating order
1, 2, 2, 3, 3, 3, 4, 4, 4, 4: pid 1 is dispatched `N` times, pid 2 `2 * N` times,
pid 3 `3 * N` times and pid 4 `4 * N` times. -/
theorem proportional_share_cycle (k : Kernel) (fuel N : Nat)
    (hmode : k.scheduling_algorithm = 3) (hfuel : 3 ≤ fuel) (hcur : k.current = 1)
    (hcount : ∀ i, (k.proc_array i).p_shareCount = 0)
    (hshares : ∀ i : Fin NPROCS, (k.proc_array i).p_shares = (i.val : Int))
    (hrun : ∀ i : Fin NPROCS, i ≠ 0 → (k.proc_array i).p_state = P_RUNNABLE)
    (hzero : (k.proc_array 0).p_state = P_EMPTY) :
    ∃ kf, scheduleCalls fuel (10 * N) k = some (shareCycles N, kf) ∧
      (shareCycles N).count 1 = N ∧ (shareCycles N).count 2 = 2 * N ∧
      (shareCycles N).count 3 = 3 * N ∧ (shareCycles N).count 4 = 4 * N ∧
      (shareCycles N).count 0 = 0 ∧ (shareCycles N).length = 10 * N := by
  obtain ⟨c1, c2, c3, c4, c0, cl⟩ := shareCycles_count N
  have hboot : ShareSim (bootKernel 3) k := by
    refine ⟨hcur.symm, rfl, hmode, ?_⟩
    intro i
    simp only [shareView, hcount, hshares]
    by_cases hi : i = 0
    · subst hi; rw [hzero]; rfl
    · rw [hrun i hi]
      revert i; decide
  -- every further cycle starts in a state that agrees with `afterCycle`
  have hnext : ∀ n : Nat, ∀ k' : Kernel, ShareSim afterCycle k' →
      ∃ kf, scheduleCalls fuel (10 * n) k' = some (shareCycles n, kf) := by
    intro n
    induction n with
    | zero => intro k' _; exact ⟨k', rfl⟩
    | succ n ih =>
      intro k' hs
      obtain ⟨ka, ha, hcur', hview⟩ := nextCycle
      obtain ⟨kb, hb, hsb⟩ := scheduleCalls_sim 3 10 afterCycle k' ka shareCycle hs ha
      have hsim : ShareSim afterCycle kb := by
        obtain ⟨e1, e2, e3, e4⟩ := hsb
        exact ⟨hcur'.symm.trans e1, afterCycle_mode, e3, fun i => (hview i).symm.trans (e4 i)⟩
      obtain ⟨kf, hkf⟩ := ih kb hsim
      have := scheduleCalls_add fuel 10 (10 * n) k' shareCycle (shareCycles n) kb kf
        (scheduleCalls_mono 3 fuel hfuel 10 k' _ hb) hkf
      have e : 10 * (n + 1) = 10 + 10 * n := by omega
      rw [e]
      exact ⟨kf, this⟩
  have hall : ∃ kf, scheduleCalls fuel (10 * N) k = some (shareCycles N, kf) := by
    cases N with
    | zero => exact ⟨k, rfl⟩
    | succ n =>
      obtain ⟨kb, hb, hsb⟩ := scheduleCalls_sim 3 10 (bootKernel 3) k afterCycle shareCycle
        hboot bootCycle
      obtain ⟨kf, hkf⟩ := hnext n kb hsb
      have := scheduleCalls_add fuel 10 (10 * n) k shareCycle (shareCycles n) kb kf
        (scheduleCalls_mono 3 fuel hfuel 10 k _ hb) hkf
      have e : 10 * (n + 1) = 10 + 10 * n := by omega
      rw [e]
      exact ⟨kf, this⟩
  obtain ⟨kf, hkf⟩ := hall
  exact ⟨kf, hkf, c1, c2, c3, c4, c0, cl⟩

theorem proportional_share_cycle_witness :
    (bootKernel 3).scheduling_algorithm = 3 ∧ 3 ≤ 3 ∧ (bootKernel 3).current = 1 ∧
      (∀ i, ((bootKernel 3).proc_array i).p_shareCount = 0) ∧
      (∀ i : Fin NPROCS, ((bootKernel 3).proc_array i).p_shares = (i.val : Int)) ∧
      (∀ i : Fin NPROCS, i ≠ 0 → ((bootKernel 3).proc_array i).p_state = P_RUNNABLE) ∧
      ((bootKernel 3).proc_array 0).p_state = P_EMPTY ∧
      ∃ kf, scheduleCalls 3 20 (bootKernel 3) = some (shareCycles 2, kf) := by
  have h := proportional_share_cycle (bootKernel 3) 3 2 rfl (le_refl _) rfl (by decide)
    (by decide) (by decide) (by decide)
  obtain ⟨kf, hkf, -⟩ := h
  exact ⟨rfl, le_refl _, rfl, by decide, by decide, by decide, by decide, kf, hkf⟩

/-- C4: under lottery scheduling, for every ticket table and every selector value the
pid chosen for a draw is the smallest `i` in `1..NPROCS-1` with
`selector < tickets[i]` (none when there is no such `i`), and a call whose first
draw chooses a RUNNABLE pid dispatches that pid; for the table
`[142, 30, 32, 42, 142]` selector 29 chooses pid 1, 30 and 31 pid 2, 41 pid 3, 42
and 141 pid 4. -/
theorem lottery_draw_chooses_first (tickets : Fin NPROCS → Int) (selector : Int) :
    (∀ i : Fin NPROCS, lotteryPick tickets selector = some i ↔
      (1 ≤ i.val ∧ selector < tickets i ∧
        ∀ j : Fin NPROCS, 1 ≤ j.val → j.val < i.val → ¬ selector < tickets j)) ∧
    (lotteryPick tickets selector = none ↔
      ∀ j : Fin NPROCS, 1 ≤ j.val → ¬ selector < tickets j) ∧
    (∀ (fuel : Nat) (k : Kernel) (i : Fin NPROCS), k.scheduling_algorithm = 4 →
      k.lottery_values = tickets → toUInt32 (tickets 0) ≠ 0 →
      selector = toInt32 ((linear_feedback_shift_register k).1 % toUInt32 (tickets 0)) →
      lotteryPick tickets selector = some i → (k.proc_array i).p_state = P_RUNNABLE →
      schedule (fuel + 1) k = run (linear_feedback_shift_register k).2 i) ∧
    (startState 0 (fun _ => 0)).lottery_values = sampleTickets ∧
    lotteryPick sampleTickets 29 = some 1 ∧ lotteryPick sampleTickets 30 = some 2 ∧
    lotteryPick sampleTickets 31 = some 2 ∧ lotteryPick sampleTickets 41 = some 3 ∧
    lotteryPick sampleTickets 42 = some 4 ∧ lotteryPick sampleTickets 141 = some 4 := by
  refine ⟨lotteryPick_some tickets selector, lotteryPick_none tickets selector, ?_, ?_,
    by decide, by decide, by decide, by decide, by decide, by decide⟩
  · intro fuel k i hmode ht htot hsel hpick hrun
    subst ht
    subst hsel
    have : schedule (fuel + 1) k = lotteryLoop (fuel + 1) k := by
      unfold schedule
      simp [hmode]
    rw [this]
    exact lotteryLoop_first_draw fuel k i htot hpick hrun
  · funext i
    revert i
    decide

/-- C5: under round robin, when some descriptor is RUNNABLE, a call of `schedule`
dispatches the first RUNNABLE pid met when stepping `(pid + 1) % NPROCS` from the
current pid (the current pid itself comes last, after `NPROCS` steps); as many
consecutive calls as there are RUNNABLE descriptors dispatch every RUNNABLE pid
exactly once, at strictly increasing distances from the first current pid; with
pids 1 to 4 RUNNABLE and slot 0 EMPTY, four calls from current pid `c` dispatch
the four pids once each, beginning with the cyclic successor of `c` among them. -/
theorem round_robin_visits_each_runnable_once (k : Kernel) (fuel : Nat)
    (hmode : k.scheduling_algorithm = 0) (hfuel : NPROCS ≤ fuel)
    (hrun : ∃ j, (k.proc_array j).p_state = P_RUNNABLE) :
    (∃ d, 1 ≤ d ∧ d ≤ NPROCS ∧ (k.proc_array (off k.current d)).p_state = P_RUNNABLE ∧
      (∀ d', 1 ≤ d' → d' < d → (k.proc_array (off k.current d')).p_state ≠ P_RUNNABLE) ∧
      schedule fuel k = run k (off k.current d)) ∧
    (∃ (ds : List Nat) (kf : Kernel),
      scheduleCalls fuel (runnableCount k) k = some (ds.map (off k.current), kf) ∧
      ds.length = runnableCount k ∧ 0 < runnableCount k ∧
      ds.Pairwise (fun a b => a < b) ∧ (∀ d ∈ ds, 1 ≤ d ∧ d ≤ NPROCS) ∧
      (ds.map (off k.current)).Nodup ∧
      (∀ p, p ∈ ds.map (off k.current) ↔ (k.proc_array p).p_state = P_RUNNABLE)) ∧
    ((k.proc_array 0).p_state = P_EMPTY →
      (∀ j : Fin NPROCS, j ≠ 0 → (k.proc_array j).p_state = P_RUNNABLE) →
      runnableCount k = 4 ∧
      ∃ kf, scheduleCalls fuel 4 k = some (cycleFrom k.current, kf)) := by
  have hcalls : ∃ kf, scheduleCalls fuel (runnableOffsets k k.current 0).length k
      = some ((runnableOffsets k k.current 0).map (off k.current), kf) := by
    have := rr_calls k fuel hmode hfuel k.current NPROCS 0 0 (by omega) (le_refl _)
      (fun d h1 h2 => by omega)
    have hk : { k with current := off k.current 0 } = k := by rw [off_zero]
    rw [hk] at this
    exact this
  refine ⟨?_, ?_, ?_⟩
  · obtain ⟨e, he, hr, hmin⟩ := exists_first_runnable k (nextPid k.current) hrun
    rw [off_nextPid] at hr
    refine ⟨e + 1, by omega, by omega, hr, ?_, ?_⟩
    · intro d' h1 h2
      have := hmin (d' - 1) (by omega)
      rwa [off_nextPid, Nat.sub_add_cancel h1] at this
    · apply rr_step k fuel hmode e (by omega) hr
      intro e' h1 h2
      have := hmin (e' - 1) (by omega)
      rwa [off_nextPid, Nat.sub_add_cancel h1] at this
  · obtain ⟨kf, hkf⟩ := hcalls
    have hlen := runnableOffsets_length k k.current
    rw [hlen] at hkf
    refine ⟨runnableOffsets k k.current 0, kf, hkf, hlen, ?_, runnableOffsets_sorted k _ 0, ?_,
      runnableOffsets_map_nodup k _, mem_runnableOffsets_map k _⟩
    · obtain ⟨j, hj⟩ := hrun
      have hmem := (mem_runnableOffsets_map k k.current j).2 hj
      rw [← hlen]
      have : 0 < ((runnableOffsets k k.current 0).map (off k.current)).length :=
        List.length_pos_of_mem hmem
      rwa [List.length_map] at this
    · intro d hd
      rw [mem_runnableOffsets] at hd
      exact ⟨hd.1, hd.2.1⟩
  · intro h0 hr
    have hiff : ∀ p : Fin NPROCS, (k.proc_array p).p_state = P_RUNNABLE ↔ p ≠ 0 := by
      intro p
      constructor
      · intro hp h
        rw [h, h0] at hp
        cases hp
      · exact hr p
    have hL : runnableOffsets k k.current 0
        = (List.range' 1 NPROCS).filter fun d => decide (off k.current d ≠ 0) := by
      unfold runnableOffsets
      apply List.filter_congr
      intro d _
      simp only [hiff]
    obtain ⟨kf, hkf⟩ := hcalls
    have hlen := runnableOffsets_length k k.current
    rw [hL] at hkf hlen
    rw [(cycleFrom_eq k.current).1, (cycleFrom_eq k.current).2] at hkf
    rw [(cycleFrom_eq k.current).2] at hlen
    exact ⟨hlen.symm, kf, hkf⟩

theorem round_robin_visits_each_runnable_once_witness :
    (bootKernel 0).scheduling_algorithm = 0 ∧ NPROCS ≤ 5 ∧
      (∃ j, ((bootKernel 0).proc_array j).p_state = P_RUNNABLE) ∧
      ∃ kf, scheduleCalls 5 4 (bootKernel 0) = some ([2, 3, 4, 1], kf) := by
  have hrun : ∃ j, ((bootKernel 0).proc_array j).p_state = P_RUNNABLE := ⟨1, by decide⟩
  obtain ⟨-, -, h3⟩ :=
    round_robin_visits_each_runnable_once (bootKernel 0) 5 rfl (le_refl _) hrun
  exact ⟨rfl, le_refl _, hrun, (h3 (by decide) (by decide)).2⟩

/-- C6: under strict fixed-pid priority, when some pid in `1..NPROCS-1` is RUNNABLE,
`schedule` dispatches the smallest RUNNABLE pid in `1..NPROCS-1`, whatever the
current pid. -/
theorem strict_priority_dispatches_smallest (k : Kernel) (fuel : Nat)
    (hmode : k.scheduling_algorithm = 1) (hfuel : NPROCS ≤ fuel)
    (hrun : ∃ j : Fin NPROCS, 1 ≤ j.val ∧ (k.proc_array j).p_state = P_RUNNABLE) :
    ∃ w : Fin NPROCS, 1 ≤ w.val ∧ (k.proc_array w).p_state = P_RUNNABLE ∧
      (∀ j : Fin NPROCS, 1 ≤ j.val → (k.proc_array j).p_state = P_RUNNABLE → w ≤ j) ∧
      schedule fuel k = run k w ∧
      ∀ c : Fin NPROCS, schedule fuel { k with current := c } = run { k with current := c } w := by
  have hleast : ∃ m : Nat, 1 ≤ m ∧ ∃ h : m < 5, (k.proc_array ⟨m, h⟩).p_state = P_RUNNABLE ∧
      ∀ j : Fin NPROCS, 1 ≤ j.val → (k.proc_array j).p_state = P_RUNNABLE → m ≤ j.val := by
    obtain ⟨j, hj1, hjr⟩ := hrun
    have hex : ∃ m, 1 ≤ m ∧ ∃ h : m < 5, (k.proc_array ⟨m, h⟩).p_state = P_RUNNABLE :=
      ⟨j.val, hj1, j.isLt, hjr⟩
    classical
    obtain ⟨hm1, hm5, hmr⟩ := Nat.find_spec hex
    exact ⟨Nat.find hex, hm1, hm5, hmr, fun j h1 h2 => Nat.find_min' hex ⟨h1, j.isLt, h2⟩⟩
  obtain ⟨m, hm1, hm5, hmr, hmin⟩ := hleast
  have hoff : off 1 (m - 1) = ⟨m, hm5⟩ := by
    apply Fin.ext
    show (1 + (m - 1)) % 5 = m
    omega
  have hfind : findStart k fuel 1 = some ⟨m, hm5⟩ := by
    rw [← hoff]
    apply findStart_first k _ 1 fuel
    · have : 5 ≤ fuel := hfuel
      omega
    · rw [hoff]; exact hmr
    · intro e' he' hr
      have h1 : (off 1 e').val = (1 + e') % 5 := rfl
      have := hmin (off 1 e') (by rw [h1]; omega) hr
      rw [h1] at this
      omega
  have hs : ∀ k' : Kernel, k'.proc_array = k.proc_array → k'.scheduling_algorithm = 1 →
      schedule fuel k' = run k' ⟨m, hm5⟩ := by
    intro k' hp hm
    have hf : findStart k' fuel 1 = some ⟨m, hm5⟩ := by
      have : ∀ f p, findStart k' f p = findStart k f p := by
        intro f
        induction f with
        | zero => intro p; rfl
        | succ n ih => intro p; simp only [findStart, hp, ih]
      rw [this]; exact hfind
    unfold schedule
    simp only [hm, strictLoop_eq_findStart, hf]
    simp
  exact ⟨⟨m, hm5⟩, hm1, hmr, fun j h1 h2 => hmin j h1 h2, hs k rfl hmode,
    fun c => hs _ rfl hmode⟩

theorem strict_priority_dispatches_smallest_witness :
    (bootKernel 1).scheduling_algorithm = 1 ∧ NPROCS ≤ 5 ∧
      (∃ j : Fin NPROCS, 1 ≤ j.val ∧ ((bootKernel 1).proc_array j).p_state = P_RUNNABLE) ∧
      ∃ w : Fin NPROCS, 1 ≤ w.val ∧ schedule 5 (bootKernel 1) = run (bootKernel 1) w := by
  have hrun : ∃ j : Fin NPROCS, 1 ≤ j.val ∧ ((bootKernel 1).proc_array j).p_state = P_RUNNABLE :=
    ⟨1, by decide, by decide⟩
  obtain ⟨w, h1, -, -, h4, -⟩ :=
    strict_priority_dispatches_smallest (bootKernel 1) 5 rfl (le_refl _) hrun
  exact ⟨rfl, le_refl _, hrun, w, h1, h4⟩

/-- C7: a SET_SHARE trap (respectively SET_PRIORITY) resumes the process that trapped,
without a call of the scheduler (the outcome is a dispatch of `current` even with
no fuel), and apart from the register snapshot saved on entry it changes only the
`p_shares` member (respectively `p_priority`) of the current descriptor, which
becomes the argument read as an `int`; every other member, every other
descriptor and every other kernel variable is unchanged. -/
theorem set_share_priority_frame (T : TrapNumbers) (fuel : Nat) (k : Kernel) (reg : registers_t)
    (h : reg.reg_intno = T.INT_SYS_SHARE ∨ reg.reg_intno = T.INT_SYS_PRIORITIZE) :
    ∃ k1, interrupt T fuel k reg = .dispatch k1 ∧ interrupt T 0 k reg = .dispatch k1 ∧
      k1.current = k.current ∧
      (∀ j, j ≠ k.current → k1.proc_array j = k.proc_array j) ∧
      (k1.proc_array k.current).p_registers = reg ∧
      (k1.proc_array k.current).p_state = (k.proc_array k.current).p_state ∧
      (k1.proc_array k.current).p_shareCount = (k.proc_array k.current).p_shareCount ∧
      (k1.proc_array k.current).p_exit_status = (k.proc_array k.current).p_exit_status ∧
      (reg.reg_intno = T.INT_SYS_SHARE →
        (k1.proc_array k.current).p_shares = toInt32 reg.reg_eax ∧
        (k1.proc_array k.current).p_priority = (k.proc_array k.current).p_priority) ∧
      (reg.reg_intno = T.INT_SYS_PRIORITIZE →
        (k1.proc_array k.current).p_priority = toInt32 reg.reg_eax ∧
        (k1.proc_array k.current).p_shares = (k.proc_array k.current).p_shares) ∧
      k1.scheduling_algorithm = k.scheduling_algorithm ∧ k1.tsc = k.tsc ∧
      k1.lottery_values = k.lottery_values ∧ k1.cursorpos = k.cursorpos ∧
      k1.console = k.console ∧
      toUInt32 (toInt32 reg.reg_eax) = reg.reg_eax % 2 ^ 32 ∧
      (reg.reg_eax < 2 ^ 31 → toInt32 reg.reg_eax = (reg.reg_eax : Int)) := by
  have hne := T.ne
  rcases h with h | h
  · refine ⟨_, interrupt_share T fuel k reg h, interrupt_share T 0 k reg h, rfl, ?_, ?_, ?_, ?_,
      ?_, ?_, ?_, rfl, rfl, rfl, rfl, rfl, toUInt32_toInt32 _, toInt32_small _⟩
    · intro j hj; exact setProc_proc_other _ _ _ _ hj
    · simp only [setProc_proc_self]
    · simp only [setProc_proc_self]
    · simp only [setProc_proc_self]
    · simp only [setProc_proc_self]
    · intro _; simp only [setProc_proc_self, and_self]
    · intro h'
      exact absurd (h.symm.trans h') hne.2.2.2.2.2.2.2.2.2.1
  · refine ⟨_, interrupt_prioritize T fuel k reg h, interrupt_prioritize T 0 k reg h, rfl, ?_, ?_,
      ?_, ?_, ?_, ?_, ?_, rfl, rfl, rfl, rfl, rfl, toUInt32_toInt32 _, toInt32_small _⟩
    · intro j hj; exact setProc_proc_other _ _ _ _ hj
    · simp only [setProc_proc_self]
    · simp only [setProc_proc_self]
    · simp only [setProc_proc_self]
    · simp only [setProc_proc_self]
    · intro h'
      exact absurd (h'.symm.trans h) hne.2.2.2.2.2.2.2.2.2.1
    · intro _; simp only [setProc_proc_self, and_self]

theorem set_share_priority_frame_witness :
    ((⟨sampleTraps.INT_SYS_SHARE, 7, 0, 0⟩ : registers_t).reg_intno = sampleTraps.INT_SYS_SHARE ∨
      (⟨sampleTraps.INT_SYS_SHARE, 7, 0, 0⟩ : registers_t).reg_intno
        = sampleTraps.INT_SYS_PRIORITIZE) ∧
    ∃ k1, interrupt sampleTraps 0 (bootKernel 3) ⟨sampleTraps.INT_SYS_SHARE, 7, 0, 0⟩
        = .dispatch k1 ∧ k1.current = 1 ∧ (k1.proc_array 1).p_shares = 7 := by
  obtain ⟨k1, h1, -, h3, -, -, -, -, -, h9, -⟩ :=
    set_share_priority_frame sampleTraps 0 (bootKernel 3) ⟨sampleTraps.INT_SYS_SHARE, 7, 0, 0⟩
      (Or.inl rfl)
  exact ⟨Or.inl rfl, k1, h1, h3, (h9 rfl).1⟩

/-- C8: an EXIT trap sets the state of the calling process to ZOMBIE and its exit
status to the argument (read as an `int`), leaves the state and the exit status
of every other descriptor unchanged, and then calls the scheduler on that state;
a process the scheduler then dispatches is RUNNABLE and different from the
caller; in the scan-based modes 0, 1 and 2 it does dispatch one whenever
another descriptor is RUNNABLE, and in proportional-share mode whenever another
RUNNABLE descriptor has at least one share.  In lottery mode, with a nonzero
ticket total, it does dispatch one whenever some draw of the call chooses a
RUNNABLE descriptor other than the caller: the call dispatches the pid of such a
draw with any number of iterations beyond it, and a dispatch is always of a pid
that one of the draws chose.  That another descriptor is RUNNABLE is not enough
there: with the random register at 0 every draw has selector 0, and when the pid
that selector chooses is the caller or is not RUNNABLE the call draws for ever. -/
theorem exit_marks_zombie_and_reschedules (T : TrapNumbers) (fuel : Nat) (k : Kernel)
    (reg : registers_t) (h : reg.reg_intno = T.INT_SYS_EXIT) :
    interrupt T fuel k reg = schedule fuel (setProc k k.current
      { k.proc_array k.current with
        p_registers := reg, p_state := P_ZOMBIE, p_exit_status := toInt32 reg.reg_eax }) ∧
    (((interrupt T fuel k reg).kernel).proc_array k.current).p_state = P_ZOMBIE ∧
    (((interrupt T fuel k reg).kernel).proc_array k.current).p_exit_status
      = toInt32 reg.reg_eax ∧
    (∀ j, j ≠ k.current →
      (((interrupt T fuel k reg).kernel).proc_array j).p_state = (k.proc_array j).p_state ∧
      (((interrupt T fuel k reg).kernel).proc_array j).p_exit_status
        = (k.proc_array j).p_exit_status) ∧
    (∀ k1, interrupt T fuel k reg = .dispatch k1 →
      k1.current ≠ k.current ∧ (k1.proc_array k1.current).p_state = P_RUNNABLE ∧
      (k.proc_array k1.current).p_state = P_RUNNABLE) ∧
    ((k.scheduling_algorithm = 0 ∨ k.scheduling_algorithm = 1 ∨ k.scheduling_algorithm = 2) →
      (∃ j, j ≠ k.current ∧ (k.proc_array j).p_state = P_RUNNABLE) → NPROCS ≤ fuel →
      ∃ k1, interrupt T fuel k reg = .dispatch k1) ∧
    (k.scheduling_algorithm = 3 →
      (∃ j, j ≠ k.current ∧ (k.proc_array j).p_state = P_RUNNABLE ∧
        1 ≤ (k.proc_array j).p_shares) →
      ∃ f0 k1, ∀ f, f0 ≤ f → interrupt T f k reg = .dispatch k1) ∧
    toUInt32 (toInt32 reg.reg_eax) = reg.reg_eax % 2 ^ 32 ∧
    (reg.reg_eax < 2 ^ 31 → toInt32 reg.reg_eax = (reg.reg_eax : Int)) ∧
    (k.scheduling_algorithm = 4 → toUInt32 (k.lottery_values 0) ≠ 0 →
      (∃ n j, lotteryPick k.lottery_values (nextSelector (lfsrCalls n k).2) = some j ∧
        j ≠ k.current ∧ (k.proc_array j).p_state = P_RUNNABLE) →
      ∃ n j, lotteryPick k.lottery_values (nextSelector (lfsrCalls n k).2) = some j ∧
        j ≠ k.current ∧ (k.proc_array j).p_state = P_RUNNABLE ∧
        ∃ k1, k1.current = j ∧ ∀ f, n < f → interrupt T f k reg = .dispatch k1) ∧
    (k.scheduling_algorithm = 4 → ∀ k1, interrupt T fuel k reg = .dispatch k1 →
      ∃ n, n < fuel ∧
        lotteryPick k.lottery_values (nextSelector (lfsrCalls n k).2) = some k1.current) ∧
    (k.scheduling_algorithm = 4 → toUInt32 (k.lottery_values 0) ≠ 0 → k.tsc = 0 →
      (∀ j, lotteryPick k.lottery_values 0 = some j →
        j = k.current ∨ (k.proc_array j).p_state ≠ P_RUNNABLE) →
      interrupt T fuel k reg = .fuelOut (setProc k k.current
        { k.proc_array k.current with
          p_registers := reg, p_state := P_ZOMBIE, p_exit_status := toInt32 reg.reg_eax })) := by
  have he := interrupt_exit T fuel k reg h
  have hex := fun f => interrupt_exit T f k reg h
  have hsel : ∀ n, nextSelector (lfsrCalls n (setProc k k.current
      { k.proc_array k.current with
        p_registers := reg, p_state := P_ZOMBIE, p_exit_status := toInt32 reg.reg_eax })).2
      = nextSelector (lfsrCalls n k).2 := by
    intro n
    rw [lfsrCalls_setProc]
    rfl
  have hx : ∀ j, ((setProc k k.current
      { k.proc_array k.current with
        p_registers := reg, p_state := P_ZOMBIE,
        p_exit_status := toInt32 reg.reg_eax }).proc_array j).p_state = P_RUNNABLE ↔
      (j ≠ k.current ∧ (k.proc_array j).p_state = P_RUNNABLE) := by
    intro j
    by_cases hj : j = k.current
    · subst hj
      rw [setProc_proc_self]
      exact ⟨fun hc => (by cases hc), fun hc => absurd rfl hc.1⟩
    · rw [setProc_proc_other _ _ _ _ hj]
      exact ⟨fun hr => ⟨hj, hr⟩, fun hr => hr.2⟩
  rw [he]
  have hfr := fun j => (schedule_frame fuel (setProc k k.current
      { k.proc_array k.current with
        p_registers := reg, p_state := P_ZOMBIE, p_exit_status := toInt32 reg.reg_eax }) j).1
  refine ⟨rfl, ?_, ?_, ?_, ?_, ?_, ?_, toUInt32_toInt32 _, toInt32_small _, ?_, ?_, ?_⟩
  · rw [(hfr k.current).2.1, setProc_proc_self]
  · rw [(hfr k.current).2.2.1, setProc_proc_self]
  · intro j hj
    rw [(hfr j).2.1, (hfr j).2.2.1, setProc_proc_other _ _ _ _ hj]
    exact ⟨rfl, rfl⟩
  · intro k1 hk1
    have hr := schedule_dispatch_runnable fuel _ k1 hk1
    have hne : k1.current ≠ k.current := by
      intro hc
      rw [hc, setProc_proc_self] at hr
      cases hr
    rw [setProc_proc_other _ _ _ _ hne] at hr
    refine ⟨hne, ?_, hr⟩
    have := (hfr k1.current).2.1
    rw [hk1] at this
    rw [show (Outcome.dispatch k1).kernel = k1 from rfl, setProc_proc_other _ _ _ _ hne] at this
    exact this.trans hr
  · intro hmode hrun hfuel
    obtain ⟨j, hj, hr⟩ := hrun
    exact schedule_dispatches_of_runnable fuel (setProc k k.current
      { k.proc_array k.current with
        p_registers := reg, p_state := P_ZOMBIE, p_exit_status := toInt32 reg.reg_eax })
      hfuel hmode ⟨j, by rw [setProc_proc_other _ _ _ _ hj]; exact hr⟩
  · intro hmode hrun
    obtain ⟨j, hj, hr, hs⟩ := hrun
    obtain ⟨f0, k1, hk1⟩ := schedule_dispatches_of_shares (setProc k k.current
      { k.proc_array k.current with
        p_registers := reg, p_state := P_ZOMBIE, p_exit_status := toInt32 reg.reg_eax })
      hmode ⟨j, by rw [setProc_proc_other _ _ _ _ hj]; exact ⟨hr, hs⟩⟩
    exact ⟨f0, k1, fun f hf => by rw [interrupt_exit T f k reg h]; exact hk1 f hf⟩
  · intro hmode htot hdraw
    obtain ⟨n, j, hp, hj, hr⟩ := hdraw
    obtain ⟨n1, j1, hp1, hr1, k1, hc1, hd⟩ := lotteryLoop_dispatches_of_draw (setProc k k.current
      { k.proc_array k.current with
        p_registers := reg, p_state := P_ZOMBIE, p_exit_status := toInt32 reg.reg_eax })
      htot ⟨n, j, by rw [hsel]; exact hp, (hx j).2 ⟨hj, hr⟩⟩
    rw [hsel] at hp1
    refine ⟨n1, j1, hp1, ((hx j1).1 hr1).1, ((hx j1).1 hr1).2, k1, hc1, fun f hf => ?_⟩
    rw [hex f, schedule_lottery f (setProc k k.current _) hmode]
    exact hd f hf
  · intro hmode k1 hk1
    rw [schedule_lottery fuel (setProc k k.current _) hmode] at hk1
    obtain ⟨n, hn, hp, -, -⟩ := lotteryLoop_dispatch_pick fuel _ k1 hk1
    rw [hsel] at hp
    exact ⟨n, hn, hp⟩
  · intro hmode htot htsc hpick
    rw [schedule_lottery fuel (setProc k k.current _) hmode]
    refine lotteryLoop_spins_at_zero fuel _ htsc htot ?_
    intro j hj hr
    rcases hpick j hj with hc | hc
    · exact ((hx j).1 hr).1 hc
    · exact hc ((hx j).1 hr).2

theorem exit_marks_zombie_and_reschedules_witness :
    (⟨sampleTraps.INT_SYS_EXIT, 0, 0, 0⟩ : registers_t).reg_intno = sampleTraps.INT_SYS_EXIT ∧
    (((interrupt sampleTraps 5 (bootKernel 0) ⟨sampleTraps.INT_SYS_EXIT, 0, 0, 0⟩).kernel).proc_array
      1).p_state = P_ZOMBIE ∧
    (∃ k1, interrupt sampleTraps 5 (bootKernel 0) ⟨sampleTraps.INT_SYS_EXIT, 0, 0, 0⟩
      = .dispatch k1) ∧
    (bootKernel 4).scheduling_algorithm = 4 ∧
    toUInt32 ((bootKernel 4).lottery_values 0) ≠ 0 ∧
    lotteryPick (bootKernel 4).lottery_values (nextSelector (lfsrCalls 0 (bootKernel 4)).2)
      = some 4 ∧
    ((bootKernel 4).proc_array 4).p_state = P_RUNNABLE ∧
    (∃ n j, j ≠ (bootKernel 4).current ∧ ∃ k1, k1.current = j ∧ ∀ f, n < f →
      interrupt sampleTraps f (bootKernel 4) ⟨sampleTraps.INT_SYS_EXIT, 0, 0, 0⟩
        = .dispatch k1) := by
  obtain ⟨-, h2, -, -, -, h6, -, -, -, -, -, -⟩ :=
    exit_marks_zombie_and_reschedules sampleTraps 5 (bootKernel 0)
      ⟨sampleTraps.INT_SYS_EXIT, 0, 0, 0⟩ rfl
  obtain ⟨-, -, -, -, -, -, -, -, -, h10, -, -⟩ :=
    exit_marks_zombie_and_reschedules sampleTraps 5 (bootKernel 4)
      ⟨sampleTraps.INT_SYS_EXIT, 0, 0, 0⟩ rfl
  obtain ⟨n, j, -, hj, -, k1, hc, hd⟩ :=
    h10 rfl (by decide) ⟨0, 4, by decide, by decide, by decide⟩
  exact ⟨rfl, h2, h6 (Or.inl rfl) ⟨2, by decide, by decide⟩ (le_refl _), rfl, by decide,
    by decide, by decide, n, j, hj, k1, hc, hd⟩

/-- C9: one step of the kernel (`interrupt` and the scheduling it triggers), for every
trap number, argument and scheduling mode, changes the state of a descriptor only
by making the current descriptor ZOMBIE on an EXIT trap: a ZOMBIE descriptor
stays ZOMBIE, and no descriptor becomes EMPTY or RUNNABLE. -/
theorem kernel_step_state_transitions (T : TrapNumbers) (fuel : Nat) (k : Kernel)
    (reg : registers_t) (j : Fin NPROCS) :
    ((((interrupt T fuel k reg).kernel).proc_array j).p_state = (k.proc_array j).p_state ∨
      (reg.reg_intno = T.INT_SYS_EXIT ∧ j = k.current ∧
        (((interrupt T fuel k reg).kernel).proc_array j).p_state = P_ZOMBIE)) ∧
    ((k.proc_array j).p_state = P_ZOMBIE →
      (((interrupt T fuel k reg).kernel).proc_array j).p_state = P_ZOMBIE) ∧
    ((((interrupt T fuel k reg).kernel).proc_array j).p_state = P_EMPTY →
      (k.proc_array j).p_state = P_EMPTY) ∧
    ((((interrupt T fuel k reg).kernel).proc_array j).p_state = P_RUNNABLE →
      (k.proc_array j).p_state = P_RUNNABLE) ∧
    (((schedule fuel k).kernel).proc_array j).p_state = (k.proc_array j).p_state := by
  have key : (((interrupt T fuel k reg).kernel).proc_array j).p_state = (k.proc_array j).p_state ∨
      (reg.reg_intno = T.INT_SYS_EXIT ∧ j = k.current ∧
        (((interrupt T fuel k reg).kernel).proc_array j).p_state = P_ZOMBIE) := by
    by_cases hx : reg.reg_intno = T.INT_SYS_EXIT
    · rw [interrupt_exit T fuel k reg hx, schedule_state]
      by_cases hj : j = k.current
      · right
        subst hj
        exact ⟨hx, rfl, by rw [setProc_proc_self]⟩
      · left
        rw [setProc_proc_other _ _ _ _ hj]
    · left
      have hreg : ((setProc k k.current
          { k.proc_array k.current with p_registers := reg }).proc_array j).p_state
          = (k.proc_array j).p_state := setProc_state k k.current j _ rfl
      by_cases hs : reg.reg_intno = T.INT_SYS_SHARE
      · rw [interrupt_share T fuel k reg hs]
        exact setProc_state k k.current j _ rfl
      by_cases hp : reg.reg_intno = T.INT_SYS_PRIORITIZE
      · rw [interrupt_prioritize T fuel k reg hp]
        exact setProc_state k k.current j _ rfl
      unfold interrupt
      simp only [hx, hs, hp, if_false]
      split
      · rw [schedule_state]; exact hreg
      · split
        · rw [schedule_state]; exact hreg
        · split
          · rw [schedule_state]; exact hreg
          · exact hreg
  refine ⟨key, ?_, ?_, ?_, schedule_state fuel k j⟩
  · intro hz
    rcases key with h | ⟨-, -, h⟩
    · rw [h]; exact hz
    · exact h
  · intro he
    rcases key with h | ⟨-, -, h⟩
    · rw [← h]; exact he
    · rw [h] at he; cases he
  · intro hr
    rcases key with h | ⟨-, -, h⟩
    · rw [← h]; exact hr
    · rw [h] at hr; cases hr

/-- C10: one call of the random source computes
`bit = ((reg>>0) ^ (reg>>2) ^ (reg>>3) ^ (reg>>5)) & 1` and stores and returns
`(reg>>1) | (bit<<15)`, touching nothing else; the `n`-th value returned is the
`n`-fold iterate of this step on the seed, so the values returned depend on the
seed and the number of calls alone. -/
theorem lfsr_is_iterated_recurrence :
    (∀ k : Kernel, (linear_feedback_shift_register k).1 = lfsrStepSpec k.tsc ∧
      (linear_feedback_shift_register k).2 = { k with tsc := lfsrStepSpec k.tsc }) ∧
    (∀ (n : Nat) (k : Kernel),
      (lfsrCalls n k).1 = (List.range n).map (fun i => lfsrStepSpec^[i + 1] k.tsc) ∧
      (lfsrCalls n k).2.tsc = lfsrStepSpec^[n] k.tsc) ∧
    (∀ (n : Nat) (k k' : Kernel), k.tsc = k'.tsc → (lfsrCalls n k).1 = (lfsrCalls n k').1) ∧
    (∀ reg : Nat, reg < 2 ^ 32 → lfsrStepSpec reg < 2 ^ 32) := by
  refine ⟨fun k => ⟨rfl, rfl⟩, fun n k => lfsrCalls_values n k, ?_, ?_⟩
  · intro n k k' h
    rw [(lfsrCalls_values n k).1, (lfsrCalls_values n k').1, h]
  · intro reg h
    exact lfsrStepSpec_lt reg 32 (by norm_num) h

/-- C11: for every trap number other than the six the `switch` names, `interrupt`
ends in its idle loop: it dispatches nothing, does not call the scheduler (the
outcome is the same with no fuel), leaves `current` and every kernel variable
unchanged and writes nothing in the table but the register snapshot of the
current descriptor; for each of the six trap numbers it continues with
`schedule` or `run` instead, and in the modes 0 to 4 does not end in an idle
loop. -/
theorem unknown_trap_halts (T : TrapNumbers) (fuel : Nat) (k : Kernel) (reg : registers_t) :
    ((reg.reg_intno ≠ T.INT_SYS_YIELD ∧ reg.reg_intno ≠ T.INT_SYS_EXIT ∧
      reg.reg_intno ≠ T.INT_SYS_SHARE ∧ reg.reg_intno ≠ T.INT_SYS_PRIORITIZE ∧
      reg.reg_intno ≠ T.INT_SYS_ATOMIC_CHAR ∧ reg.reg_intno ≠ T.INT_CLOCK) →
      ∃ k1, interrupt T fuel k reg = .halt k1 ∧ interrupt T 0 k reg = .halt k1 ∧
        (interrupt T fuel k reg).dispatched = none ∧
        k1.current = k.current ∧
        (∀ j, j ≠ k.current → k1.proc_array j = k.proc_array j) ∧
        k1.proc_array k.current = { k.proc_array k.current with p_registers := reg } ∧
        k1.scheduling_algorithm = k.scheduling_algorithm ∧ k1.tsc = k.tsc ∧
        k1.lottery_values = k.lottery_values ∧ k1.cursorpos = k.cursorpos ∧
        k1.console = k.console) ∧
    (reg.reg_intno = T.INT_SYS_YIELD ∨ reg.reg_intno = T.INT_CLOCK →
      interrupt T fuel k reg
        = schedule fuel (setProc k k.current { k.proc_array k.current with p_registers := reg })) ∧
    (reg.reg_intno = T.INT_SYS_EXIT →
      interrupt T fuel k reg = schedule fuel (setProc k k.current
        { k.proc_array k.current with
          p_registers := reg, p_state := P_ZOMBIE, p_exit_status := toInt32 reg.reg_eax })) ∧
    (reg.reg_intno = T.INT_SYS_SHARE →
      interrupt T fuel k reg = run (setProc k k.current
        { k.proc_array k.current with
          p_registers := reg, p_shares := toInt32 reg.reg_eax }) k.current) ∧
    (reg.reg_intno = T.INT_SYS_PRIORITIZE →
      interrupt T fuel k reg = run (setProc k k.current
        { k.proc_array k.current with
          p_registers := reg, p_priority := toInt32 reg.reg_eax }) k.current) ∧
    (reg.reg_intno = T.INT_SYS_ATOMIC_CHAR →
      interrupt T fuel k reg = schedule fuel
        { setProc k k.current { k.proc_array k.current with p_registers := reg } with
          console := fun a => if a = k.cursorpos then reg.reg_eax % 2 ^ 16 else k.console a
          cursorpos := k.cursorpos + 2 }) ∧
    ((reg.reg_intno = T.INT_SYS_YIELD ∨ reg.reg_intno = T.INT_SYS_EXIT ∨
      reg.reg_intno = T.INT_SYS_SHARE ∨ reg.reg_intno = T.INT_SYS_PRIORITIZE ∨
      reg.reg_intno = T.INT_SYS_ATOMIC_CHAR ∨ reg.reg_intno = T.INT_CLOCK) →
      0 ≤ k.scheduling_algorithm ∧ k.scheduling_algorithm ≤ 4 →
      (interrupt T fuel k reg).isHalt = false) := by
  have hne := T.ne
  obtain ⟨n1, n2, n3, n4, n5, n6, n7, n8, n9, n10, n11, n12, n13, n14, n15⟩ := hne
  have hyc : reg.reg_intno = T.INT_SYS_YIELD ∨ reg.reg_intno = T.INT_CLOCK →
      interrupt T fuel k reg
        = schedule fuel (setProc k k.current { k.proc_array k.current with p_registers := reg }) := by
    rintro (h | h)
    · unfold interrupt
      simp only [h, if_true]
    · unfold interrupt
      simp only [h, n5.symm, n9.symm, n12.symm, n14.symm, n15.symm, if_true, if_false]
  have hat : reg.reg_intno = T.INT_SYS_ATOMIC_CHAR →
      interrupt T fuel k reg = schedule fuel
        { setProc k k.current { k.proc_array k.current with p_registers := reg } with
          console := fun a => if a = k.cursorpos then reg.reg_eax % 2 ^ 16 else k.console a
          cursorpos := k.cursorpos + 2 } := by
    intro h
    unfold interrupt
    simp only [h, n4.symm, n8.symm, n11.symm, n13.symm, if_true, if_false]
    rfl
  refine ⟨?_, hyc, interrupt_exit T fuel k reg, interrupt_share T fuel k reg,
    interrupt_prioritize T fuel k reg, hat, ?_⟩
  · rintro ⟨h1, h2, h3, h4, h5, h6⟩
    have e : ∀ f, interrupt T f k reg
        = .halt (setProc k k.current { k.proc_array k.current with p_registers := reg }) := by
      intro f
      unfold interrupt
      simp only [h1, h2, h3, h4, h5, h6, if_false]
    refine ⟨_, e fuel, e 0, by rw [e fuel]; rfl, rfl, ?_, ?_, rfl, rfl, rfl, rfl, rfl⟩
    · intro j hj; exact setProc_proc_other _ _ _ _ hj
    · exact setProc_proc_self _ _ _
  · intro h hmode
    rcases h with h | h | h | h | h | h
    · rw [hyc (Or.inl h)]; exact schedule_not_halt _ _ hmode
    · rw [interrupt_exit T fuel k reg h]; exact schedule_not_halt _ _ hmode
    · rw [interrupt_share T fuel k reg h]; rfl
    · rw [interrupt_prioritize T fuel k reg h]; rfl
    · rw [hat h]; exact schedule_not_halt _ _ hmode
    · rw [hyc (Or.inr h)]; exact schedule_not_halt _ _ hmode

theorem unknown_trap_halts_witness :
    ((⟨7, 0, 0, 0⟩ : registers_t).reg_intno ≠ sampleTraps.INT_SYS_YIELD ∧
      (⟨7, 0, 0, 0⟩ : registers_t).reg_intno ≠ sampleTraps.INT_SYS_EXIT ∧
      (⟨7, 0, 0, 0⟩ : registers_t).reg_intno ≠ sampleTraps.INT_SYS_SHARE ∧
      (⟨7, 0, 0, 0⟩ : registers_t).reg_intno ≠ sampleTraps.INT_SYS_PRIORITIZE ∧
      (⟨7, 0, 0, 0⟩ : registers_t).reg_intno ≠ sampleTraps.INT_SYS_ATOMIC_CHAR ∧
      (⟨7, 0, 0, 0⟩ : registers_t).reg_intno ≠ sampleTraps.INT_CLOCK) ∧
    ∃ k1, interrupt sampleTraps 5 (bootKernel 0) ⟨7, 0, 0, 0⟩ = .halt k1 ∧
      k1.current = (bootKernel 0).current := by
  obtain ⟨k1, h1, -, -, h4, -⟩ :=
    (unknown_trap_halts sampleTraps 5 (bootKernel 0) ⟨7, 0, 0, 0⟩).1 (by decide)
  exact ⟨by decide, k1, h1, h4⟩

/-- C12: under numeric-priority scheduling the scan starts at the first RUNNABLE pid
at or after `current`, and when several RUNNABLE descriptors share the minimum
priority the dispatched pid is the one of them that the scan meets last (the
comparison is `<=`), not the first. -/
theorem numeric_priority_tie_goes_to_last_scanned (k : Kernel) (fuel : Nat)
    (hmode : k.scheduling_algorithm = 2) (hfuel : NPROCS ≤ fuel)
    (hrun : ∃ j, (k.proc_array j).p_state = P_RUNNABLE) :
    ∃ st w : Fin NPROCS, findStart k fuel k.current = some st ∧ schedule fuel k = run k w ∧
      (k.proc_array st).p_state = P_RUNNABLE ∧
      (∀ e, e < scanPos k.current st →
        (k.proc_array (off k.current e)).p_state ≠ P_RUNNABLE) ∧
      (k.proc_array w).p_state = P_RUNNABLE ∧
      (∀ j, (k.proc_array j).p_state = P_RUNNABLE →
        (k.proc_array w).p_priority ≤ (k.proc_array j).p_priority) ∧
      (∀ j, (k.proc_array j).p_state = P_RUNNABLE →
        (k.proc_array j).p_priority = (k.proc_array w).p_priority →
        scanPos st j ≤ scanPos st w) :=
  schedule_priority_spec k fuel hmode hfuel hrun

theorem numeric_priority_tie_goes_to_last_scanned_witness :
    (bootKernel 2).scheduling_algorithm = 2 ∧ NPROCS ≤ 5 ∧
      (∃ j, ((bootKernel 2).proc_array j).p_state = P_RUNNABLE) ∧
      ∃ st w : Fin NPROCS, findStart (bootKernel 2) 5 (bootKernel 2).current = some st ∧
        schedule 5 (bootKernel 2) = run (bootKernel 2) w ∧ scanPos st 2 ≤ scanPos st w := by
  have hrun : ∃ j, ((bootKernel 2).proc_array j).p_state = P_RUNNABLE := ⟨1, by decide⟩
  obtain ⟨st, w, h1, h2, -, -, -, h6, h7⟩ :=
    numeric_priority_tie_goes_to_last_scanned (bootKernel 2) 5 rfl (le_refl _) hrun
  have hp : ((bootKernel 2).proc_array 2).p_priority = ((bootKernel 2).proc_array w).p_priority :=
    le_antisymm (by
      have : ∀ v : Fin NPROCS, ((bootKernel 2).proc_array 2).p_priority
          ≤ ((bootKernel 2).proc_array v).p_priority := by decide
      exact this w) (h6 2 (by decide))
  exact ⟨rfl, le_refl _, hrun, st, w, h1, h2, h7 2 (by decide) hp⟩

/-- In the bootstrap state with current pid 1 the scan starts at pid 1 and meets pid 2
before pid 3; both are RUNNABLE with the minimum priority 0, and pid 3, the later
one, is dispatched. -/
theorem numeric_priority_tie_counterexample :
    (bootKernel 2).scheduling_algorithm = 2 ∧
    findStart (bootKernel 2) 5 (bootKernel 2).current = some 1 ∧
    ((bootKernel 2).proc_array 2).p_state = P_RUNNABLE ∧
    ((bootKernel 2).proc_array 3).p_state = P_RUNNABLE ∧
    ((bootKernel 2).proc_array 2).p_priority = 0 ∧
    ((bootKernel 2).proc_array 3).p_priority = 0 ∧
    (∀ j, ((bootKernel 2).proc_array j).p_state = P_RUNNABLE →
      0 ≤ ((bootKernel 2).proc_array j).p_priority) ∧
    scanPos 1 2 < scanPos 1 3 ∧
    (schedule 5 (bootKernel 2)).dispatched = some 3 ∧
    (schedule 5 (bootKernel 2)).dispatched ≠ some 2 := by
  decide

/-- C13: under numeric-priority scheduling with the bootstrap priorities 1, 0, 0, 2 of
pids 1 to 4: a dispatch of pid 1 happens only when neither pid 2 nor pid 3 is
RUNNABLE, a dispatch of pid 4 only when none of pids 1, 2, 3 is; and while pids 2
and 3 are both RUNNABLE (slot 0 not being RUNNABLE) every call dispatches pid 2
or pid 3 and never the current pid, so consecutive calls dispatch the two
alternately. -/
theorem bootstrap_priorities_alternate (k : Kernel) (hmode : k.scheduling_algorithm = 2)
    (hp : bootPriorities k) :
    (∀ fuel k1, schedule fuel k = .dispatch k1 →
      (k1.current = 1 → (k.proc_array 2).p_state ≠ P_RUNNABLE ∧
        (k.proc_array 3).p_state ≠ P_RUNNABLE) ∧
      (k1.current = 4 → (k.proc_array 1).p_state ≠ P_RUNNABLE ∧
        (k.proc_array 2).p_state ≠ P_RUNNABLE ∧ (k.proc_array 3).p_state ≠ P_RUNNABLE)) ∧
    (∀ fuel, NPROCS ≤ fuel → (k.proc_array 0).p_state ≠ P_RUNNABLE →
      (k.proc_array 2).p_state = P_RUNNABLE → (k.proc_array 3).p_state = P_RUNNABLE →
      (∃ w : Fin NPROCS, schedule fuel k = run k w ∧ (w = 2 ∨ w = 3) ∧ w ≠ k.current) ∧
      (k.current = 2 → schedule fuel k = run k 3) ∧
      (k.current = 3 → schedule fuel k = run k 2) ∧
      ∀ n, ∃ l kf, scheduleCalls fuel n k = some (l, kf) ∧ l.length = n ∧
        (∀ p ∈ l, p = 2 ∨ p = 3) ∧ l.Chain' (fun a b => a ≠ b) ∧
        (∀ p, l.head? = some p → p ≠ k.current)) := by
  obtain ⟨p1, p2, p3, p4⟩ := hp
  refine ⟨?_, ?_⟩
  · intro fuel k1 hk1
    have hmin := priority_dispatch_min k k1 fuel hmode hk1
    constructor
    · intro hc
      rw [hc, p1] at hmin
      refine ⟨fun h => ?_, fun h => ?_⟩
      · have := hmin 2 h; rw [p2] at this; omega
      · have := hmin 3 h; rw [p3] at this; omega
    · intro hc
      rw [hc, p4] at hmin
      refine ⟨fun h => ?_, fun h => ?_, fun h => ?_⟩
      · have := hmin 1 h; rw [p1] at this; omega
      · have := hmin 2 h; rw [p2] at this; omega
      · have := hmin 3 h; rw [p3] at this; omega
  · intro fuel hfuel h0 h2 h3
    have hstep := priority_alternation_step k fuel hmode hfuel h0 ⟨p1, p2, p3, p4⟩ h2 h3
    refine ⟨hstep, ?_, ?_, fun n =>
      priority_alternation_calls fuel hfuel n k hmode h0 ⟨p1, p2, p3, p4⟩ h2 h3⟩
    · intro hc
      obtain ⟨w, hs, hw | hw, hne⟩ := hstep
      · rw [hw, hc] at hne; exact absurd rfl hne
      · rw [hs, hw]
    · intro hc
      obtain ⟨w, hs, hw | hw, hne⟩ := hstep
      · rw [hs, hw]
      · rw [hw, hc] at hne; exact absurd rfl hne

theorem bootstrap_priorities_alternate_witness :
    (bootKernel 2).scheduling_algorithm = 2 ∧ bootPriorities (bootKernel 2) ∧
      ∃ w : Fin NPROCS, schedule 5 (bootKernel 2) = run (bootKernel 2) w ∧ (w = 2 ∨ w = 3) ∧
        w ≠ (bootKernel 2).current :=
  ⟨rfl, by decide,
    ((bootstrap_priorities_alternate (bootKernel 2) rfl (by decide)).2 5 (le_refl _)
      (by decide) (by decide) (by decide)).1⟩

/-- C14: under proportional share, when `schedule` is entered with a current pid that is
not RUNNABLE and has `shareCount < shares`, each loop iteration at that pid
increments its share count by one without dispatching; the call does not end
there: when the share count has reached `shares` the loop resets it to 0 and
moves on to the next pid within the same call, which ends only in a dispatch;
the dispatch is of another pid, which is RUNNABLE, and at that moment the share
count of the pid the call was entered with is 0. -/
theorem share_quota_drained_then_scan_moves_on (k : Kernel)
    (hmode : k.scheduling_algorithm = 3)
    (hnr : (k.proc_array k.current).p_state ≠ P_RUNNABLE)
    (hlt : (k.proc_array k.current).p_shareCount < (k.proc_array k.current).p_shares) :
    (∀ f, schedule (f + 1) k = shareLoop f (setProc k k.current
      { k.proc_array k.current with
        p_shareCount := (k.proc_array k.current).p_shareCount + 1 }) k.current) ∧
    (∀ f, schedule (f + (((k.proc_array k.current).p_shares
        - (k.proc_array k.current).p_shareCount).toNat + 1)) k
      = shareLoop f (setProc k k.current { k.proc_array k.current with p_shareCount := 0 })
          (nextPid k.current)) ∧
    (∀ f, (∃ k1, schedule f k = .dispatch k1) ∨ (∃ k1, schedule f k = .fuelOut k1)) ∧
    (∀ f k1, schedule f k = .dispatch k1 →
      k1.current ≠ k.current ∧ (k.proc_array k1.current).p_state = P_RUNNABLE ∧
      (k1.proc_array k.current).p_shareCount = 0) ∧
    ((∃ j, (k.proc_array j).p_state = P_RUNNABLE ∧ 1 ≤ (k.proc_array j).p_shares) →
      ∃ f0 k1, ∀ f, f0 ≤ f → schedule f k = .dispatch k1) := by
  refine ⟨fun f => ?_, fun f => ?_, fun f => ?_, fun f k1 h => ?_, fun h => ?_⟩
  · rw [schedule_share _ k hmode]
    exact shareLoop_skip f k k.current hlt hnr
  · rw [schedule_share _ k hmode]
    exact shareLoop_drain _ k k.current hnr rfl f
  · rw [schedule_share _ k hmode]
    exact shareLoop_outcome f k k.current
  · have hr := schedule_dispatch_runnable f k k1 h
    rw [schedule_share _ k hmode] at h
    obtain ⟨h1, h2⟩ :=
      shareLoop_entry_reset k.current f k k.current k1 hnr (fun hne => absurd rfl hne) h
    exact ⟨h1, hr, h2⟩
  · exact schedule_dispatches_of_shares k hmode h

theorem share_quota_drained_then_scan_moves_on_witness :
    (withState (bootKernel 3) 1 P_ZOMBIE).scheduling_algorithm = 3 ∧
    ((withState (bootKernel 3) 1 P_ZOMBIE).proc_array
      (withState (bootKernel 3) 1 P_ZOMBIE).current).p_state ≠ P_RUNNABLE ∧
    ((withState (bootKernel 3) 1 P_ZOMBIE).proc_array
      (withState (bootKernel 3) 1 P_ZOMBIE).current).p_shareCount
      < ((withState (bootKernel 3) 1 P_ZOMBIE).proc_array
        (withState (bootKernel 3) 1 P_ZOMBIE).current).p_shares ∧
    ∃ f0 k1, ∀ f, f0 ≤ f → schedule f (withState (bootKernel 3) 1 P_ZOMBIE) = .dispatch k1 :=
  ⟨rfl, by decide, by decide,
    (share_quota_drained_then_scan_moves_on (withState (bootKernel 3) 1 P_ZOMBIE) rfl
      (by decide) (by decide)).2.2.2.2 ⟨2, by decide, by decide⟩⟩

/-- In the bootstrap state with pid 1 exited (ZOMBIE, share count 0, 1 share) and
current, one call of `schedule` moves on to pid 2 and dispatches it, and leaves
the share count of pid 1 at 0, not at 1. -/
theorem share_quota_counterexample :
    (withState (bootKernel 3) 1 P_ZOMBIE).scheduling_algorithm = 3 ∧
    (withState (bootKernel 3) 1 P_ZOMBIE).current = 1 ∧
    ((withState (bootKernel 3) 1 P_ZOMBIE).proc_array 1).p_state = P_ZOMBIE ∧
    ((withState (bootKernel 3) 1 P_ZOMBIE).proc_array 1).p_shareCount = 0 ∧
    ((withState (bootKernel 3) 1 P_ZOMBIE).proc_array 1).p_shares = 1 ∧
    (schedule 3 (withState (bootKernel 3) 1 P_ZOMBIE)).dispatched = some 2 ∧
    (((schedule 3 (withState (bootKernel 3) 1 P_ZOMBIE)).kernel).proc_array 1).p_shareCount
      = 0 := by
  decide

/-- C15: the register of the random source is a 32-bit `unsigned`, not a 16-bit one:
from a seed below `2 ^ 32` the value stored and returned by the call number
`i + 1` is below `2 ^ max 16 (32 - (i + 1))`, so from call 16 on every value is
in `0 .. 2 ^ 16 - 1`, and every value is when the seed is below `2 ^ 16`. -/
theorem lfsr_register_width (k : Kernel) (hseed : k.tsc < 2 ^ 32) :
    (∀ n i v, (lfsrCalls n k).1[i]? = some v → v < 2 ^ max 16 (32 - (i + 1))) ∧
    (∀ n i v, (lfsrCalls n k).1[i]? = some v → 15 ≤ i → v < 2 ^ 16) ∧
    (∀ n, (lfsrCalls n k).2.tsc < 2 ^ max 16 (32 - n)) ∧
    (k.tsc < 2 ^ 16 → ∀ n, (lfsrCalls n k).2.tsc < 2 ^ 16 ∧
      ∀ v ∈ (lfsrCalls n k).1, v < 2 ^ 16) := by
  refine ⟨?_, ?_, ?_, ?_⟩
  · intro n i v h
    obtain ⟨-, hv⟩ := lfsrCalls_getElem? n k i v h
    rw [hv]
    exact lfsr_iterate_lt _ hseed _
  · intro n i v h hi
    obtain ⟨-, hv⟩ := lfsrCalls_getElem? n k i v h
    rw [hv]
    have := lfsr_iterate_lt _ hseed (i + 1)
    have e : max 16 (32 - (i + 1)) = 16 := by omega
    rwa [e] at this
  · intro n
    rw [(lfsrCalls_values n k).2]
    exact lfsr_iterate_lt _ hseed _
  · intro h16 n
    refine ⟨?_, ?_⟩
    · rw [(lfsrCalls_values n k).2]
      exact lfsr_iterate_lt16 _ h16 _
    · intro v hv
      rw [(lfsrCalls_values n k).1] at hv
      simp only [List.mem_map] at hv
      obtain ⟨a, -, rfl⟩ := hv
      exact lfsr_iterate_lt16 _ h16 _

theorem lfsr_register_width_witness :
    (startState (2 ^ 17) (fun _ => 0)).tsc < 2 ^ 32 ∧
    (lfsrCalls 20 (startState (2 ^ 17) (fun _ => 0))).2.tsc < 2 ^ max 16 (32 - 20) :=
  ⟨by decide, (lfsr_register_width (startState (2 ^ 17) (fun _ => 0)) (by decide)).2.2.1 20⟩

/-- With the seed `2 ^ 17`, which a 32-bit `tsc` can hold, the first call of the random
source stores and returns `2 ^ 16`, outside `0 .. 2 ^ 16 - 1`. -/
theorem lfsr_sixteen_bit_counterexample :
    (startState (2 ^ 17) (fun _ => 0)).tsc = 2 ^ 17 ∧ 2 ^ 17 < 2 ^ 32 ∧
    (linear_feedback_shift_register (startState (2 ^ 17) (fun _ => 0))).1 = 2 ^ 16 ∧
    (linear_feedback_shift_register (startState (2 ^ 17) (fun _ => 0))).2.tsc = 2 ^ 16 ∧
    ¬ (linear_feedback_shift_register (startState (2 ^ 17) (fun _ => 0))).1 ≤ 2 ^ 16 - 1 := by
  decide

/-- C16: under lottery scheduling, when the pid chosen by a draw is not RUNNABLE, no
other pid is dispatched for that selector value, whatever the states of the other
descriptors; the call is not abandoned: the same call of `schedule` draws the
next random value and goes on as a call entered with the advanced register; it
ends only in a dispatch, which is of the RUNNABLE pid chosen by a later draw. -/
theorem lottery_redraws_in_same_call (k : Kernel) (i : Fin NPROCS)
    (hmode : k.scheduling_algorithm = 4) (htot : toUInt32 (k.lottery_values 0) ≠ 0)
    (hpick : lotteryPick k.lottery_values (nextSelector k) = some i)
    (hnr : (k.proc_array i).p_state ≠ P_RUNNABLE) :
    (∀ f, schedule (f + 1) k = schedule f (linear_feedback_shift_register k).2) ∧
    (linear_feedback_shift_register k).2 = { k with tsc := lfsrStepSpec k.tsc } ∧
    schedule 1 k = .fuelOut (linear_feedback_shift_register k).2 ∧
    (∀ f, (∃ k1, schedule f k = .dispatch k1) ∨ (∃ k1, schedule f k = .fuelOut k1)) ∧
    (∀ f k1, schedule f k = .dispatch k1 →
      ∃ n, 1 ≤ n ∧
        lotteryPick k.lottery_values (nextSelector (lfsrCalls n k).2) = some k1.current ∧
        (k.proc_array k1.current).p_state = P_RUNNABLE ∧
        k1.tsc = lfsrStepSpec^[n + 1] k.tsc) := by
  have hp : ∀ j, lotteryPick k.lottery_values (nextSelector k) = some j →
      (k.proc_array j).p_state ≠ P_RUNNABLE := by
    intro j hj
    rw [hpick] at hj
    cases hj
    exact hnr
  have hm1 : (linear_feedback_shift_register k).2.scheduling_algorithm = 4 := hmode
  refine ⟨fun f => ?_, rfl, ?_, fun f => ?_, fun f k1 h => ?_⟩
  · rw [schedule_lottery _ k hmode, schedule_lottery _ _ hm1]
    exact lotteryLoop_redraw f k htot hp
  · rw [schedule_lottery _ k hmode, lotteryLoop_redraw 0 k htot hp]
    rfl
  · rw [schedule_lottery _ k hmode]
    exact lotteryLoop_outcome_of_total f k htot
  · rw [schedule_lottery _ k hmode] at h
    obtain ⟨n, -, hpk, hr, hk⟩ := lotteryLoop_dispatch_pick f k k1 h
    refine ⟨n, ?_, hpk, hr, ?_⟩
    · cases n with
      | zero => exact absurd hr (hp _ hpk)
      | succ m => omega
    · rw [hk]
      show lfsrStepSpec (lfsrCalls n k).2.tsc = _
      rw [(lfsrCalls_values n k).2, Function.iterate_succ_apply']

theorem lottery_redraws_in_same_call_witness :
    (withState (bootKernel 4) 4 P_ZOMBIE).scheduling_algorithm = 4 ∧
    toUInt32 ((withState (bootKernel 4) 4 P_ZOMBIE).lottery_values 0) ≠ 0 ∧
    lotteryPick (withState (bootKernel 4) 4 P_ZOMBIE).lottery_values
      (nextSelector (withState (bootKernel 4) 4 P_ZOMBIE)) = some 4 ∧
    ((withState (bootKernel 4) 4 P_ZOMBIE).proc_array 4).p_state ≠ P_RUNNABLE ∧
    schedule 1 (withState (bootKernel 4) 4 P_ZOMBIE)
      = .fuelOut (linear_feedback_shift_register (withState (bootKernel 4) 4 P_ZOMBIE)).2 :=
  ⟨rfl, by decide, by decide, by decide,
    (lottery_redraws_in_same_call (withState (bootKernel 4) 4 P_ZOMBIE) 4 rfl (by decide)
      (by decide) (by decide)).2.2.1⟩

/-- In the bootstrap state with pid 4 exited, the first draw of a lottery call (selector
118) chooses pid 4, which is not RUNNABLE; the same call draws three more values
and dispatches pid 1 on the fourth draw. -/
theorem lottery_abandon_counterexample :
    (withState (bootKernel 4) 4 P_ZOMBIE).scheduling_algorithm = 4 ∧
    nextSelector (withState (bootKernel 4) 4 P_ZOMBIE) = 118 ∧
    lotteryPick (withState (bootKernel 4) 4 P_ZOMBIE).lottery_values 118 = some 4 ∧
    ((withState (bootKernel 4) 4 P_ZOMBIE).proc_array 4).p_state = P_ZOMBIE ∧
    (schedule 4 (withState (bootKernel 4) 4 P_ZOMBIE)).dispatched = some 1 ∧
    ((schedule 4 (withState (bootKernel 4) 4 P_ZOMBIE)).kernel).tsc
      = lfsrStepSpec^[4] (withState (bootKernel 4) 4 P_ZOMBIE).tsc ∧
    lfsrStepSpec^[4] (withState (bootKernel 4) 4 P_ZOMBIE).tsc
      ≠ lfsrStepSpec (withState (bootKernel 4) 4 P_ZOMBIE).tsc := by
  decide

/-- C17: in the state in which `start` dispatches process 1, and after every sequence of
kernel steps from it that each end in a dispatch (any trap numbers, arguments
and fuel, any scheduling mode), the descriptor `current` refers to is RUNNABLE,
the current pid is in `1..NPROCS-1`, and slot 0 is still EMPTY. -/
theorem reachable_current_is_runnable (T : TrapNumbers) (seed : Nat) (entry : Fin NPROCS → Nat)
    (mode : Int) (inputs : List (Nat × registers_t)) (k : Kernel)
    (h : kernelSteps T inputs (startKernel seed entry mode) = some k) :
    start seed entry = .dispatch (startKernel seed entry 0) ∧
    (k.proc_array k.current).p_state = P_RUNNABLE ∧
    1 ≤ k.current.val ∧ k.current.val ≤ NPROCS - 1 ∧
    (k.proc_array 0).p_state = P_EMPTY := by
  obtain ⟨h1, h2⟩ := kernelSteps_invariant T inputs (startKernel seed entry mode) k h rfl rfl
  refine ⟨rfl, h1, ?_, ?_, h2⟩
  · by_contra hlt
    have : k.current = 0 := Fin.ext (by show k.current.val = 0; omega)
    rw [this, h2] at h1
    cases h1
  · have := k.current.isLt
    omega

theorem reachable_current_is_runnable_witness :
    ∃ k, kernelSteps sampleTraps
        [(5, ⟨sampleTraps.INT_CLOCK, 0, 0, 0⟩), (5, ⟨sampleTraps.INT_SYS_EXIT, 0, 0, 0⟩)]
        (startKernel 0xACE1 (fun _ => 0) 0) = some k ∧
      (k.proc_array k.current).p_state = P_RUNNABLE ∧ 1 ≤ k.current.val := by
  obtain ⟨k, hk⟩ := Option.isSome_iff_exists.mp (show (kernelSteps sampleTraps
    [(5, ⟨sampleTraps.INT_CLOCK, 0, 0, 0⟩), (5, ⟨sampleTraps.INT_SYS_EXIT, 0, 0, 0⟩)]
    (startKernel 0xACE1 (fun _ => 0) 0)).isSome = true from rfl)
  have h := reachable_current_is_runnable sampleTraps 0xACE1 (fun _ => 0) 0 _ k hk
  exact ⟨k, hk, h.2.1, h.2.2.1⟩

/-- C18: under proportional share with share counts that are not negative, the
scheduling loop reaches a dispatch after finitely many iterations exactly when
some RUNNABLE descriptor has at least one share; a dispatched process is
RUNNABLE with at least one share, so a process with 0 shares (as after SET_SHARE
with argument 0) is never dispatched, and when no RUNNABLE descriptor has a
positive number of shares the loop never dispatches, however long it runs. -/
theorem proportional_share_dispatch_iff (k : Kernel) (hmode : k.scheduling_algorithm = 3)
    (hcount : ∀ i, 0 ≤ (k.proc_array i).p_shareCount) :
    ((∃ fuel k1, schedule fuel k = .dispatch k1) ↔
      ∃ j, (k.proc_array j).p_state = P_RUNNABLE ∧ 1 ≤ (k.proc_array j).p_shares) ∧
    (∀ fuel k1, schedule fuel k = .dispatch k1 →
      (k.proc_array k1.current).p_state = P_RUNNABLE ∧
      1 ≤ (k.proc_array k1.current).p_shares) ∧
    (∀ j fuel k1, (k.proc_array j).p_shares = 0 → schedule fuel k = .dispatch k1 →
      k1.current ≠ j) ∧
    ((∀ j, (k.proc_array j).p_state = P_RUNNABLE → (k.proc_array j).p_shares ≤ 0) →
      ∀ fuel, ∃ k1, schedule fuel k = .fuelOut k1) ∧
    (∀ (T : TrapNumbers) (reg : registers_t) (fuel : Nat),
      reg.reg_intno = T.INT_SYS_SHARE → reg.reg_eax = 0 →
      ∃ k1, interrupt T fuel k reg = .dispatch k1 ∧ k1.current = k.current ∧
        (k1.proc_array k.current).p_shares = 0) := by
  have hdisp : ∀ fuel k1, schedule fuel k = .dispatch k1 →
      (k.proc_array k1.current).p_state = P_RUNNABLE ∧
      1 ≤ (k.proc_array k1.current).p_shares := by
    intro fuel k1 h
    refine ⟨schedule_dispatch_runnable fuel k k1 h, ?_⟩
    rw [schedule_share _ k hmode] at h
    exact shareLoop_dispatch_shares fuel k k.current k1 hcount h
  refine ⟨⟨?_, ?_⟩, hdisp, ?_, ?_, ?_⟩
  · rintro ⟨fuel, k1, h⟩
    exact ⟨k1.current, hdisp fuel k1 h⟩
  · intro h
    obtain ⟨f0, k1, hk1⟩ := schedule_dispatches_of_shares k hmode h
    exact ⟨f0, k1, hk1 f0 (le_refl _)⟩
  · intro j fuel k1 hj h hc
    have := (hdisp fuel k1 h).2
    rw [hc, hj] at this
    omega
  · intro hnone fuel
    rcases shareLoop_outcome fuel k k.current with ⟨k1, h⟩ | h
    · rw [← schedule_share _ k hmode] at h
      obtain ⟨h1, h2⟩ := hdisp fuel k1 h
      have := hnone _ h1
      omega
    · rw [schedule_share _ k hmode]; exact h
  · intro T reg fuel hs h0
    refine ⟨_, interrupt_share T fuel k reg hs, rfl, ?_⟩
    rw [setProc_proc_self, h0]
    rfl

theorem proportional_share_dispatch_iff_witness :
    (bootKernel 3).scheduling_algorithm = 3 ∧
    (∀ i, 0 ≤ ((bootKernel 3).proc_array i).p_shareCount) ∧
    ∃ fuel k1, schedule fuel (bootKernel 3) = .dispatch k1 :=
  ⟨rfl, by decide,
    (proportional_share_dispatch_iff (bootKernel 3) rfl (by decide)).1.2
      ⟨1, by decide, by decide⟩⟩

/-- C19: for a cumulative ticket table with
`0 <= tickets[1] <= tickets[2] <= tickets[3] <= tickets[4] = tickets[0]` and
`tickets[0] > 0`, every selector in `0 .. tickets[0] - 1` chooses a pid in
`1..NPROCS-1` (the selector of a draw is in that range), and the number of
selector values that choose pid `i` is the ticket count of that process,
`tickets[i] - tickets[i-1]` (`tickets[1]` for pid 1); for the table
`[142, 30, 32, 42, 142]` the counts are 30, 2, 10 and 100. -/
theorem lottery_ticket_counts (t : Fin NPROCS → Int) (h1 : 0 ≤ t 1) (h12 : t 1 ≤ t 2)
    (h23 : t 2 ≤ t 3) (h34 : t 3 ≤ t 4) (h40 : t 4 = t 0) (hpos : 0 < t 0) :
    (∀ s : Int, 0 ≤ s → s < t 0 → ∃ i : Fin NPROCS, 1 ≤ i.val ∧ lotteryPick t s = some i) ∧
    (∀ k : Kernel, k.lottery_values = t → t 0 < 2 ^ 31 →
      0 ≤ nextSelector k ∧ nextSelector k < t 0) ∧
    (selectorCount t 1 : Int) = t 1 ∧ (selectorCount t 2 : Int) = t 2 - t 1 ∧
    (selectorCount t 3 : Int) = t 3 - t 2 ∧ (selectorCount t 4 : Int) = t 4 - t 3 ∧
    selectorCount t 0 = 0 ∧
    selectorCount sampleTickets 1 = 30 ∧ selectorCount sampleTickets 2 = 2 ∧
    selectorCount sampleTickets 3 = 10 ∧ selectorCount sampleTickets 4 = 100 := by
  obtain ⟨c1, c2, c3, c4, c0⟩ := selectorCount_sorted t h1 h12 h23 h34 h40
  obtain ⟨d1, d2, d3, d4, -⟩ := selectorCount_sorted sampleTickets (by decide) (by decide)
    (by decide) (by decide) (by decide)
  have s1 : sampleTickets 1 = 30 := rfl
  have s2 : sampleTickets 2 = 32 := rfl
  have s3 : sampleTickets 3 = 42 := rfl
  have s4 : sampleTickets 4 = 142 := rfl
  rw [s1] at d1
  rw [s2, s1] at d2
  rw [s3, s2] at d3
  rw [s4, s3] at d4
  refine ⟨?_, ?_, c1, c2, c3, c4, c0, by omega, by omega, by omega, by omega⟩
  · intro s hs0 hs
    cases hp : lotteryPick t s with
    | none =>
      rw [lotteryPick_none] at hp
      have := hp 4 (by decide)
      rw [h40] at this
      exact absurd hs this
    | some i =>
      exact ⟨i, ((lotteryPick_some t s i).1 hp).1, rfl⟩
  · intro k hk hint
    subst hk
    exact nextSelector_range k hpos hint

theorem lottery_ticket_counts_witness :
    0 ≤ sampleTickets 1 ∧ sampleTickets 1 ≤ sampleTickets 2 ∧
    sampleTickets 2 ≤ sampleTickets 3 ∧ sampleTickets 3 ≤ sampleTickets 4 ∧
    sampleTickets 4 = sampleTickets 0 ∧ 0 < sampleTickets 0 ∧
    ∃ i : Fin NPROCS, 1 ≤ i.val ∧ lotteryPick sampleTickets 141 = some i :=
  ⟨by decide, by decide, by decide, by decide, by decide, by decide,
    (lottery_ticket_counts sampleTickets (by decide) (by decide) (by decide) (by decide)
      (by decide) (by decide)).1 141 (by decide) (by decide)⟩

/-- C20: on register values below `2 ^ 16` the step of the random source is injective,
stays below `2 ^ 16` and maps 0 to 0; so from a non-zero seed below `2 ^ 16` the
register never becomes 0 and no call returns 0, while from seed 0 every call
returns 0, the register stays 0 and every lottery draw has selector 0. -/
theorem lfsr_injective_below_two_pow_16 :
    (∀ k k1 : Kernel, k.tsc < 2 ^ 16 → k1.tsc < 2 ^ 16 →
      (linear_feedback_shift_register k).1 = (linear_feedback_shift_register k1).1 →
      k.tsc = k1.tsc) ∧
    (∀ k : Kernel, k.tsc < 2 ^ 16 → (linear_feedback_shift_register k).1 < 2 ^ 16) ∧
    (∀ k : Kernel, k.tsc = 0 →
      (linear_feedback_shift_register k).1 = 0 ∧ (linear_feedback_shift_register k).2 = k) ∧
    (∀ (k : Kernel) (n : Nat), k.tsc < 2 ^ 16 → k.tsc ≠ 0 →
      (lfsrCalls n k).2.tsc ≠ 0 ∧ ∀ v ∈ (lfsrCalls n k).1, v ≠ 0) ∧
    (∀ (k : Kernel) (n : Nat), k.tsc = 0 →
      (lfsrCalls n k).1 = List.replicate n 0 ∧ (lfsrCalls n k).2 = k ∧
      nextSelector (lfsrCalls n k).2 = 0) ∧
    (∀ (k : Kernel) (f : Nat), k.scheduling_algorithm = 4 → k.tsc = 0 →
      toUInt32 (k.lottery_values 0) ≠ 0 →
      schedule (f + 1) k =
        match lotteryPick k.lottery_values 0 with
        | some i => if (k.proc_array i).p_state = P_RUNNABLE then run k i else schedule f k
        | none => schedule f k) := by
  refine ⟨?_, ?_, lfsr_fixed_at_zero, ?_, ?_, ?_⟩
  · intro k k1 h h1 he
    exact lfsrStepSpec_inj _ _ h h1 he
  · intro k h
    exact lfsrStepSpec_lt _ 16 (le_refl _) h
  · intro k n h h0
    refine ⟨?_, ?_⟩
    · rw [(lfsrCalls_values n k).2]
      exact lfsr_iterate_ne_zero _ h h0 n
    · intro v hv
      rw [(lfsrCalls_values n k).1] at hv
      simp only [List.mem_map] at hv
      obtain ⟨a, -, rfl⟩ := hv
      exact lfsr_iterate_ne_zero _ h h0 _
  · intro k n h
    obtain ⟨h1, h2⟩ := lfsrCalls_zero n k h
    refine ⟨h1, h2, ?_⟩
    rw [h2]
    exact nextSelector_zero k h
  · intro k f hmode h htot
    rw [schedule_lottery _ k hmode, schedule_lottery _ k hmode, lotteryLoop]
    have hsel := nextSelector_zero k h
    unfold nextSelector at hsel
    have e2 := (lfsr_fixed_at_zero k h).2
    simp only [e2, htot, if_false, hsel]

end SchedOS
